import Mathlib

/-! Sparse matrix (`spmatrix.js`): a shallow embedding.

The class `SparseMatrix` of `src/dsa/sparse_matrix/code/src/spmatrix.js` keeps a
plain JavaScript object `matrix` (row key -> object (column key -> value)) and
two dimensions `numRows`, `numCols`.

Modelling choices, all of them about the host language rather than the program:

* JavaScript values that reach the class are the integer Numbers, `NaN` and
  `undefined` (`JSVal`).  Fractional Numbers, infinities and the sign of zero
  are outside the embedding; integers are unbounded (`Int`), with exact sums and
  products, and their strings are their decimal digits.
* A property key is the string of a value.  On `JSVal` the conversion to a
  string is injective, so a key is represented by the value whose string it is.
* An object is the list of its own properties in the order `for ... in` and
  `Object.keys` visit them: array-index keys (the integers `0 .. 2^32 - 2`)
  ascending, then every other key in insertion order.
* Strings are lists of characters.
-/

set_option autoImplicit false

/-- The JavaScript values of the embedding: an integer Number, `NaN`, `undefined`. -/
inductive JSVal where
  | int (i : Int)
  | nan
  | undef
  deriving DecidableEq, Repr

namespace JSVal

/-- The operator `!==` on two values: `NaN` differs from everything, itself included. -/
def strictNe : JSVal → JSVal → Bool
  | int a, int b => decide (a ≠ b)
  | undef, undef => false
  | _, _ => true

/-- The operator `<` on two values (after conversion to Number, `undefined` is `NaN`,
and every comparison with `NaN` is false). -/
def lt : JSVal → JSVal → Bool
  | int a, int b => decide (a < b)
  | _, _ => false

/-- A key is an array index when it is the string of an integer in `0 .. 2^32 - 2`. -/
def isArrayIndex : JSVal → Bool
  | int i => decide (0 ≤ i) && decide (i < 4294967295)
  | _ => false

/-- The numeric order of two array-index keys. -/
def indexLt : JSVal → JSVal → Bool
  | int a, int b => decide (a < b)
  | _, _ => false

/-- The value of `x || 0` where `x` is a property read (`none`: the property is
absent, so the read gives `undefined`).  `undefined`, `NaN` and `0` are falsy. -/
def orZero : Option JSVal → Int
  | some (int i) => i
  | _ => 0

end JSVal

deriving instance DecidableEq for Except

/-- A JavaScript object: its own properties in enumeration order. -/
abbrev JSObj (α : Type) := List (JSVal × α)

namespace JSObj

variable {α : Type}

/-- The property read `o[k]`. -/
def get (k : JSVal) : JSObj α → Option α
  | [] => none
  | (k', v) :: rest => if k' = k then some v else get k rest

/-- Overwrite the value of the existing property `k`, which keeps its place. -/
def replace (k : JSVal) (v : α) : JSObj α → JSObj α
  | [] => []
  | (k', v') :: rest => if k' = k then (k, v) :: rest else (k', v') :: replace k v rest

/-- Create the property `k`, absent so far: an array index goes before the first
property that is not an array index or is a greater one, any other key goes last. -/
def create (k : JSVal) (v : α) : JSObj α → JSObj α
  | [] => [(k, v)]
  | (k', v') :: rest =>
    if k.isArrayIndex && (!k'.isArrayIndex || k.indexLt k') then (k, v) :: (k', v') :: rest
    else (k', v') :: create k v rest

/-- The property write `o[k] = v`. -/
def set (k : JSVal) (v : α) (o : JSObj α) : JSObj α :=
  if (get k o).isSome then replace k v o else create k v o

/-- The keys `for (const k in o)` and `Object.keys(o)` visit, in order. -/
def keys (o : JSObj α) : List JSVal := o.map Prod.fst

end JSObj

/-- The state of a `SparseMatrix` instance. -/
structure SparseMatrix where
  matrix : JSObj (JSObj JSVal)
  numRows : JSVal
  numCols : JSVal
  deriving DecidableEq, Repr

namespace SparseMatrix

/-- The constructor called as `new SparseMatrix(null, numRows, numCols)`. -/
def new (numRows numCols : JSVal) : SparseMatrix :=
  { matrix := [], numRows := numRows, numCols := numCols }

/-- The method `getElement`: `this.matrix[row]?.[col] || 0`. -/
def getElement (m : SparseMatrix) (row col : JSVal) : Int :=
  match JSObj.get row m.matrix with
  | none => JSVal.orZero none
  | some r => JSVal.orZero (JSObj.get col r)

/-- The method `setElement`: when `value !== 0`, the row object is created if it is
absent and the column property is written in it. -/
def setElement (m : SparseMatrix) (row col value : JSVal) : SparseMatrix :=
  if value ≠ JSVal.int 0 then
    { m with matrix :=
        JSObj.set row (JSObj.set col value ((JSObj.get row m.matrix).getD [])) m.matrix }
  else m

/-- The values `i = 0, 1, ...` a loop `for (let i = 0; i < bound; i++)` visits. -/
def loopRange (bound : JSVal) : List Int :=
  match bound with
  | JSVal.int n => (List.range n.toNat).map Int.ofNat
  | _ => []

/-- The method `operate`: a dense double loop over `this.numRows x this.numCols`. -/
def operate (A B : SparseMatrix) (operation : Int → Int → Int) : SparseMatrix :=
  (loopRange A.numRows).foldl
    (fun result row =>
      (loopRange A.numCols).foldl
        (fun result col =>
          let value := operation (A.getElement (JSVal.int row) (JSVal.int col))
            (B.getElement (JSVal.int row) (JSVal.int col))
          result.setElement (JSVal.int row) (JSVal.int col) (JSVal.int value))
        result)
    (new A.numRows A.numCols)

/-- The method `add`. -/
def add (A B : SparseMatrix) : SparseMatrix := operate A B (fun a b => a + b)

/-- The method `subtract`. -/
def subtract (A B : SparseMatrix) : SparseMatrix := operate A B (fun a b => a - b)

/-- The `reduce` of `multiply`: the sum over the keys `k` of `this.matrix[row]` of
`this.getElement(row, k) * otherMatrix.getElement(k, col)`. -/
def dotRow (A B : SparseMatrix) (row col : JSVal) : Int :=
  (JSObj.keys ((JSObj.get row A.matrix).getD [])).foldl
    (fun acc k => acc + A.getElement row k * B.getElement k col) 0

/-- The method `multiply`: it throws when `this.numCols !== otherMatrix.numRows`;
otherwise, for every key `row` of `this.matrix` and every key `col` of
`otherMatrix.matrix`, it stores the sum `dotRow` at `(row, col)` of a new matrix. -/
def multiply (A B : SparseMatrix) : Except String SparseMatrix :=
  if JSVal.strictNe A.numCols B.numRows then
    Except.error "Matrix multiplication not possible with incompatible sizes."
  else
    Except.ok
      ((JSObj.keys A.matrix).foldl
        (fun result row =>
          (JSObj.keys B.matrix).foldl
            (fun result col => result.setElement row col (JSVal.int (dotRow A B row col)))
            result)
        (new A.numRows B.numCols))

/-- Build a matrix the way a caller does: the constructor, then `setElement` calls. -/
def build (numRows numCols : Int) (entries : List (Int × Int × Int)) : SparseMatrix :=
  entries.foldl
    (fun m e => m.setElement (JSVal.int e.1) (JSVal.int e.2.1) (JSVal.int e.2.2))
    (new (JSVal.int numRows) (JSVal.int numCols))

end SparseMatrix

/-! ## Instances as objects in a store

The methods above are functions of the instance states they read.  To speak about
what a call leaves untouched, the same methods are given over a store of
instances: a reference is an index, `new` appends an instance, and a method reads
and writes the instance a reference names.  The bound of a counted loop and the
keys of a `for ... in` loop are read from the store when the loop is entered; every
other read is made from the store as it is at that moment. -/

/-- The store of the instances allocated so far. -/
abbrev Store := List SparseMatrix

namespace Store

/-- The instance a reference names. -/
def read (s : Store) (ref : Nat) : SparseMatrix := s.getD ref (SparseMatrix.new JSVal.undef JSVal.undef)

/-- Replace the state of the instance a reference names. -/
def write (s : Store) (ref : Nat) (m : SparseMatrix) : Store := List.set s ref m

/-- Evaluate `new SparseMatrix(null, numRows, numCols)`: the new store and the reference. -/
def alloc (s : Store) (numRows numCols : JSVal) : Store × Nat :=
  (s ++ [SparseMatrix.new numRows numCols], s.length)

/-- The call `ref.getElement(row, col)`. -/
def getElement (s : Store) (ref : Nat) (row col : JSVal) : Int :=
  (s.read ref).getElement row col

/-- The call `ref.setElement(row, col, value)`: it writes the instance `ref` only. -/
def setElement (s : Store) (ref : Nat) (row col value : JSVal) : Store :=
  s.write ref ((s.read ref).setElement row col value)

/-- The call `a.operate(b, operation)`: the final store and the reference returned. -/
def operate (s : Store) (a b : Nat) (operation : Int → Int → Int) : Store × Nat :=
  let (s0, result) := s.alloc (s.read a).numRows (s.read a).numCols
  ((SparseMatrix.loopRange (s0.read a).numRows).foldl
    (fun s1 row =>
      (SparseMatrix.loopRange (s1.read a).numCols).foldl
        (fun s2 col =>
          let value := operation (s2.getElement a (JSVal.int row) (JSVal.int col))
            (s2.getElement b (JSVal.int row) (JSVal.int col))
          s2.setElement result (JSVal.int row) (JSVal.int col) (JSVal.int value))
        s1)
    s0, result)

/-- The call `a.add(b)`. -/
def add (s : Store) (a b : Nat) : Store × Nat := s.operate a b (fun x y => x + y)

/-- The call `a.subtract(b)`. -/
def subtract (s : Store) (a b : Nat) : Store × Nat := s.operate a b (fun x y => x - y)

/-- The `reduce` of `multiply`, read from the store. -/
def dotRow (s : Store) (a b : Nat) (row col : JSVal) : Int :=
  (JSObj.keys ((JSObj.get row (s.read a).matrix).getD [])).foldl
    (fun acc k => acc + s.getElement a row k * s.getElement b k col) 0

/-- The call `a.multiply(b)`: the final store, and the reference returned or the
message of the error thrown. -/
def multiply (s : Store) (a b : Nat) : Store × Except String Nat :=
  if JSVal.strictNe (s.read a).numCols (s.read b).numRows then
    (s, Except.error "Matrix multiplication not possible with incompatible sizes.")
  else
    let (s0, result) := s.alloc (s.read a).numRows (s.read b).numCols
    ((JSObj.keys (s0.read a).matrix).foldl
      (fun s1 row =>
        (JSObj.keys (s1.read b).matrix).foldl
          (fun s2 col => s2.setElement result row col (JSVal.int (s2.dotRow a b row col)))
          s1)
      s0, Except.ok result)

end Store

/-! ## Text: the host string functions the class calls -/

/-- A JavaScript string. -/
abbrev Str := List Char

namespace JSString

/-- White space and line terminators, the characters `trim`, `Number` and
`parseInt` strip. -/
def isWhiteSpace (c : Char) : Bool :=
  let n := c.toNat
  n == 9 || n == 10 || n == 11 || n == 12 || n == 13 || n == 32 || n == 160 || n == 5760 ||
  (8192 ≤ n && n ≤ 8202) || n == 8232 || n == 8233 || n == 8239 || n == 8287 || n == 12288 ||
  n == 65279

/-- The method `trim`. -/
def trim (s : Str) : Str :=
  ((s.dropWhile isWhiteSpace).reverse.dropWhile isWhiteSpace).reverse

/-- The method `split` with a separator of one character. -/
def split (sep : Char) : Str → List Str
  | [] => [[]]
  | c :: cs =>
    if c = sep then [] :: split sep cs
    else
      match split sep cs with
      | [] => [[c]]
      | l :: ls => (c :: l) :: ls

/-- The value of a character as a digit: `0-9`, then `a-z` or `A-Z` for ten and up. -/
def digitValue (c : Char) : Option Nat :=
  let n := c.toNat
  if 48 ≤ n ∧ n ≤ 57 then some (n - 48)
  else if 97 ≤ n ∧ n ≤ 122 then some (n - 87)
  else if 65 ≤ n ∧ n ≤ 90 then some (n - 55)
  else none

/-- Whether a character is a digit of the radix. -/
def isDigit (radix : Nat) (c : Char) : Bool :=
  match digitValue c with
  | some d => decide (d < radix)
  | none => false

/-- The number a string of digits of the radix writes. -/
def digitsValue (radix : Nat) (s : Str) : Nat :=
  s.foldl (fun acc c => acc * radix + (digitValue c).getD 0) 0

/-- The sign `parseInt` reads: whether it is `-`, and the rest of the string. -/
def stripSign (s : Str) : Bool × Str :=
  match s with
  | c :: r => if c = '-' then (true, r) else if c = '+' then (false, r) else (false, s)
  | [] => (false, s)

/-- The radix `parseInt` chooses: 16 after a prefix `0x` or `0X`, else 10; and the rest
of the string. -/
def stripRadix (s : Str) : Nat × Str :=
  match s with
  | c0 :: c1 :: r => if c0 = '0' ∧ (c1 = 'x' ∨ c1 = 'X') then (16, r) else (10, s)
  | _ => (10, s)

/-- The function `parseInt(string)` (no radix argument): leading white space is
skipped, a sign is read, a prefix `0x` or `0X` selects radix 16, and the longest
run of digits is the value; `NaN` when there is no digit. -/
def parseInt (s : Str) : JSVal :=
  let signed := stripSign (s.dropWhile isWhiteSpace)
  let based := stripRadix signed.2
  let ds := based.2.takeWhile (isDigit based.1)
  if ds = [] then JSVal.nan
  else if signed.1 then JSVal.int (-(digitsValue based.1 ds : Int))
  else JSVal.int (digitsValue based.1 ds)

/-- The number a run of digits of the radix writes, `NaN` when the run is empty or has
another character. -/
def digitsOrNaN (radix : Nat) (s : Str) : JSVal :=
  if s ≠ [] ∧ s.all (isDigit radix) = true then JSVal.int (digitsValue radix s) else JSVal.nan

/-- The literals with a radix prefix that `Number` reads: `0x`, `0o`, `0b` (either case)
and digits of the radix, without a sign; `none` when the string has no such prefix. -/
def radixLiteral (s : Str) : Option JSVal :=
  match s with
  | c0 :: c1 :: r =>
    if c0 = '0' then
      if c1 = 'x' ∨ c1 = 'X' then some (digitsOrNaN 16 r)
      else if c1 = 'o' ∨ c1 = 'O' then some (digitsOrNaN 8 r)
      else if c1 = 'b' ∨ c1 = 'B' then some (digitsOrNaN 2 r)
      else none
    else none
  | _ => none

/-- The exponent part of a decimal literal, `e` or `E`, an optional sign and digits: its
value, `0` when the part is absent, `none` when what is there is not an exponent part. -/
def exponentPart (s : Str) : Option Int :=
  match s with
  | [] => some 0
  | c :: r =>
    if c = 'e' ∨ c = 'E' then
      match r with
      | [] => none
      | c1 :: r1 =>
        if c1 = '-' then
          (if r1 ≠ [] ∧ r1.all (isDigit 10) = true then some (-(digitsValue 10 r1 : Int)) else none)
        else if c1 = '+' then
          (if r1 ≠ [] ∧ r1.all (isDigit 10) = true then some (digitsValue 10 r1 : Int) else none)
        else if r.all (isDigit 10) = true then some (digitsValue 10 r : Int)
        else none
    else none

/-- The Number `m * 10^e` with its sign, when it is an integer; `NaN` stands for the
others, which are outside the embedding. -/
def scaled (negative : Bool) (m : Nat) (e : Int) : JSVal :=
  if 0 ≤ e then
    (if negative then JSVal.int (-((m * 10 ^ e.toNat : Nat) : Int))
      else JSVal.int ((m * 10 ^ e.toNat : Nat) : Int))
  else if 10 ^ (-e).toNat ∣ m then
    (if negative then JSVal.int (-((m / 10 ^ (-e).toNat : Nat) : Int))
      else JSVal.int ((m / 10 ^ (-e).toNat : Nat) : Int))
  else JSVal.nan

/-- The unsigned decimal literals `Number` reads: digits, an optional point and further
digits, an optional exponent part; at least one digit before the exponent.  `NaN` for
anything else. -/
def decimalLiteral (negative : Bool) (s : Str) : JSVal :=
  let intDigits := s.takeWhile (isDigit 10)
  let afterInt := s.dropWhile (isDigit 10)
  let fracDigits : Str :=
    match afterInt with
    | c :: r => if c = '.' then r.takeWhile (isDigit 10) else []
    | [] => []
  let afterFrac : Str :=
    match afterInt with
    | c :: r => if c = '.' then r.dropWhile (isDigit 10) else afterInt
    | [] => []
  if intDigits = [] ∧ fracDigits = [] then JSVal.nan
  else
    match exponentPart afterFrac with
    | none => JSVal.nan
    | some x => scaled negative (digitsValue 10 (intDigits ++ fracDigits)) (x - fracDigits.length)

/-- The function `Number(string)`: white space is trimmed, the empty string is `0`, a
literal with a radix prefix or an optionally signed decimal literal is its value when
that is an integer, and anything else is `NaN`.  (The literals that denote a fraction
and `Infinity` denote Numbers outside the embedding.) -/
def toNumber (s : Str) : JSVal :=
  match trim s with
  | [] => JSVal.int 0
  | c :: r =>
    match radixLiteral (c :: r) with
    | some v => v
    | none =>
      if c = '-' then decimalLiteral true r
      else if c = '+' then decimalLiteral false r
      else decimalLiteral false (c :: r)

/-- The character of a decimal digit. -/
def digitChar (d : Nat) : Char := Char.ofNat (48 + d)

/-- The decimal digits of a natural number, most significant first, in front of `acc`. -/
def natDigits : Nat → Nat → Str → Str
  | 0, _, acc => acc
  | fuel + 1, n, acc =>
    if n < 10 then digitChar n :: acc
    else natDigits fuel (n / 10) (digitChar (n % 10) :: acc)

/-- The decimal string of a natural number. -/
def ofNat (n : Nat) : Str := natDigits (n + 1) n []

/-- The plain decimal string of an integer: a minus sign for a negative one, then the
digits. -/
def ofInt (i : Int) : Str := if i < 0 then '-' :: ofNat i.natAbs else ofNat i.toNat

/-- The exponent form of the run of digits `D` of a number: the first digit, then a
point and the further digits without the trailing zeros, when there are any, then `e+`
and the exponent, one less than the number of digits. -/
def expForm (D : Str) : Str :=
  match (D.reverse.dropWhile (fun c => c = '0')).reverse with
  | [] => D
  | d :: rest =>
    if rest = [] then d :: 'e' :: '+' :: ofNat (D.length - 1)
    else d :: '.' :: (rest ++ 'e' :: '+' :: ofNat (D.length - 1))

/-- The string of a non-negative integer Number: its decimal digits below `10^21`, and
the exponent form from `10^21` on. -/
def ofMagnitude (n : Nat) : Str :=
  if n < 1000000000000000000000 then ofNat n else expForm (ofNat n)

/-- The string of a value, as a template literal `${v}` and a property key give it.
An integer below `10^21` in absolute value is written with its decimal digits, and one
from `10^21` on in exponent form, as `1e+21` and `-1.5e+21`.  (The digits written in the
exponent form are those of the integer; a Number has no more than 17 of them.) -/
def ofVal : JSVal → Str
  | JSVal.int i => if i < 0 then '-' :: ofMagnitude i.natAbs else ofMagnitude i.natAbs
  | JSVal.nan => "NaN".toList
  | JSVal.undef => "undefined".toList

end JSString

namespace SparseMatrix

/-- The method `parseEntry`: parentheses are removed, the line is split at commas,
every piece goes through `Number`, and the first three results are taken
(`undefined` for a missing one). -/
def parseEntry (line : Str) : JSVal × JSVal × JSVal :=
  let nums := (JSString.split ',' (line.filter (fun c => c ≠ '(' ∧ c ≠ ')'))).map JSString.toNumber
  (nums.getD 0 JSVal.undef, nums.getD 1 JSVal.undef, nums.getD 2 JSVal.undef)

/-- The value of `parseInt(line.split('=')[1])`; a missing piece is `undefined`,
whose string has no digit. -/
def parseHeader (line : Str) : JSVal :=
  match (JSString.split '=' line).get? 1 with
  | some piece => JSString.parseInt piece
  | none => JSVal.nan

/-- The method `loadMatrix`, given the content of the file: the two header lines
set the dimensions and every further line is an entry stored with `setElement`.
The only throw is the `TypeError` of `lines[1].split` when the trimmed content has a
single line; the `catch` wraps it. -/
def loadMatrix (m : SparseMatrix) (fileContent : Str) : Except String SparseMatrix :=
  match JSString.split (Char.ofNat 10) (JSString.trim fileContent) with
  | line0 :: line1 :: entries =>
    Except.ok
      (entries.foldl
        (fun m line =>
          let e := parseEntry line
          m.setElement e.1 e.2.1 e.2.2)
        { m with numRows := parseHeader line0, numCols := parseHeader line1 })
  | _ => Except.error "Error loading matrix: lines[1] is undefined"

/-- The constructor called as `new SparseMatrix(matrixFile)`, given the content of
the file: the dimensions default to `0` and `loadMatrix` fills the instance. -/
def ofFile (fileContent : Str) : Except String SparseMatrix :=
  loadMatrix (new (JSVal.int 0) (JSVal.int 0)) fileContent

/-- The line `(row, col, value)` and its line feed, as `saveToFile` appends it. -/
def entryLine (row col value : JSVal) : Str :=
  "(".toList ++ JSString.ofVal row ++ ", ".toList ++ JSString.ofVal col ++ ", ".toList ++
    JSString.ofVal value ++ [')', Char.ofNat 10]

/-- The string `content` that `saveToFile` builds. -/
def content (m : SparseMatrix) : Str :=
  "rows=".toList ++ JSString.ofVal m.numRows ++ [Char.ofNat 10] ++
  "cols=".toList ++ JSString.ofVal m.numCols ++ [Char.ofNat 10] ++
  (m.matrix.flatMap fun r => r.2.flatMap fun e => entryLine r.1 e.1 e.2)

/-- The method `saveToFile`: it throws on a missing, empty or blank path, and
otherwise hands `content` to the file system (the result is the text written). -/
def saveToFile (m : SparseMatrix) (filePath : Option Str) : Except String Str :=
  match filePath with
  | none => Except.error "File path cannot be empty."
  | some p =>
    if p = [] ∨ JSString.trim p = [] then Except.error "File path cannot be empty."
    else Except.ok (content m)

end SparseMatrix

/-! ## Predicates and auxiliary functions used in the statements -/

namespace JSVal

/-- A coordinate key lies inside a dimension: it is the string of an integer `i`
with `0 <= i < dim`. -/
def inRange : JSVal → JSVal → Bool
  | int i, int n => decide (0 ≤ i) && decide (i < n)
  | _, _ => false

/-- The key `a` may be enumerated before the key `b`: they differ, and when `b` is an
array index so is `a`, with a smaller number. -/
def keyBefore (a b : JSVal) : Bool :=
  decide (a ≠ b) && (!b.isArrayIndex || (a.isArrayIndex && a.indexLt b))

/-- The value is an integer Number whose string is the run of its decimal digits, that
is, one below `10^21` in absolute value (from `10^21` on the string of a Number takes
an exponent, and `parseInt` reads only the digits in front of it). -/
def isPlainInt : JSVal → Bool
  | int i => decide (-1000000000000000000000 < i) && decide (i < 1000000000000000000000)
  | _ => false

/-- The value is an integer Number other than `0`. -/
def isNonZeroInt : JSVal → Bool
  | int i => decide (i ≠ 0)
  | _ => false

end JSVal

namespace JSObj

/-- The list is the enumeration of an object: the keys are distinct, the array indices
come first and ascend. -/
def Ordered {α : Type} (o : JSObj α) : Prop :=
  List.Pairwise (fun a b => JSVal.keyBefore a b = true) (keys o)

instance {α : Type} (o : JSObj α) : Decidable (Ordered o) := by
  unfold Ordered
  infer_instance

end JSObj

namespace SparseMatrix

/-- The state is one the property map of an instance can be in: `matrix` and every row
object are enumerations of objects, and no row object is empty (`setElement` creates a
row only to write a column into it). -/
def IsObjectState (m : SparseMatrix) : Prop :=
  JSObj.Ordered m.matrix ∧ ∀ row ∈ m.matrix, row.2 ≠ [] ∧ JSObj.Ordered row.2

instance (m : SparseMatrix) : Decidable (IsObjectState m) := by
  unfold IsObjectState
  infer_instance

/-- The stored entries `(row, col, value)` of a matrix, in enumeration order. -/
def entries (m : SparseMatrix) : List (JSVal × JSVal × JSVal) :=
  m.matrix.flatMap fun r => r.2.map fun e => (r.1, e.1, e.2)

/-- The nested loop shared by `operate` and `multiply`: for every `row` of `rows` and
every `col` of `cols`, in order, `setElement(row, col, f row col)`. -/
def fillWith (f : JSVal → JSVal → Int) (rows cols : List JSVal) (result : SparseMatrix) :
    SparseMatrix :=
  rows.foldl
    (fun result row =>
      cols.foldl (fun result col => result.setElement row col (JSVal.int (f row col))) result)
    result

/-- The storage invariant: no stored entry has the value `0`. -/
def NoZero (m : SparseMatrix) : Prop := ∀ e ∈ m.entries, e.2.2 ≠ JSVal.int 0

/-- The bounds invariant: every stored coordinate lies inside the dimensions. -/
def InBounds (m : SparseMatrix) : Prop :=
  ∀ e ∈ m.entries, JSVal.inRange e.1 m.numRows = true ∧ JSVal.inRange e.2.1 m.numCols = true

instance (m : SparseMatrix) : Decidable (NoZero m) := by
  unfold NoZero
  infer_instance

instance (m : SparseMatrix) : Decidable (InBounds m) := by
  unfold InBounds
  infer_instance

/-- A well-formed matrix: the dimensions are integers (written with plain digits),
every stored coordinate lies inside them, and every stored value is a non-zero
integer. -/
def WellFormed (m : SparseMatrix) : Prop :=
  IsObjectState m ∧ m.numRows.isPlainInt = true ∧ m.numCols.isPlainInt = true ∧ InBounds m ∧
    ∀ e ∈ m.entries, e.2.2.isNonZeroInt = true

instance (m : SparseMatrix) : Decidable (WellFormed m) := by
  unfold WellFormed
  infer_instance

/-- The text of an entry line, without its line feed. -/
def lineOf (e : JSVal × JSVal × JSVal) : Str :=
  "(".toList ++ JSString.ofVal e.1 ++ ", ".toList ++ JSString.ofVal e.2.1 ++ ", ".toList ++
    JSString.ofVal e.2.2 ++ [')']

/-- The call `setElement` on the three components of an entry. -/
def store (m : SparseMatrix) (e : JSVal × JSVal × JSVal) : SparseMatrix :=
  m.setElement e.1 e.2.1 e.2.2

/-- The matrices the public interface produces when every `setElement` call is given
a coordinate inside the declared dimensions: the constructor, such `setElement` calls,
and the results of `add`, `subtract` and `multiply` on matrices so produced. -/
inductive Produced : SparseMatrix → Prop
  | new (R C : JSVal) : Produced (SparseMatrix.new R C)
  | setElement (m : SparseMatrix) (r c v : JSVal) :
      Produced m → JSVal.inRange r m.numRows = true → JSVal.inRange c m.numCols = true →
      Produced (m.setElement r c v)
  | add (A B : SparseMatrix) : Produced A → Produced B → Produced (A.add B)
  | subtract (A B : SparseMatrix) : Produced A → Produced B → Produced (A.subtract B)
  | multiply (A B R : SparseMatrix) :
      Produced A → Produced B → SparseMatrix.multiply A B = Except.ok R → Produced R

/-- The dense product entry: the sum over `k = 0, ..., numCols - 1` of
`A.getElement(r, k) * B.getElement(k, c)`. -/
def denseDot (A B : SparseMatrix) (r c : Int) : Int :=
  ((loopRange A.numCols).map fun k =>
    A.getElement (JSVal.int r) (JSVal.int k) * B.getElement (JSVal.int k) (JSVal.int c)).sum

end SparseMatrix

namespace SparseMatrix

/-- The value stored at a coordinate, if there is one: the property read
`this.matrix[row]?.[col]` before `|| 0`. -/
def stored (m : SparseMatrix) (row col : JSVal) : Option JSVal :=
  (JSObj.get row m.matrix).bind (JSObj.get col)

/-- Entry `a` is enumerated before entry `b`: the row key of `a` is enumerated before
that of `b`, or they share the row and the column key of `a` is enumerated first. -/
def entryBefore (a b : JSVal × JSVal × JSVal) : Prop :=
  JSVal.keyBefore a.1 b.1 = true ∨ (a.1 = b.1 ∧ JSVal.keyBefore a.2.1 b.2.1 = true)

end SparseMatrix

namespace JSString

/-- White space that stays inside a line: white space characters other than the line
feed. -/
def isBlank (s : Str) : Bool :=
  s.all fun c => isWhiteSpace c && decide (c ≠ Char.ofNat 10)

end JSString

namespace SparseMatrix

/-- The white space of an entry line `(row, col, value)`: before the line, around each
of the three tokens, and after the line. -/
structure Padding where
  beforeLine : Str
  beforeRow : Str
  afterRow : Str
  beforeCol : Str
  afterCol : Str
  beforeValue : Str
  afterValue : Str
  afterLine : Str

/-- The eight pieces of a padding. -/
def Padding.pieces (p : Padding) : List Str :=
  [p.beforeLine, p.beforeRow, p.afterRow, p.beforeCol, p.afterCol, p.beforeValue, p.afterValue,
    p.afterLine]

/-- Every piece of the padding is white space without a line feed. -/
def Padding.Blank (p : Padding) : Prop := ∀ s ∈ p.pieces, JSString.isBlank s = true

instance (p : Padding) : Decidable p.Blank := by
  unfold Padding.Blank
  infer_instance

/-- The padding of the lines `saveToFile` writes: one space after each comma. -/
def Padding.plain : Padding :=
  { beforeLine := [], beforeRow := [], afterRow := [], beforeCol := [' '], afterCol := [],
    beforeValue := [' '], afterValue := [], afterLine := [] }

/-- An entry line with integer tokens, each the string of its integer, and the white
space of a padding. -/
def paddedLine (p : Padding) (e : Int × Int × Int) : Str :=
  p.beforeLine ++ '(' :: (p.beforeRow ++ (JSString.ofVal (JSVal.int e.1) ++ (p.afterRow ++
    ',' :: (p.beforeCol ++ (JSString.ofVal (JSVal.int e.2.1) ++ (p.afterCol ++
      ',' :: (p.beforeValue ++ (JSString.ofVal (JSVal.int e.2.2) ++ (p.afterValue ++
        ')' :: p.afterLine)))))))))

/-- A text: the header lines `rows=R` and `cols=C`, with `R` and `C` in plain decimal
digits, then the given lines, joined by line feeds. -/
def fileText (R C : Int) (lines : List Str) : Str :=
  ("rows=".toList ++ JSString.ofInt R) ++ Char.ofNat 10 ::
    (("cols=".toList ++ JSString.ofInt C) ++ lines.flatMap fun l => Char.ofNat 10 :: l)

end SparseMatrix

/-! ## Properties of objects -/

namespace JSObj

variable {α : Type}

theorem get_replace (k k' : JSVal) (v : α) (o : JSObj α) (h : (get k o).isSome) :
    get k' (replace k v o) = if k' = k then some v else get k' o := by
  induction o with
  | nil => simp [get] at h
  | cons p rest ih =>
    obtain ⟨k0, v0⟩ := p
    by_cases h0 : k0 = k
    · subst h0
      by_cases h1 : k0 = k'
      · simp [replace, get, h1]
      · have h2 : ¬ k' = k0 := fun e => h1 e.symm
        simp [replace, get, h1, h2]
    · have h3 : (get k rest).isSome := by simpa [get, h0] using h
      by_cases h1 : k0 = k'
      · subst h1
        simp [replace, get, h0]
      · simp [replace, get, h0, h1, ih h3]

theorem get_create (k k' : JSVal) (v : α) (o : JSObj α) (h : get k o = none) :
    get k' (create k v o) = if k' = k then some v else get k' o := by
  induction o with
  | nil =>
    by_cases h1 : k = k'
    · simp [create, get, h1]
    · have h2 : ¬ k' = k := fun e => h1 e.symm
      simp [create, get, h1, h2]
  | cons p rest ih =>
    obtain ⟨k0, v0⟩ := p
    have h0 : ¬ k0 = k := by
      intro e
      simp [get, e] at h
    have h3 : get k rest = none := by simpa [get, h0] using h
    by_cases hc : (k.isArrayIndex && (!k0.isArrayIndex || k.indexLt k0)) = true
    · rw [create, if_pos hc]
      by_cases h1 : k = k'
      · simp [get, h1]
      · have h2 : ¬ k' = k := fun e => h1 e.symm
        simp [get, h1, h2]
    · rw [create, if_neg hc]
      by_cases h1 : k0 = k'
      · subst h1
        simp [get, h0]
      · simp [get, h1, ih h3]

/-- Reading after a write: the written key gives the new value, every other key is
unchanged. -/
theorem get_set (k k' : JSVal) (v : α) (o : JSObj α) :
    get k' (set k v o) = if k' = k then some v else get k' o := by
  unfold set
  by_cases h : (get k o).isSome
  · simp [h, get_replace k k' v o h]
  · have h' : get k o = none := by simpa using h
    simp [h', get_create k k' v o h']

theorem mem_of_get {k : JSVal} {v : α} {o : JSObj α} (h : get k o = some v) : (k, v) ∈ o := by
  induction o with
  | nil => simp [get] at h
  | cons p rest ih =>
    obtain ⟨k0, v0⟩ := p
    by_cases h0 : k0 = k
    · simp [get, h0] at h
      simp [h0, h]
    · simp [get, h0] at h
      exact List.mem_cons_of_mem _ (ih h)

theorem mem_replace {k : JSVal} {v : α} {o : JSObj α} {x : JSVal × α}
    (h : x ∈ replace k v o) : x = (k, v) ∨ x ∈ o := by
  induction o with
  | nil => simp [replace] at h
  | cons p rest ih =>
    obtain ⟨k0, v0⟩ := p
    by_cases h0 : k0 = k
    · simp [replace, h0] at h
      rcases h with h | h
      · exact Or.inl h
      · exact Or.inr (List.mem_cons_of_mem _ h)
    · simp [replace, h0] at h
      rcases h with h | h
      · exact Or.inr (by simp [h])
      · rcases ih h with h | h
        · exact Or.inl h
        · exact Or.inr (List.mem_cons_of_mem _ h)

theorem mem_create {k : JSVal} {v : α} {o : JSObj α} {x : JSVal × α}
    (h : x ∈ create k v o) : x = (k, v) ∨ x ∈ o := by
  induction o with
  | nil => simpa [create] using h
  | cons p rest ih =>
    obtain ⟨k0, v0⟩ := p
    by_cases hc : (k.isArrayIndex && (!k0.isArrayIndex || k.indexLt k0)) = true
    · rw [create, if_pos hc] at h
      rcases List.mem_cons.1 h with h | h
      · exact Or.inl h
      · exact Or.inr h
    · rw [create, if_neg hc] at h
      rcases List.mem_cons.1 h with h | h
      · exact Or.inr (by simp [h])
      · rcases ih h with h | h
        · exact Or.inl h
        · exact Or.inr (List.mem_cons_of_mem _ h)

/-- A write adds at most the written property. -/
theorem mem_set {k : JSVal} {v : α} {o : JSObj α} {x : JSVal × α}
    (h : x ∈ set k v o) : x = (k, v) ∨ x ∈ o := by
  unfold set at h
  by_cases hs : (get k o).isSome
  · rw [if_pos hs] at h
    exact mem_replace h
  · rw [if_neg hs] at h
    exact mem_create h

end JSObj

/-! ## Properties of `getElement`, `setElement` and the nested loop -/

namespace SparseMatrix

@[simp] theorem numRows_setElement (m : SparseMatrix) (r c v : JSVal) :
    (m.setElement r c v).numRows = m.numRows := by
  unfold setElement
  split <;> rfl

@[simp] theorem numCols_setElement (m : SparseMatrix) (r c v : JSVal) :
    (m.setElement r c v).numCols = m.numCols := by
  unfold setElement
  split <;> rfl

theorem getElement_new (R C r c : JSVal) : (new R C).getElement r c = 0 := by
  simp [getElement, new, JSObj.get, JSVal.orZero]

/-- Reading after `setElement`: a non-zero write is read back at its coordinate, a
write of `0` changes nothing, and every other coordinate is unchanged. -/
theorem getElement_setElement (m : SparseMatrix) (r c v r' c' : JSVal) :
    (m.setElement r c v).getElement r' c' =
      if r' = r ∧ c' = c ∧ v ≠ JSVal.int 0 then JSVal.orZero (some v) else m.getElement r' c' := by
  unfold setElement
  by_cases hv : v = JSVal.int 0
  · simp [hv]
  · rw [if_pos hv]
    simp only [getElement, JSObj.get_set]
    by_cases hr : r' = r
    · subst hr
      by_cases hc : c' = c
      · simp [hc, hv, JSObj.get_set]
      · have hc' : ¬ c = c' := fun e => hc e.symm
        cases hg : JSObj.get r' m.matrix <;> simp [hc, hc', JSObj.get, JSObj.get_set]
    · simp [hr]

theorem numRows_fillRow (g : JSVal → JSVal) (row : JSVal) (cols : List JSVal)
    (res : SparseMatrix) :
    (cols.foldl (fun result col => result.setElement row col (g col)) res).numRows
      = res.numRows := by
  induction cols generalizing res with
  | nil => rfl
  | cons col cols ihc => rw [List.foldl_cons, ihc, numRows_setElement]

theorem numCols_fillRow (g : JSVal → JSVal) (row : JSVal) (cols : List JSVal)
    (res : SparseMatrix) :
    (cols.foldl (fun result col => result.setElement row col (g col)) res).numCols
      = res.numCols := by
  induction cols generalizing res with
  | nil => rfl
  | cons col cols ihc => rw [List.foldl_cons, ihc, numCols_setElement]

theorem numRows_fillWith (f : JSVal → JSVal → Int) (rows cols : List JSVal) (res : SparseMatrix) :
    (fillWith f rows cols res).numRows = res.numRows := by
  unfold fillWith
  induction rows generalizing res with
  | nil => rfl
  | cons row rows ih =>
    rw [List.foldl_cons, ih]
    exact numRows_fillRow (fun col => JSVal.int (f row col)) row cols res

theorem numCols_fillWith (f : JSVal → JSVal → Int) (rows cols : List JSVal) (res : SparseMatrix) :
    (fillWith f rows cols res).numCols = res.numCols := by
  unfold fillWith
  induction rows generalizing res with
  | nil => rfl
  | cons row rows ih =>
    rw [List.foldl_cons, ih]
    exact numCols_fillRow (fun col => JSVal.int (f row col)) row cols res

theorem getElement_fillRow (f : JSVal → JSVal → Int) (row : JSVal) (cols : List JSVal)
    (res : SparseMatrix) (r c : JSVal) :
    (cols.foldl (fun result col => result.setElement row col (JSVal.int (f row col))) res).getElement r c
      = if r = row ∧ c ∈ cols ∧ f r c ≠ 0 then f r c else res.getElement r c := by
  induction cols generalizing res with
  | nil => simp
  | cons col cols ih =>
    rw [List.foldl_cons, ih, getElement_setElement]
    by_cases hr : r = row
    · subst hr
      by_cases hc : c = col
      · subst hc
        by_cases hf : f r c = 0
        · simp [hf]
        · simp [hf, JSVal.orZero]
      · by_cases hm : c ∈ cols <;> simp [hc, hm]
    · simp [hr]

/-- Reading after the nested loop: a visited coordinate with a non-zero `f` holds `f`,
every other coordinate holds what `result` held. -/
theorem getElement_fillWith (f : JSVal → JSVal → Int) (rows cols : List JSVal)
    (res : SparseMatrix) (r c : JSVal) :
    (fillWith f rows cols res).getElement r c
      = if r ∈ rows ∧ c ∈ cols ∧ f r c ≠ 0 then f r c else res.getElement r c := by
  unfold fillWith
  induction rows generalizing res with
  | nil => simp
  | cons row rows ih =>
    rw [List.foldl_cons, ih, getElement_fillRow]
    by_cases hr : r = row
    · subst hr
      by_cases hm : r ∈ rows <;> by_cases hc : c ∈ cols <;> by_cases hf : f r c = 0 <;>
        simp [hm, hc, hf]
    · by_cases hm : r ∈ rows <;> simp [hr, hm]

theorem mem_entries (m : SparseMatrix) (r c v : JSVal) :
    (r, c, v) ∈ m.entries ↔ ∃ row, (r, row) ∈ m.matrix ∧ (c, v) ∈ row := by
  unfold entries
  simp only [List.mem_flatMap, List.mem_map, Prod.mk.injEq, Prod.exists]
  constructor
  · rintro ⟨r0, row, hmem, c0, v0, hin, h1, h2, h3⟩
    subst h1 h2 h3
    exact ⟨row, hmem, hin⟩
  · rintro ⟨row, hmem, hin⟩
    exact ⟨r, row, hmem, c, v, hin, rfl, rfl, rfl⟩

/-- An entry stored after `setElement` is the written one or was stored before. -/
theorem mem_entries_setElement (m : SparseMatrix) (r c v : JSVal) (x : JSVal × JSVal × JSVal)
    (h : x ∈ (m.setElement r c v).entries) : (x = (r, c, v) ∧ v ≠ JSVal.int 0) ∨ x ∈ m.entries := by
  obtain ⟨xr, xc, xv⟩ := x
  unfold setElement at h
  by_cases hv : v = JSVal.int 0
  · rw [if_neg (not_not.2 hv)] at h
    exact Or.inr h
  · rw [if_pos hv] at h
    obtain ⟨row, hrow, hin⟩ := (mem_entries _ xr xc xv).1 h
    rcases JSObj.mem_set hrow with h1 | h1
    · injection h1 with h1 h2
      subst h1 h2
      rcases JSObj.mem_set hin with h3 | h3
      · injection h3 with h3 h4
        subst h3 h4
        exact Or.inl ⟨rfl, hv⟩
      · right
        cases hg : JSObj.get xr m.matrix with
        | none => simp [hg] at h3
        | some old =>
          rw [hg] at h3
          exact (mem_entries m xr xc xv).2 ⟨old, JSObj.mem_of_get hg, h3⟩
    · exact Or.inr ((mem_entries m xr xc xv).2 ⟨row, h1, hin⟩)

theorem mem_of_get_some {α : Type} {k : JSVal} {o : JSObj α} (h : (JSObj.get k o).isSome) :
    k ∈ JSObj.keys o := by
  cases hg : JSObj.get k o with
  | none => simp [hg] at h
  | some v =>
    have := JSObj.mem_of_get hg
    exact List.mem_map.2 ⟨(k, v), this, rfl⟩

/-- A coordinate that reads a non-zero value is a stored entry. -/
theorem entry_of_getElement_ne_zero (m : SparseMatrix) (r c : JSVal) (h : m.getElement r c ≠ 0) :
    ∃ v, (r, c, v) ∈ m.entries := by
  unfold getElement at h
  cases hg : JSObj.get r m.matrix with
  | none => simp [hg, JSVal.orZero] at h
  | some row =>
    rw [hg] at h
    cases hc : JSObj.get c row with
    | none => simp [hc, JSVal.orZero] at h
    | some v => exact ⟨v, (mem_entries m r c v).2 ⟨row, JSObj.mem_of_get hg, JSObj.mem_of_get hc⟩⟩

theorem mem_entries_fillRow (f : JSVal → JSVal → Int) (row : JSVal) (cols : List JSVal)
    (res : SparseMatrix) (x : JSVal × JSVal × JSVal)
    (h : x ∈ (cols.foldl (fun result col => result.setElement row col (JSVal.int (f row col)))
      res).entries) :
    x ∈ res.entries ∨
      (x.1 = row ∧ x.2.1 ∈ cols ∧ x.2.2 = JSVal.int (f x.1 x.2.1) ∧ f x.1 x.2.1 ≠ 0) := by
  induction cols generalizing res with
  | nil => exact Or.inl h
  | cons col cols ih =>
    rw [List.foldl_cons] at h
    rcases ih _ h with h1 | ⟨h1, h2, h3, h4⟩
    · rcases mem_entries_setElement _ _ _ _ _ h1 with ⟨h2, h3⟩ | h2
      · right
        subst h2
        refine ⟨rfl, List.mem_cons_self _ _, rfl, ?_⟩
        intro h0
        exact h3 (by simp [h0])
      · exact Or.inl h2
    · exact Or.inr ⟨h1, List.mem_cons_of_mem _ h2, h3, h4⟩

/-- An entry stored after the nested loop was stored before, or sits at a visited
coordinate and holds the non-zero value of `f` there. -/
theorem mem_entries_fillWith (f : JSVal → JSVal → Int) (rows cols : List JSVal)
    (res : SparseMatrix) (x : JSVal × JSVal × JSVal)
    (h : x ∈ (fillWith f rows cols res).entries) :
    x ∈ res.entries ∨
      (x.1 ∈ rows ∧ x.2.1 ∈ cols ∧ x.2.2 = JSVal.int (f x.1 x.2.1) ∧ f x.1 x.2.1 ≠ 0) := by
  unfold fillWith at h
  induction rows generalizing res with
  | nil => exact Or.inl h
  | cons row rows ih =>
    rw [List.foldl_cons] at h
    rcases ih _ h with h1 | ⟨h1, h2, h3, h4⟩
    · rcases mem_entries_fillRow f row cols res x h1 with h2 | ⟨h2, h3, h4, h5⟩
      · exact Or.inl h2
      · exact Or.inr ⟨by rw [h2]; exact List.mem_cons_self _ _, h3, h4, h5⟩
    · exact Or.inr ⟨List.mem_cons_of_mem _ h1, h2, h3, h4⟩

theorem foldl_add_eq_of_zero {β : Type} (g : β → Int) (l : List β) (a : Int)
    (h : ∀ k ∈ l, g k = 0) : l.foldl (fun acc k => acc + g k) a = a := by
  induction l generalizing a with
  | nil => rfl
  | cons k l ih =>
    rw [List.foldl_cons, ih _ (fun k' hk' => h k' (List.mem_cons_of_mem _ hk')),
      h k (List.mem_cons_self _ _), add_zero]

/-- A non-zero `dotRow` has a non-zero term: some `k` with `A(row, k)` and `B(k, col)`
both non-zero. -/
theorem term_of_dotRow_ne_zero (A B : SparseMatrix) (row col : JSVal)
    (h : dotRow A B row col ≠ 0) :
    ∃ k, A.getElement row k ≠ 0 ∧ B.getElement k col ≠ 0 := by
  by_contra hno
  apply h
  unfold dotRow
  apply foldl_add_eq_of_zero (fun k => A.getElement row k * B.getElement k col)
  intro k _
  by_contra hk
  exact hno ⟨k, left_ne_zero_of_mul hk, right_ne_zero_of_mul hk⟩

theorem operate_eq_fillWith (A B : SparseMatrix) (op : Int → Int → Int) :
    operate A B op =
      fillWith (fun r c => op (A.getElement r c) (B.getElement r c))
        ((loopRange A.numRows).map JSVal.int) ((loopRange A.numCols).map JSVal.int)
        (new A.numRows A.numCols) := by
  simp [operate, fillWith, List.foldl_map]

theorem multiply_eq_fillWith (A B : SparseMatrix)
    (h : JSVal.strictNe A.numCols B.numRows = false) :
    multiply A B =
      Except.ok (fillWith (dotRow A B) (JSObj.keys A.matrix) (JSObj.keys B.matrix)
        (new A.numRows B.numCols)) := by
  simp [multiply, fillWith, h]

theorem mem_loopRange (d : JSVal) (i : Int) :
    JSVal.int i ∈ (loopRange d).map JSVal.int ↔ 0 ≤ i ∧ JSVal.lt (JSVal.int i) d = true := by
  cases d with
  | int n =>
    simp only [loopRange, List.mem_map, List.mem_range, JSVal.lt, decide_eq_true_eq]
    constructor
    · rintro ⟨j, ⟨k, hk, rfl⟩, hj⟩
      injection hj with hj
      subst hj
      constructor
      · exact Int.ofNat_nonneg k
      · have h1 : (k : Int) < (n.toNat : Int) := by exact_mod_cast hk
        have h2 : (n.toNat : Int) ≤ max n 0 := by omega
        show (k : Int) < n
        omega
    · rintro ⟨h0, h1⟩
      refine ⟨i, ⟨i.toNat, ?_, ?_⟩, rfl⟩
      · omega
      · exact Int.toNat_of_nonneg h0
  | nan => simp [loopRange, JSVal.lt]
  | undef => simp [loopRange, JSVal.lt]

theorem inRange_iff_mem_loopRange (k d : JSVal) :
    JSVal.inRange k d = true ↔ k ∈ (loopRange d).map JSVal.int := by
  cases k with
  | int i =>
    rw [mem_loopRange]
    cases d <;> simp [JSVal.inRange, JSVal.lt]
  | nan => cases d <;> simp [JSVal.inRange]
  | undef => cases d <;> simp [JSVal.inRange]

end SparseMatrix

/-! ## Writing the entries of a matrix back in enumeration order rebuilds it -/

namespace JSObj

variable {α : Type}

theorem get_eq_none_of_not_mem {k : JSVal} {o : JSObj α} (h : k ∉ keys o) : get k o = none := by
  induction o with
  | nil => rfl
  | cons p rest ih =>
    obtain ⟨k0, v0⟩ := p
    have h0 : ¬ k0 = k := fun e => h (by simp [keys, e])
    have h1 : k ∉ keys rest := fun e => h (by simp only [keys, List.map_cons, List.mem_cons]; exact Or.inr e)
    simp [get, h0, ih h1]

theorem create_eq_append (k : JSVal) (v : α) (o : JSObj α)
    (h : ∀ a ∈ keys o, JSVal.keyBefore a k = true) : create k v o = o ++ [(k, v)] := by
  induction o with
  | nil => rfl
  | cons p rest ih =>
    obtain ⟨k0, v0⟩ := p
    have h0 : JSVal.keyBefore k0 k = true := h k0 (by simp [keys])
    have hrest : ∀ a ∈ keys rest, JSVal.keyBefore a k = true := fun a ha =>
      h a (by simp only [keys, List.map_cons, List.mem_cons]; exact Or.inr ha)
    have hc : ¬ (k.isArrayIndex && (!k0.isArrayIndex || k.indexLt k0)) = true := by
      intro hc
      cases k with
      | int i =>
        cases k0 with
        | int j =>
          simp only [JSVal.keyBefore, JSVal.isArrayIndex, JSVal.indexLt, Bool.and_eq_true,
            Bool.or_eq_true, Bool.not_eq_true', decide_eq_true_eq, decide_eq_false_iff_not,
            Bool.and_eq_false_iff, decide_eq_false_iff_not] at h0 hc
          omega
        | nan => simp [JSVal.keyBefore, JSVal.isArrayIndex, JSVal.indexLt] at h0 hc; omega
        | undef => simp [JSVal.keyBefore, JSVal.isArrayIndex, JSVal.indexLt] at h0 hc; omega
      | nan => simp [JSVal.isArrayIndex] at hc
      | undef => simp [JSVal.isArrayIndex] at hc
    rw [create, if_neg hc, ih hrest]
    rfl

theorem not_mem_of_keyBefore {k : JSVal} {l : List JSVal}
    (h : ∀ a ∈ l, JSVal.keyBefore a k = true) : k ∉ l := by
  intro hk
  have := h k hk
  simp [JSVal.keyBefore] at this

/-- Writing a key that may follow every key of the object appends the property. -/
theorem set_eq_append (k : JSVal) (v : α) (o : JSObj α)
    (h : ∀ a ∈ keys o, JSVal.keyBefore a k = true) : set k v o = o ++ [(k, v)] := by
  unfold set
  rw [get_eq_none_of_not_mem (not_mem_of_keyBefore h)]
  simp [create_eq_append k v o h]

theorem get_append_last (k : JSVal) (v : α) (o : JSObj α) (h : k ∉ keys o) :
    get k (o ++ [(k, v)]) = some v := by
  induction o with
  | nil => simp [get]
  | cons p rest ih =>
    obtain ⟨k0, v0⟩ := p
    have h0 : ¬ k0 = k := fun e => h (by simp [keys, e])
    have h1 : k ∉ keys rest := fun e => h (by simp only [keys, List.map_cons, List.mem_cons]; exact Or.inr e)
    simp [get, h0, ih h1]

theorem replace_append_last (k : JSVal) (v v' : α) (o : JSObj α) (h : k ∉ keys o) :
    replace k v' (o ++ [(k, v)]) = o ++ [(k, v')] := by
  induction o with
  | nil => simp [replace]
  | cons p rest ih =>
    obtain ⟨k0, v0⟩ := p
    have h0 : ¬ k0 = k := fun e => h (by simp [keys, e])
    have h1 : k ∉ keys rest := fun e => h (by simp only [keys, List.map_cons, List.mem_cons]; exact Or.inr e)
    simp [replace, h0, ih h1]

/-- Overwriting the last property of an object changes its value in place. -/
theorem set_append_last (k : JSVal) (v v' : α) (o : JSObj α) (h : k ∉ keys o) :
    set k v' (o ++ [(k, v)]) = o ++ [(k, v')] := by
  unfold set
  rw [get_append_last k v o h]
  simp [replace_append_last k v v' o h]

theorem ordered_append_single (o : JSObj α) (k : JSVal) (v : α) (h : Ordered (o ++ [(k, v)])) :
    Ordered o ∧ ∀ a ∈ keys o, JSVal.keyBefore a k = true := by
  unfold Ordered keys at h
  rw [List.map_append, List.pairwise_append] at h
  refine ⟨h.1, fun a ha => h.2.2 a ha k (by simp)⟩

end JSObj

namespace SparseMatrix

/-- Storing the entries of one row object, in order, after the rows before it. -/
theorem foldl_store_row (M : JSObj (JSObj JSVal)) (R C r : JSVal) (row : JSObj JSVal)
    (hr : ∀ a ∈ JSObj.keys M, JSVal.keyBefore a r = true)
    (hord : JSObj.Ordered row) (hval : ∀ e ∈ row, e.2 ≠ JSVal.int 0) :
    (row.map fun e => (r, e.1, e.2)).foldl store { matrix := M, numRows := R, numCols := C }
      = { matrix := if row = [] then M else M ++ [(r, row)], numRows := R, numCols := C } := by
  induction row using List.reverseRecOn with
  | nil => simp
  | append_singleton row' e ih =>
    obtain ⟨c, v⟩ := e
    obtain ⟨hord', hc⟩ := JSObj.ordered_append_single row' c v hord
    have hv : v ≠ JSVal.int 0 := hval (c, v) (by simp)
    rw [List.map_append, List.foldl_append, ih hord' (fun e he => hval e (by simp [he]))]
    have hrM : r ∉ JSObj.keys M := JSObj.not_mem_of_keyBefore hr
    by_cases hrow : row' = []
    · subst hrow
      have hnew : JSObj.set c v ([] : JSObj JSVal) = [(c, v)] := rfl
      simp [store, setElement, hv, JSObj.get_eq_none_of_not_mem hrM, hnew,
        JSObj.set_eq_append r _ M hr]
    · simp [store, setElement, hv, hrow, JSObj.get_append_last r row' M hrM,
        JSObj.set_eq_append c v row' hc, JSObj.set_append_last r row' _ M hrM]

theorem entries_append (M : JSObj (JSObj JSVal)) (r : JSVal) (row : JSObj JSVal) (R C : JSVal) :
    entries { matrix := M ++ [(r, row)], numRows := R, numCols := C }
      = entries { matrix := M, numRows := R, numCols := C } ++ row.map fun e => (r, e.1, e.2) := by
  simp [entries, List.flatMap_append]

/-- Storing the entries of a matrix, in enumeration order, into an empty matrix gives
the matrix back. -/
theorem foldl_store_entries (M : JSObj (JSObj JSVal)) (R C : JSVal)
    (hord : JSObj.Ordered M)
    (hrows : ∀ row ∈ M, row.2 ≠ [] ∧ JSObj.Ordered row.2 ∧ ∀ e ∈ row.2, e.2 ≠ JSVal.int 0) :
    (entries { matrix := M, numRows := R, numCols := C }).foldl store
        { matrix := [], numRows := R, numCols := C }
      = { matrix := M, numRows := R, numCols := C } := by
  induction M using List.reverseRecOn with
  | nil => simp [entries]
  | append_singleton M' p ih =>
    obtain ⟨r, row⟩ := p
    obtain ⟨hord', hr⟩ := JSObj.ordered_append_single M' r row hord
    obtain ⟨hne, hrow, hval⟩ := hrows (r, row) (by simp)
    rw [entries_append, List.foldl_append, ih hord' (fun x hx => hrows x (by simp [hx])),
      foldl_store_row M' R C r row hr hrow hval]
    simp [hne]

end SparseMatrix

/-! ## Every state the class reaches is the enumeration of an object -/

namespace JSObj

variable {α : Type}

theorem keys_replace (k : JSVal) (v : α) (o : JSObj α) : keys (replace k v o) = keys o := by
  induction o with
  | nil => rfl
  | cons p rest ih =>
    obtain ⟨k0, v0⟩ := p
    by_cases h0 : k0 = k
    · simp [replace, keys, h0]
    · simp only [replace, h0, if_false, keys, List.map_cons] at ih ⊢
      rw [ih]

theorem mem_keys_create (k a : JSVal) (v : α) (o : JSObj α) :
    a ∈ keys (create k v o) ↔ a = k ∨ a ∈ keys o := by
  induction o with
  | nil => simp [create, keys]
  | cons p rest ih =>
    obtain ⟨k0, v0⟩ := p
    by_cases hc : (k.isArrayIndex && (!k0.isArrayIndex || k.indexLt k0)) = true
    · rw [create, if_pos hc]
      simp [keys]
    · rw [create, if_neg hc]
      simp only [keys, List.map_cons, List.mem_cons] at ih ⊢
      rw [ih]
      tauto

theorem keyBefore_trans_create (k k0 a : JSVal) (hne : k ≠ a)
    (hc : (k.isArrayIndex && (!k0.isArrayIndex || k.indexLt k0)) = true)
    (h0 : a = k0 ∨ JSVal.keyBefore k0 a = true) : JSVal.keyBefore k a = true := by
  rcases h0 with h0 | h0
  · subst h0
    cases k <;> cases a <;>
      simp_all [JSVal.keyBefore, JSVal.isArrayIndex, JSVal.indexLt]
  · cases k <;> cases k0 <;> cases a <;>
      simp_all [JSVal.keyBefore, JSVal.isArrayIndex, JSVal.indexLt]
    omega

theorem keyBefore_of_not_create (k k0 : JSVal) (hne : k0 ≠ k)
    (hc : ¬ (k.isArrayIndex && (!k0.isArrayIndex || k.indexLt k0)) = true) :
    JSVal.keyBefore k0 k = true := by
  cases k <;> cases k0 <;>
    simp_all [JSVal.keyBefore, JSVal.isArrayIndex, JSVal.indexLt] <;> omega

/-- Creating a property keeps the enumeration order. -/
theorem ordered_create (k : JSVal) (v : α) (o : JSObj α) (ho : Ordered o) (hk : k ∉ keys o) :
    Ordered (create k v o) := by
  induction o with
  | nil => simp [create, Ordered, keys]
  | cons p rest ih =>
    obtain ⟨k0, v0⟩ := p
    have hk0 : k0 ≠ k := fun e => hk (by simp [keys, e])
    have hkr : k ∉ keys rest := fun e =>
      hk (by simp only [keys, List.map_cons, List.mem_cons]; exact Or.inr e)
    have ho' : (∀ a ∈ keys rest, JSVal.keyBefore k0 a = true) ∧ Ordered rest := by
      simpa [Ordered, keys] using ho
    by_cases hc : (k.isArrayIndex && (!k0.isArrayIndex || k.indexLt k0)) = true
    · rw [create, if_pos hc]
      have hall : ∀ a ∈ keys ((k0, v0) :: rest), JSVal.keyBefore k a = true := by
        intro a ha
        have hne : k ≠ a := fun e => hk (e ▸ ha)
        apply keyBefore_trans_create k k0 a hne hc
        simp only [keys, List.map_cons, List.mem_cons] at ha
        rcases ha with ha | ha
        · exact Or.inl ha
        · exact Or.inr (ho'.1 a ha)
      show List.Pairwise _ (k :: keys ((k0, v0) :: rest))
      exact List.Pairwise.cons hall ho
    · rw [create, if_neg hc]
      show List.Pairwise _ (k0 :: keys (create k v rest))
      refine List.Pairwise.cons ?_ (ih ho'.2 hkr)
      intro a ha
      rcases (mem_keys_create k a v rest).1 ha with ha | ha
      · rw [ha]
        exact keyBefore_of_not_create k k0 hk0 hc
      · exact ho'.1 a ha

theorem not_mem_keys_of_get_none {k : JSVal} {o : JSObj α} (h : get k o = none) : k ∉ keys o := by
  induction o with
  | nil => simp [keys]
  | cons p rest ih =>
    obtain ⟨k0, v0⟩ := p
    by_cases h0 : k0 = k
    · simp [get, h0] at h
    · simp only [get, h0, if_false] at h
      simp only [keys, List.map_cons, List.mem_cons, not_or]
      exact ⟨fun e => h0 e.symm, ih h⟩

/-- A property write keeps the enumeration order. -/
theorem ordered_set (k : JSVal) (v : α) (o : JSObj α) (ho : Ordered o) : Ordered (set k v o) := by
  unfold set
  by_cases h : (get k o).isSome = true
  · rw [if_pos h]
    unfold Ordered
    rw [keys_replace]
    exact ho
  · rw [if_neg h]
    exact ordered_create k v o ho (not_mem_keys_of_get_none (by simpa using h))

theorem set_ne_nil (k : JSVal) (v : α) (o : JSObj α) : set k v o ≠ [] := by
  intro h
  have h1 := get_set k k v o
  rw [h] at h1
  simp [get] at h1

end JSObj

namespace SparseMatrix

theorem isObjectState_new (R C : JSVal) : IsObjectState (new R C) := by
  simp [IsObjectState, new, JSObj.Ordered, JSObj.keys]

/-- The method `setElement` keeps the state an enumeration of objects with no empty
row, whatever the coordinate and the value. -/
theorem isObjectState_setElement (m : SparseMatrix) (r c v : JSVal) (h : IsObjectState m) :
    IsObjectState (m.setElement r c v) := by
  unfold setElement
  by_cases hv : v = JSVal.int 0
  · rw [if_neg (not_not.2 hv)]
    exact h
  · rw [if_pos hv]
    refine ⟨JSObj.ordered_set _ _ _ h.1, ?_⟩
    intro row hrow
    rcases JSObj.mem_set hrow with h1 | h1
    · rw [h1]
      refine ⟨JSObj.set_ne_nil _ _ _, JSObj.ordered_set _ _ _ ?_⟩
      cases hg : JSObj.get r m.matrix with
      | none => simp [JSObj.Ordered, JSObj.keys]
      | some old => exact (h.2 _ (JSObj.mem_of_get hg)).2
    · exact h.2 row h1

/-- Every matrix made by the constructor and `setElement` calls is such a state. -/
theorem isObjectState_build (R C : Int) (es : List (Int × Int × Int)) :
    IsObjectState (build R C es) := by
  unfold build
  have h0 : IsObjectState (new (JSVal.int R) (JSVal.int C)) := isObjectState_new _ _
  suffices hs : ∀ (l : List (Int × Int × Int)) (m : SparseMatrix), IsObjectState m →
      IsObjectState (l.foldl
        (fun m e => m.setElement (JSVal.int e.1) (JSVal.int e.2.1) (JSVal.int e.2.2)) m) by
    exact hs es _ h0
  intro l
  induction l with
  | nil => exact fun m hm => hm
  | cons e l ih => exact fun m hm => ih _ (isObjectState_setElement m _ _ _ hm)

end SparseMatrix

/-! ## Text: decimal strings and the functions that read them -/

namespace JSString

theorem toNat_digitChar (d : Nat) (h : d < 10) : (digitChar d).toNat = 48 + d := by
  interval_cases d <;> rfl

theorem isDigit_ten_iff (c : Char) : isDigit 10 c = true ↔ 48 ≤ c.toNat ∧ c.toNat ≤ 57 := by
  simp only [isDigit, digitValue]
  split_ifs <;> simp <;> omega

theorem digitValue_of_digit (c : Char) (h : 48 ≤ c.toNat ∧ c.toNat ≤ 57) :
    digitValue c = some (c.toNat - 48) := by
  simp [digitValue, h]

theorem isWhiteSpace_eq_false (c : Char) (h : 33 ≤ c.toNat ∧ c.toNat ≤ 127) :
    isWhiteSpace c = false := by
  simp only [isWhiteSpace, Bool.or_eq_false_iff, beq_eq_false_iff_ne, Bool.and_eq_false_iff,
    decide_eq_false_iff_not]
  omega

theorem natDigits_ne_nil (fuel n : Nat) (acc : Str) (h : 0 < fuel ∨ acc ≠ []) :
    natDigits fuel n acc ≠ [] := by
  induction fuel generalizing n acc with
  | zero =>
    rcases h with h | h
    · omega
    · simpa [natDigits] using h
  | succ fuel ih =>
    rw [natDigits]
    split
    · simp
    · exact ih _ _ (Or.inr (by simp))

theorem natDigits_digits (fuel n : Nat) (acc : Str)
    (h : ∀ c ∈ acc, 48 ≤ c.toNat ∧ c.toNat ≤ 57) :
    ∀ c ∈ natDigits fuel n acc, 48 ≤ c.toNat ∧ c.toNat ≤ 57 := by
  induction fuel generalizing n acc with
  | zero => simpa [natDigits] using h
  | succ fuel ih =>
    rw [natDigits]
    split
    · rename_i hn
      intro c hc
      rcases List.mem_cons.1 hc with hc | hc
      · rw [hc, toNat_digitChar n hn]
        omega
      · exact h c hc
    · apply ih
      intro c hc
      rcases List.mem_cons.1 hc with hc | hc
      · rw [hc, toNat_digitChar _ (Nat.mod_lt n (by decide))]
        omega
      · exact h c hc

theorem digitsValue_natDigits (fuel n : Nat) (acc : Str) (h : n < fuel) :
    (natDigits fuel n acc).foldl (fun a c => a * 10 + (digitValue c).getD 0) 0
      = acc.foldl (fun a c => a * 10 + (digitValue c).getD 0) n := by
  induction fuel generalizing n acc with
  | zero => omega
  | succ fuel ih =>
    rw [natDigits]
    split
    · rename_i hn
      rw [List.foldl_cons, digitValue_of_digit _ (by rw [toNat_digitChar n hn]; omega),
        toNat_digitChar n hn]
      simp
    · rename_i hn
      have hlt : n / 10 < fuel := by omega
      have hm : n % 10 < 10 := Nat.mod_lt n (by decide)
      rw [ih _ _ hlt, List.foldl_cons,
        digitValue_of_digit _ (by rw [toNat_digitChar _ hm]; omega), toNat_digitChar _ hm]
      congr 1
      simp only [Option.getD_some]
      omega

/-- The decimal string of a natural number is a non-empty run of digits. -/
theorem ofNat_digits (n : Nat) : ofNat n ≠ [] ∧ ∀ c ∈ ofNat n, 48 ≤ c.toNat ∧ c.toNat ≤ 57 :=
  ⟨natDigits_ne_nil _ _ _ (Or.inl (Nat.succ_pos n)), natDigits_digits _ _ _ (by simp)⟩

/-- Reading the decimal string of a natural number gives the number back. -/
theorem digitsValue_ofNat (n : Nat) : digitsValue 10 (ofNat n) = n := by
  unfold digitsValue ofNat
  rw [digitsValue_natDigits _ _ _ (Nat.lt_succ_self n)]
  rfl

theorem all_isDigit_of_digits (s : Str) (h : ∀ c ∈ s, 48 ≤ c.toNat ∧ c.toNat ≤ 57) :
    s.all (isDigit 10) = true := by
  rw [List.all_eq_true]
  intro c hc
  exact (isDigit_ten_iff c).2 (h c hc)

theorem takeWhile_isDigit_of_digits (s : Str) (h : ∀ c ∈ s, 48 ≤ c.toNat ∧ c.toNat ≤ 57) :
    s.takeWhile (isDigit 10) = s := by
  rw [List.takeWhile_eq_self_iff]
  intro c hc
  exact (isDigit_ten_iff c).2 (h c hc)

theorem ofInt_chars (i : Int) :
    ofInt i ≠ [] ∧ ∀ c ∈ ofInt i, c.toNat = 45 ∨ (48 ≤ c.toNat ∧ c.toNat ≤ 57) := by
  unfold ofInt
  split
  · refine ⟨by simp, ?_⟩
    intro c hc
    rcases List.mem_cons.1 hc with hc | hc
    · left
      rw [hc]
      rfl
    · exact Or.inr ((ofNat_digits _).2 c hc)
  · exact ⟨(ofNat_digits _).1, fun c hc => Or.inr ((ofNat_digits _).2 c hc)⟩

theorem isWhiteSpace_of_mem_ofInt (i : Int) (c : Char) (hc : c ∈ ofInt i) :
    isWhiteSpace c = false := by
  apply isWhiteSpace_eq_false
  rcases (ofInt_chars i).2 c hc with h | h <;> omega

theorem dropWhile_of_all_false (p : Char → Bool) (l : Str) (h : ∀ c ∈ l, p c = false) :
    l.dropWhile p = l := by
  cases l with
  | nil => rfl
  | cons c r => simp [List.dropWhile_cons, h c (List.mem_cons_self _ _)]

theorem dropWhile_append_of_all (p : Char → Bool) (pre l : Str) (h : ∀ c ∈ pre, p c = true) :
    (pre ++ l).dropWhile p = l.dropWhile p := by
  induction pre with
  | nil => rfl
  | cons c r ih =>
    rw [List.cons_append, List.dropWhile_cons, if_pos (h c (List.mem_cons_self _ _))]
    exact ih (fun c hc => h c (List.mem_cons_of_mem _ hc))

/-- Trimming white space in front of a string that has none leaves that string. -/
theorem trim_append_of_no_whiteSpace (pre l : Str) (hpre : ∀ c ∈ pre, isWhiteSpace c = true)
    (h : ∀ c ∈ l, isWhiteSpace c = false) : trim (pre ++ l) = l := by
  unfold trim
  rw [dropWhile_append_of_all _ _ _ hpre, dropWhile_of_all_false _ _ h,
    dropWhile_of_all_false _ _ (fun c hc => h c (List.mem_reverse.1 hc)), List.reverse_reverse]

theorem stripRadix_of_digits (s : Str) (h : ∀ c ∈ s, 48 ≤ c.toNat ∧ c.toNat ≤ 57) :
    stripRadix s = (10, s) := by
  unfold stripRadix
  split
  · rename_i c0 c1 r
    have h1 := h c1 (by simp)
    have hx : ¬ (c0 = '0' ∧ (c1 = 'x' ∨ c1 = 'X')) := by
      rintro ⟨_, hx | hx⟩
      · rw [hx] at h1
        revert h1
        decide
      · rw [hx] at h1
        revert h1
        decide
    rw [if_neg hx]
  · rfl

theorem stripSign_of_digits (s : Str) (h : ∀ c ∈ s, 48 ≤ c.toNat ∧ c.toNat ≤ 57) :
    stripSign s = (false, s) := by
  unfold stripSign
  split
  · rename_i c r
    have h1 := h c (by simp)
    have hm : ¬ c = '-' := by
      intro hx
      rw [hx] at h1
      revert h1
      decide
    have hp : ¬ c = '+' := by
      intro hx
      rw [hx] at h1
      revert h1
      decide
    rw [if_neg hm, if_neg hp]
  · rfl

theorem parseInt_digits (neg : Bool) (s : Str) (hne : s ≠ [])
    (h : ∀ c ∈ s, 48 ≤ c.toNat ∧ c.toNat ≤ 57) :
    parseInt (if neg then '-' :: s else s)
      = if neg then JSVal.int (-(digitsValue 10 s : Int)) else JSVal.int (digitsValue 10 s) := by
  have hws : ∀ c ∈ s, isWhiteSpace c = false := fun c hc =>
    isWhiteSpace_eq_false c (by have := h c hc; omega)
  cases neg with
  | true =>
    have h1 : ('-' :: s).dropWhile isWhiteSpace = '-' :: s := by
      apply dropWhile_of_all_false
      intro c hc
      rcases List.mem_cons.1 hc with hc | hc
      · rw [hc]
        decide
      · exact hws c hc
    have h2 : stripSign ('-' :: s) = (true, s) := by simp [stripSign]
    simp only [parseInt, if_true, h1, h2, stripRadix_of_digits s h,
      takeWhile_isDigit_of_digits s h, hne, if_false]
  | false =>
    simp only [parseInt, Bool.false_eq_true, if_false, dropWhile_of_all_false _ _ hws,
      stripSign_of_digits s h, stripRadix_of_digits s h, takeWhile_isDigit_of_digits s h, hne]

/-- The function `parseInt` reads the plain decimal string of an integer back. -/
theorem parseInt_ofInt (i : Int) : parseInt (ofInt i) = JSVal.int i := by
  unfold ofInt
  by_cases hi : i < 0
  · rw [if_pos hi]
    have := parseInt_digits true (ofNat i.natAbs) (ofNat_digits _).1 (ofNat_digits _).2
    simp only [if_true] at this
    rw [this, digitsValue_ofNat]
    congr 1
    omega
  · rw [if_neg hi]
    have := parseInt_digits false (ofNat i.toNat) (ofNat_digits _).1 (ofNat_digits _).2
    simp only [Bool.false_eq_true, if_false] at this
    rw [this, digitsValue_ofNat]
    congr 1
    omega

theorem takeWhile_digits_append (I rest : Str) (h : ∀ c ∈ I, 48 ≤ c.toNat ∧ c.toNat ≤ 57) :
    (I ++ rest).takeWhile (isDigit 10) = I ++ rest.takeWhile (isDigit 10) := by
  induction I with
  | nil => rfl
  | cons c r ih =>
    rw [List.cons_append, List.takeWhile_cons,
      if_pos ((isDigit_ten_iff c).2 (h c (List.mem_cons_self _ _))),
      ih (fun c hc => h c (List.mem_cons_of_mem _ hc)), List.cons_append]

theorem dropWhile_digits_append (I rest : Str) (h : ∀ c ∈ I, 48 ≤ c.toNat ∧ c.toNat ≤ 57) :
    (I ++ rest).dropWhile (isDigit 10) = rest.dropWhile (isDigit 10) :=
  dropWhile_append_of_all _ _ _ (fun c hc => (isDigit_ten_iff c).2 (h c hc))

theorem dropWhile_isDigit_of_digits (s : Str) (h : ∀ c ∈ s, 48 ≤ c.toNat ∧ c.toNat ≤ 57) :
    s.dropWhile (isDigit 10) = [] := by
  have := dropWhile_digits_append s [] h
  simpa using this

theorem scaled_zero (neg : Bool) (m : Nat) :
    scaled neg m 0 = if neg then JSVal.int (-(m : Int)) else JSVal.int m := by
  simp [scaled]

theorem scaled_nat (neg : Bool) (m z : Nat) :
    scaled neg m (z : Int)
      = if neg then JSVal.int (-((m * 10 ^ z : Nat) : Int)) else JSVal.int ((m * 10 ^ z : Nat) : Int) := by
  simp [scaled]

/-- A run of digits is read as the number it writes. -/
theorem decimalLiteral_digits (neg : Bool) (s : Str) (hne : s ≠ [])
    (h : ∀ c ∈ s, 48 ≤ c.toNat ∧ c.toNat ≤ 57) :
    decimalLiteral neg s
      = if neg then JSVal.int (-(digitsValue 10 s : Int)) else JSVal.int (digitsValue 10 s) := by
  unfold decimalLiteral
  simp only [takeWhile_isDigit_of_digits s h, dropWhile_isDigit_of_digits s h, hne, false_and,
    if_false, exponentPart, List.length_nil, List.append_nil, Nat.cast_zero, sub_zero,
    scaled_zero]

theorem exponentPart_plus (E : Str) (hne : E ≠ []) (h : ∀ c ∈ E, 48 ≤ c.toNat ∧ c.toNat ≤ 57) :
    exponentPart ('e' :: '+' :: E) = some (digitsValue 10 E : Int) := by
  have h1 : ¬ ('+' = '-') := by decide
  simp only [exponentPart, true_or, if_true, h1, if_false, ne_eq, hne, not_false_eq_true,
    all_isDigit_of_digits E h, and_self]

/-- A digit and an exponent part are read as the digit times the power of ten. -/
theorem decimalLiteral_exponent (neg : Bool) (d : Char) (E : Str)
    (hd : 48 ≤ d.toNat ∧ d.toNat ≤ 57) (hne : E ≠ [])
    (hE : ∀ c ∈ E, 48 ≤ c.toNat ∧ c.toNat ≤ 57) :
    decimalLiteral neg (d :: 'e' :: '+' :: E)
      = scaled neg (digitsValue 10 [d]) (digitsValue 10 E : Int) := by
  have hI : ∀ c ∈ [d], 48 ≤ c.toNat ∧ c.toNat ≤ 57 := by
    intro c hc
    rw [List.mem_singleton.1 hc]
    exact hd
  have ht : (d :: 'e' :: '+' :: E).takeWhile (isDigit 10) = [d] := by
    have := takeWhile_digits_append [d] ('e' :: '+' :: E) hI
    simpa [List.takeWhile_cons, show isDigit 10 'e' = false by decide] using this
  have hdr : (d :: 'e' :: '+' :: E).dropWhile (isDigit 10) = 'e' :: '+' :: E := by
    have := dropWhile_digits_append [d] ('e' :: '+' :: E) hI
    simpa [List.dropWhile_cons, show isDigit 10 'e' = false by decide] using this
  have he : ¬ ('e' = '.') := by decide
  unfold decimalLiteral
  simp only [ht, hdr, he, if_false, exponentPart_plus E hne hE, List.append_nil,
    List.length_nil, Nat.cast_zero, sub_zero]
  simp

/-- A digit, a point, further digits and an exponent part are read as the digits times
the power of ten that the exponent and the number of further digits give. -/
theorem decimalLiteral_point (neg : Bool) (d : Char) (F E : Str)
    (hd : 48 ≤ d.toNat ∧ d.toNat ≤ 57) (hF : ∀ c ∈ F, 48 ≤ c.toNat ∧ c.toNat ≤ 57)
    (hne : E ≠ []) (hE : ∀ c ∈ E, 48 ≤ c.toNat ∧ c.toNat ≤ 57) :
    decimalLiteral neg (d :: '.' :: (F ++ 'e' :: '+' :: E))
      = scaled neg (digitsValue 10 (d :: F)) ((digitsValue 10 E : Int) - F.length) := by
  have hI : ∀ c ∈ [d], 48 ≤ c.toNat ∧ c.toNat ≤ 57 := by
    intro c hc
    rw [List.mem_singleton.1 hc]
    exact hd
  have ht : (d :: '.' :: (F ++ 'e' :: '+' :: E)).takeWhile (isDigit 10) = [d] := by
    have := takeWhile_digits_append [d] ('.' :: (F ++ 'e' :: '+' :: E)) hI
    simpa [List.takeWhile_cons, show isDigit 10 '.' = false by decide] using this
  have hdr : (d :: '.' :: (F ++ 'e' :: '+' :: E)).dropWhile (isDigit 10)
      = '.' :: (F ++ 'e' :: '+' :: E) := by
    have := dropWhile_digits_append [d] ('.' :: (F ++ 'e' :: '+' :: E)) hI
    simpa [List.dropWhile_cons, show isDigit 10 '.' = false by decide] using this
  have htF : (F ++ 'e' :: '+' :: E).takeWhile (isDigit 10) = F := by
    have := takeWhile_digits_append F ('e' :: '+' :: E) hF
    simpa [List.takeWhile_cons, show isDigit 10 'e' = false by decide] using this
  have hdF : (F ++ 'e' :: '+' :: E).dropWhile (isDigit 10) = 'e' :: '+' :: E := by
    have := dropWhile_digits_append F ('e' :: '+' :: E) hF
    simpa [List.dropWhile_cons, show isDigit 10 'e' = false by decide] using this
  unfold decimalLiteral
  simp only [ht, hdr, if_true, htF, hdF, exponentPart_plus E hne hE]
  simp

theorem digitsValue_append_zeros (S : Str) (z : Nat) :
    digitsValue 10 (S ++ List.replicate z '0') = digitsValue 10 S * 10 ^ z := by
  induction z with
  | zero => simp
  | succ z ih =>
    have h0 : digitValue '0' = some 0 := by decide
    rw [List.replicate_succ', ← List.append_assoc]
    unfold digitsValue at ih ⊢
    rw [List.foldl_append, ih]
    simp only [List.foldl_cons, List.foldl_nil, h0, Option.getD_some]
    ring

theorem digitsValue_zeros (z : Nat) : digitsValue 10 (List.replicate z '0') = 0 := by
  have := digitsValue_append_zeros [] z
  simpa [digitsValue] using this

/-- A string is what is left without its trailing zeros, followed by those zeros. -/
theorem eq_append_zeros (D : Str) :
    ∃ z : Nat, D = (D.reverse.dropWhile (fun c => c = '0')).reverse ++ List.replicate z '0' := by
  refine ⟨(D.reverse.takeWhile (fun c => c = '0')).length, ?_⟩
  have h1 : D.reverse.takeWhile (fun c => c = '0')
      = List.replicate (D.reverse.takeWhile (fun c => c = '0')).length '0' := by
    rw [List.eq_replicate_iff]
    refine ⟨rfl, ?_⟩
    intro b hb
    have := List.mem_takeWhile_imp hb
    simpa using this
  have h2 := List.takeWhile_append_dropWhile (fun c => decide (c = '0')) D.reverse
  have h3 : D = (D.reverse.dropWhile (fun c => c = '0')).reverse
      ++ (D.reverse.takeWhile (fun c => c = '0')).reverse := by
    rw [← List.reverse_append, h2, List.reverse_reverse]
  rw [h1, List.reverse_replicate] at h3
  exact h3

/-- The exponent form of a run of digits that writes a number other than `0`: a digit,
the further digits up to the trailing zeros, and the exponent. -/
theorem expForm_shape (D : Str) (hD : ∀ c ∈ D, 48 ≤ c.toNat ∧ c.toNat ≤ 57)
    (hv : digitsValue 10 D ≠ 0) :
    ∃ (d : Char) (F : Str) (z : Nat), (48 ≤ d.toNat ∧ d.toNat ≤ 57) ∧
      (∀ c ∈ F, 48 ≤ c.toNat ∧ c.toNat ≤ 57) ∧ D = (d :: F) ++ List.replicate z '0' ∧
      expForm D = (if F = [] then d :: 'e' :: '+' :: ofNat (F.length + z)
        else d :: '.' :: (F ++ 'e' :: '+' :: ofNat (F.length + z))) := by
  obtain ⟨z, hz⟩ := eq_append_zeros D
  cases hS : (D.reverse.dropWhile (fun c => c = '0')).reverse with
  | nil =>
    rw [hS] at hz
    rw [hz] at hv
    exact absurd (digitsValue_zeros z) (by simpa using hv)
  | cons d F =>
    rw [hS] at hz
    have hlen : D.length - 1 = F.length + z := by
      rw [hz]
      simp
    refine ⟨d, F, z, hD d (by rw [hz]; simp), fun c hc => hD c (by rw [hz]; simp [hc]), hz, ?_⟩
    unfold expForm
    rw [hS]
    simp only [hlen]

theorem ofVal_int (i : Int) :
    ofVal (JSVal.int i)
      = if i < 0 then '-' :: ofMagnitude i.natAbs else ofMagnitude i.natAbs := rfl

/-- The string of a non-negative integer starts with a digit, and has after it only
digits, a point, `e` and `+`. -/
theorem ofMagnitude_shape (n : Nat) :
    ∃ (d : Char) (r : Str), ofMagnitude n = d :: r ∧ (48 ≤ d.toNat ∧ d.toNat ≤ 57) ∧
      ∀ c ∈ r, c.toNat = 43 ∨ c.toNat = 46 ∨ c.toNat = 101 ∨ (48 ≤ c.toNat ∧ c.toNat ≤ 57) := by
  unfold ofMagnitude
  split
  · obtain ⟨hne, hd⟩ := ofNat_digits n
    cases hs : ofNat n with
    | nil => exact absurd hs hne
    | cons d r =>
      rw [hs] at hd
      exact ⟨d, r, rfl, hd d (by simp), fun c hc => Or.inr (Or.inr (Or.inr (hd c (by simp [hc]))))⟩
  · rename_i hn
    have hv : digitsValue 10 (ofNat n) ≠ 0 := by
      rw [digitsValue_ofNat]
      omega
    obtain ⟨d, F, z, hd, hF, -, he⟩ := expForm_shape (ofNat n) (ofNat_digits n).2 hv
    rw [he]
    have hE := (ofNat_digits (F.length + z)).2
    split
    · refine ⟨d, _, rfl, hd, ?_⟩
      intro c hc
      simp only [List.mem_cons] at hc
      rcases hc with hc | hc | hc
      · rw [hc]
        right; right; left
        rfl
      · rw [hc]
        left
        rfl
      · exact Or.inr (Or.inr (Or.inr (hE c hc)))
    · refine ⟨d, _, rfl, hd, ?_⟩
      intro c hc
      simp only [List.mem_cons, List.mem_append] at hc
      rcases hc with hc | hc | hc | hc | hc
      · rw [hc]
        right; left
        rfl
      · exact Or.inr (Or.inr (Or.inr (hF c hc)))
      · rw [hc]
        right; right; left
        rfl
      · rw [hc]
        left
        rfl
      · exact Or.inr (Or.inr (Or.inr (hE c hc)))

theorem ofVal_int_chars (i : Int) :
    ofVal (JSVal.int i) ≠ [] ∧
      ∀ c ∈ ofVal (JSVal.int i), c.toNat = 43 ∨ c.toNat = 45 ∨ c.toNat = 46 ∨ c.toNat = 101 ∨
        (48 ≤ c.toNat ∧ c.toNat ≤ 57) := by
  obtain ⟨d, r, hs, hd, hr⟩ := ofMagnitude_shape i.natAbs
  have hall : ∀ c ∈ ofMagnitude i.natAbs, c.toNat = 43 ∨ c.toNat = 45 ∨ c.toNat = 46 ∨
      c.toNat = 101 ∨ (48 ≤ c.toNat ∧ c.toNat ≤ 57) := by
    intro c hc
    rw [hs] at hc
    rcases List.mem_cons.1 hc with hc | hc
    · rw [hc]
      exact Or.inr (Or.inr (Or.inr (Or.inr hd)))
    · rcases hr c hc with h | h | h | h
      · exact Or.inl h
      · exact Or.inr (Or.inr (Or.inl h))
      · exact Or.inr (Or.inr (Or.inr (Or.inl h)))
      · exact Or.inr (Or.inr (Or.inr (Or.inr h)))
  rw [ofVal_int]
  split
  · refine ⟨by simp, ?_⟩
    intro c hc
    rcases List.mem_cons.1 hc with hc | hc
    · rw [hc]
      right; left
      rfl
    · exact hall c hc
  · exact ⟨by rw [hs]; simp, hall⟩

theorem isWhiteSpace_of_mem_ofVal_int (i : Int) (c : Char) (hc : c ∈ ofVal (JSVal.int i)) :
    isWhiteSpace c = false := by
  apply isWhiteSpace_eq_false
  rcases (ofVal_int_chars i).2 c hc with h | h | h | h | h <;> omega

/-- Below `10^21` in absolute value the string of an integer is its plain decimal
string. -/
theorem ofVal_eq_ofInt (i : Int) (h : i.natAbs < 1000000000000000000000) :
    ofVal (JSVal.int i) = ofInt i := by
  rw [ofVal_int]
  unfold ofMagnitude ofInt
  rw [if_pos h]
  by_cases hi : i < 0
  · rw [if_pos hi, if_pos hi]
  · rw [if_neg hi, if_neg hi]
    have : i.toNat = i.natAbs := by omega
    rw [this]

/-- The string of a non-negative integer is read as that integer. -/
theorem decimalLiteral_ofMagnitude (neg : Bool) (n : Nat) :
    decimalLiteral neg (ofMagnitude n)
      = if neg then JSVal.int (-(n : Int)) else JSVal.int n := by
  unfold ofMagnitude
  split
  · rw [decimalLiteral_digits neg _ (ofNat_digits n).1 (ofNat_digits n).2, digitsValue_ofNat]
  · rename_i hn
    have hv : digitsValue 10 (ofNat n) ≠ 0 := by
      rw [digitsValue_ofNat]
      omega
    obtain ⟨d, F, z, hd, hF, hD, he⟩ := expForm_shape (ofNat n) (ofNat_digits n).2 hv
    have hval : digitsValue 10 (d :: F) * 10 ^ z = n := by
      rw [← digitsValue_append_zeros, ← hD, digitsValue_ofNat]
    obtain ⟨hEne, hE⟩ := ofNat_digits (F.length + z)
    rw [he]
    split
    · rename_i hF0
      subst hF0
      rw [decimalLiteral_exponent neg d _ hd hEne hE, digitsValue_ofNat]
      simp only [List.length_nil, Nat.zero_add]
      rw [scaled_nat, hval]
    · rw [decimalLiteral_point neg d F _ hd hF hEne hE, digitsValue_ofNat]
      have hz : (((F.length + z : Nat) : Int) - (F.length : Int)) = (z : Int) := by
        push_cast
        ring
      rw [hz, scaled_nat, hval]

theorem radixLiteral_of_digit (d : Char) (r : Str)
    (hr : ∀ c ∈ r, c.toNat = 43 ∨ c.toNat = 46 ∨ c.toNat = 101 ∨ (48 ≤ c.toNat ∧ c.toNat ≤ 57)) :
    radixLiteral (d :: r) = none := by
  cases r with
  | nil => rfl
  | cons c1 r =>
    have h1 := hr c1 (by simp)
    have hne : ∀ x : Char, ¬ (x.toNat = 43 ∨ x.toNat = 46 ∨ x.toNat = 101 ∨
        (48 ≤ x.toNat ∧ x.toNat ≤ 57)) → ¬ c1 = x := by
      intro x hx e
      rw [e] at h1
      exact hx h1
    simp only [radixLiteral, hne 'x' (by decide), hne 'X' (by decide), hne 'o' (by decide),
      hne 'O' (by decide), hne 'b' (by decide), hne 'B' (by decide), or_self, if_false,
      ite_self]

theorem radixLiteral_minus (r : Str) : radixLiteral ('-' :: r) = none := by
  have h : ¬ ('-' = '0') := by decide
  cases r with
  | nil => rfl
  | cons c1 r => simp only [radixLiteral, h, if_false]

/-- The function `Number` reads the string of an integer back, white space in front or
not. -/
theorem toNumber_ofVal_int (i : Int) (pre : Str) (hpre : ∀ c ∈ pre, isWhiteSpace c = true) :
    toNumber (pre ++ ofVal (JSVal.int i)) = JSVal.int i := by
  unfold toNumber
  rw [trim_append_of_no_whiteSpace pre _ hpre (isWhiteSpace_of_mem_ofVal_int i), ofVal_int]
  obtain ⟨d, r, hs, hd, hr⟩ := ofMagnitude_shape i.natAbs
  by_cases hi : i < 0
  · rw [if_pos hi]
    simp only [radixLiteral_minus, if_true]
    rw [decimalLiteral_ofMagnitude]
    simp only [if_true]
    congr 1
    omega
  · rw [if_neg hi, hs]
    have hm : ¬ d = '-' := by
      intro hx
      rw [hx] at hd
      revert hd
      decide
    have hp : ¬ d = '+' := by
      intro hx
      rw [hx] at hd
      revert hd
      decide
    simp only [radixLiteral_of_digit d r hr, hm, hp, if_false]
    rw [← hs, decimalLiteral_ofMagnitude]
    simp only [Bool.false_eq_true, if_false]
    congr 1
    omega

/-- The function `Number` reads the plain decimal string of an integer back. -/
theorem toNumber_ofInt (i : Int) (pre : Str) (hpre : ∀ c ∈ pre, isWhiteSpace c = true) :
    toNumber (pre ++ ofInt i) = JSVal.int i := by
  unfold toNumber
  rw [trim_append_of_no_whiteSpace pre _ hpre (isWhiteSpace_of_mem_ofInt i)]
  unfold ofInt
  by_cases hi : i < 0
  · rw [if_pos hi]
    simp only [radixLiteral_minus, if_true]
    rw [decimalLiteral_digits true _ (ofNat_digits _).1 (ofNat_digits _).2, digitsValue_ofNat]
    simp only [if_true]
    congr 1
    omega
  · rw [if_neg hi]
    obtain ⟨hne, hd⟩ := ofNat_digits i.toNat
    cases hs : ofNat i.toNat with
    | nil => exact absurd hs hne
    | cons c r =>
      rw [hs] at hd
      have h1 := hd c (by simp)
      have hm : ¬ c = '-' := by
        intro hx
        rw [hx] at h1
        revert h1
        decide
      have hp : ¬ c = '+' := by
        intro hx
        rw [hx] at h1
        revert h1
        decide
      simp only [radixLiteral_of_digit c r
        (fun x hx => Or.inr (Or.inr (Or.inr (hd x (by simp [hx]))))), hm, hp, if_false]
      rw [← hs, decimalLiteral_digits false _ hne (ofNat_digits _).2, digitsValue_ofNat]
      simp only [Bool.false_eq_true, if_false]
      congr 1
      omega

theorem split_of_not_mem (sep : Char) (l : Str) (h : sep ∉ l) : split sep l = [l] := by
  induction l with
  | nil => rfl
  | cons c r ih =>
    have hc : ¬ c = sep := fun e => h (by simp [e])
    have hr : sep ∉ r := fun e => h (List.mem_cons_of_mem _ e)
    simp [split, hc, ih hr]

/-- Splitting at a separator: the piece before its first occurrence, then the pieces
of the rest. -/
theorem split_append_sep (sep : Char) (l rest : Str) (h : sep ∉ l) :
    split sep (l ++ sep :: rest) = l :: split sep rest := by
  induction l with
  | nil => simp [split]
  | cons c r ih =>
    have hc : ¬ c = sep := fun e => h (by simp [e])
    have hr : sep ∉ r := fun e => h (List.mem_cons_of_mem _ e)
    simp [split, hc, ih hr]

end JSString


/-! ## Text: the lines `saveToFile` writes and `loadMatrix` reads -/

namespace SparseMatrix

theorem parseHeader_ofInt (name : Str) (hname : Char.ofNat 61 ∉ name) (i : Int) :
    parseHeader (name ++ Char.ofNat 61 :: JSString.ofInt i) = JSVal.int i := by
  have hd : Char.ofNat 61 ∉ JSString.ofInt i := by
    intro hc
    have h := (JSString.ofInt_chars i).2 _ hc
    revert h
    decide
  unfold parseHeader
  have h61 : ('=' : Char) = Char.ofNat 61 := rfl
  rw [h61, JSString.split_append_sep _ _ _ hname, JSString.split_of_not_mem _ _ hd]
  simp [JSString.parseInt_ofInt]

theorem toNat_of_mem_lineOf (r c v : Int) (ch : Char)
    (h : ch ∈ lineOf (JSVal.int r, JSVal.int c, JSVal.int v)) :
    ch.toNat = 40 ∨ ch.toNat = 41 ∨ ch.toNat = 44 ∨ ch.toNat = 32 ∨ ch.toNat = 43 ∨
      ch.toNat = 45 ∨ ch.toNat = 46 ∨ ch.toNat = 101 ∨ (48 ≤ ch.toNat ∧ ch.toNat ≤ 57) := by
  have hlit1 : "(".toList = ['('] := rfl
  have hlit2 : ", ".toList = [',', ' '] := rfl
  simp only [lineOf, hlit1, hlit2, List.mem_append, List.mem_cons, List.mem_singleton,
    List.not_mem_nil, or_false, or_assoc] at h
  have key : ∀ i : Int, ch ∈ JSString.ofVal (JSVal.int i) →
      ch.toNat = 43 ∨ ch.toNat = 45 ∨ ch.toNat = 46 ∨ ch.toNat = 101 ∨
        (48 ≤ ch.toNat ∧ ch.toNat ≤ 57) := fun i hi =>
    (JSString.ofVal_int_chars i).2 ch hi
  rcases h with h | h | h | h | h | h | h | h | h
  · rw [h]; decide
  · rcases key r h with h | h | h | h | h <;> omega
  · rw [h]; decide
  · rw [h]; decide
  · rcases key c h with h | h | h | h | h <;> omega
  · rw [h]; decide
  · rw [h]; decide
  · rcases key v h with h | h | h | h | h <;> omega
  · rw [h]; decide

/-- The method `parseEntry` reads the line of an entry with integer components back. -/
theorem parseEntry_lineOf (r c v : Int) :
    parseEntry (lineOf (JSVal.int r, JSVal.int c, JSVal.int v))
      = (JSVal.int r, JSVal.int c, JSVal.int v) := by
  have hfil : ∀ i : Int, (JSString.ofVal (JSVal.int i)).filter (fun ch => ch ≠ '(' ∧ ch ≠ ')')
      = JSString.ofVal (JSVal.int i) := by
    intro i
    rw [List.filter_eq_self]
    intro ch hch
    have h := (JSString.ofVal_int_chars i).2 ch hch
    have h1 : ch ≠ '(' := by
      intro e
      rw [e] at h
      revert h
      decide
    have h2 : ch ≠ ')' := by
      intro e
      rw [e] at h
      revert h
      decide
    simp [h1, h2]
  have hcomma : ∀ (pre : Str) (i : Int), (∀ ch ∈ pre, ch = ' ') →
      ',' ∉ pre ++ JSString.ofVal (JSVal.int i) := by
    intro pre i hpre hc
    rcases List.mem_append.1 hc with hc | hc
    · exact absurd (hpre _ hc) (by decide)
    · have h := (JSString.ofVal_int_chars i).2 _ hc
      revert h
      decide
  have hl1 : ("(".toList).filter (fun ch => ch ≠ '(' ∧ ch ≠ ')') = [] := by decide
  have hl2 : (", ".toList).filter (fun ch => ch ≠ '(' ∧ ch ≠ ')') = [',', ' '] := by decide
  have hl3 : ([')'] : Str).filter (fun ch => ch ≠ '(' ∧ ch ≠ ')') = [] := by decide
  have hshape : (lineOf (JSVal.int r, JSVal.int c, JSVal.int v)).filter
      (fun ch => ch ≠ '(' ∧ ch ≠ ')')
      = ([] ++ JSString.ofVal (JSVal.int r)) ++ ',' ::
          (([' '] ++ JSString.ofVal (JSVal.int c)) ++ ',' ::
            ([' '] ++ JSString.ofVal (JSVal.int v))) := by
    simp only [lineOf, List.filter_append, hfil, hl1, hl2, hl3]
    simp
  unfold parseEntry
  rw [hshape, JSString.split_append_sep _ _ _ (hcomma [] r (by simp)),
    JSString.split_append_sep _ _ _ (hcomma [' '] c (by simp)),
    JSString.split_of_not_mem _ _ (hcomma [' '] v (by simp))]
  simp only [List.map_cons, List.map_nil, List.getD_cons_zero, List.getD_cons_succ]
  rw [JSString.toNumber_ofVal_int r [] (by simp),
    JSString.toNumber_ofVal_int c [' '] (by simp; decide),
    JSString.toNumber_ofVal_int v [' '] (by simp; decide)]

theorem flatMap_entryLine (M : JSObj (JSObj JSVal)) :
    (M.flatMap fun r => r.2.flatMap fun e => entryLine r.1 e.1 e.2)
      = (M.flatMap fun r => r.2.map fun e => (r.1, e.1, e.2)).flatMap
          fun e => lineOf e ++ [Char.ofNat 10] := by
  induction M with
  | nil => rfl
  | cons p M ih =>
    rw [List.flatMap_cons, List.flatMap_cons, List.flatMap_append, ih]
    congr 1
    induction p.2 with
    | nil => rfl
    | cons e row ihr =>
      rw [List.flatMap_cons, List.map_cons, List.flatMap_cons, ihr]
      congr 1
      simp [entryLine, lineOf]

theorem lines_shift (es : List (JSVal × JSVal × JSVal)) :
    Char.ofNat 10 :: (es.flatMap fun e => lineOf e ++ [Char.ofNat 10])
      = (es.flatMap fun e => Char.ofNat 10 :: lineOf e) ++ [Char.ofNat 10] := by
  induction es with
  | nil => rfl
  | cons e es ih =>
    rw [List.flatMap_cons, List.flatMap_cons, List.append_assoc, List.singleton_append, ih]
    simp

/-- The text `saveToFile` builds: the two header lines and the entry lines, joined by
line feeds, and a final line feed. -/
theorem content_eq (m : SparseMatrix) :
    content m =
      (("rows=".toList ++ JSString.ofVal m.numRows) ++ Char.ofNat 10 ::
        (("cols=".toList ++ JSString.ofVal m.numCols) ++
          (m.entries.flatMap fun e => Char.ofNat 10 :: lineOf e))) ++ [Char.ofNat 10] := by
  unfold content
  rw [flatMap_entryLine]
  have h := lines_shift m.entries
  unfold entries at h ⊢
  simp only [List.append_assoc, List.singleton_append, List.cons_append, List.nil_append]
  rw [h]

theorem split_lines (l : Str) (es : List (JSVal × JSVal × JSVal))
    (hl : Char.ofNat 10 ∉ l) (hes : ∀ e ∈ es, Char.ofNat 10 ∉ lineOf e) :
    JSString.split (Char.ofNat 10) (l ++ es.flatMap fun e => Char.ofNat 10 :: lineOf e)
      = l :: es.map lineOf := by
  induction es generalizing l with
  | nil => simp [JSString.split_of_not_mem _ _ hl]
  | cons e es ih =>
    rw [List.flatMap_cons, List.cons_append, JSString.split_append_sep _ _ _ hl,
      ih _ (hes e (List.mem_cons_self _ _)) (fun x hx => hes x (List.mem_cons_of_mem _ hx))]
    rfl

theorem exists_concat_of_no_whiteSpace (l : Str) (hne : l ≠ [])
    (h : ∀ c ∈ l, JSString.isWhiteSpace c = false) :
    ∃ p x, l = p ++ [x] ∧ JSString.isWhiteSpace x = false := by
  rcases List.eq_nil_or_concat l with h0 | ⟨p, x, hpx⟩
  · exact absurd h0 hne
  · rw [List.concat_eq_append] at hpx
    exact ⟨p, x, hpx, h x (by rw [hpx]; simp)⟩

/-- The text before the final line feed ends with a character that is not white space:
the last digit of the header when there is no entry, a closing parenthesis else. -/
theorem body_ends (pre : Str) (C : Int) (es : List (JSVal × JSVal × JSVal)) :
    ∃ p x, pre ++ (JSString.ofVal (JSVal.int C) ++ es.flatMap fun e => Char.ofNat 10 :: lineOf e)
        = p ++ [x] ∧ JSString.isWhiteSpace x = false := by
  rcases List.eq_nil_or_concat es with h0 | ⟨es', e, he⟩
  · subst h0
    obtain ⟨q, x, hq, hx⟩ := exists_concat_of_no_whiteSpace _ (JSString.ofVal_int_chars C).1
      (JSString.isWhiteSpace_of_mem_ofVal_int C)
    refine ⟨pre ++ q, x, ?_, hx⟩
    rw [hq]
    simp
  · rw [List.concat_eq_append] at he
    subst he
    refine ⟨pre ++ (JSString.ofVal (JSVal.int C) ++ ((es'.flatMap fun e => Char.ofNat 10 :: lineOf e)
      ++ Char.ofNat 10 :: ("(".toList ++ JSString.ofVal e.1 ++ ", ".toList ++ JSString.ofVal e.2.1
        ++ ", ".toList ++ JSString.ofVal e.2.2))), ')', ?_, by decide⟩
    simp [List.flatMap_append, lineOf]

/-- Trimming the text `saveToFile` builds removes exactly its final line feed. -/
theorem trim_content (R C : Int) (es : List (JSVal × JSVal × JSVal)) :
    JSString.trim
        ((("rows=".toList ++ JSString.ofVal (JSVal.int R)) ++ Char.ofNat 10 ::
          (("cols=".toList ++ JSString.ofVal (JSVal.int C)) ++
            (es.flatMap fun e => Char.ofNat 10 :: lineOf e))) ++ [Char.ofNat 10])
      = ("rows=".toList ++ JSString.ofVal (JSVal.int R)) ++ Char.ofNat 10 ::
          (("cols=".toList ++ JSString.ofVal (JSVal.int C)) ++
            (es.flatMap fun e => Char.ofNat 10 :: lineOf e)) := by
  obtain ⟨p, x, hp, hx⟩ := body_ends
    (("rows=".toList ++ JSString.ofVal (JSVal.int R)) ++ Char.ofNat 10 :: "cols=".toList) C es
  have hbody : ("rows=".toList ++ JSString.ofVal (JSVal.int R)) ++ Char.ofNat 10 ::
      (("cols=".toList ++ JSString.ofVal (JSVal.int C)) ++
        (es.flatMap fun e => Char.ofNat 10 :: lineOf e)) = p ++ [x] := by
    rw [← hp]
    simp
  rw [hbody]
  have hhead : ∃ t, p ++ [x] = 'r' :: t := by
    rw [← hbody]
    exact ⟨_, rfl⟩
  obtain ⟨t, ht⟩ := hhead
  have hdrop : ((p ++ [x]) ++ [Char.ofNat 10]).dropWhile JSString.isWhiteSpace
      = (p ++ [x]) ++ [Char.ofNat 10] := by
    rw [ht, List.cons_append, List.dropWhile_cons_of_neg (by decide)]
  unfold JSString.trim
  rw [hdrop]
  show List.rdropWhile JSString.isWhiteSpace ((p ++ [x]) ++ [Char.ofNat 10]) = p ++ [x]
  rw [List.rdropWhile_concat_pos _ _ _ (by decide), List.rdropWhile_concat_neg _ _ _ (by simp [hx])]

theorem inRange_int {k d : JSVal} (h : JSVal.inRange k d = true) : ∃ i : Int, k = JSVal.int i := by
  cases k with
  | int i => exact ⟨i, rfl⟩
  | nan => cases d <;> simp [JSVal.inRange] at h
  | undef => cases d <;> simp [JSVal.inRange] at h

theorem isNonZeroInt_int {v : JSVal} (h : v.isNonZeroInt = true) :
    ∃ i : Int, v = JSVal.int i ∧ v ≠ JSVal.int 0 := by
  cases v with
  | int i =>
    refine ⟨i, rfl, ?_⟩
    intro h0
    injection h0 with h0
    simp [JSVal.isNonZeroInt, h0] at h
  | nan => simp [JSVal.isNonZeroInt] at h
  | undef => simp [JSVal.isNonZeroInt] at h

theorem isPlainInt_int {v : JSVal} (h : v.isPlainInt = true) :
    ∃ i : Int, v = JSVal.int i ∧ JSString.ofVal v = JSString.ofInt i := by
  cases v with
  | int i =>
    refine ⟨i, rfl, JSString.ofVal_eq_ofInt i ?_⟩
    simp only [JSVal.isPlainInt, Bool.and_eq_true, decide_eq_true_eq] at h
    omega
  | nan => simp [JSVal.isPlainInt] at h
  | undef => simp [JSVal.isPlainInt] at h

/-- Every stored entry of a well-formed matrix has integer components. -/
theorem entry_ints (m : SparseMatrix) (h : WellFormed m) (e : JSVal × JSVal × JSVal)
    (he : e ∈ m.entries) : ∃ r c v : Int, e = (JSVal.int r, JSVal.int c, JSVal.int v) := by
  obtain ⟨_, _, _, hb, hv⟩ := h
  obtain ⟨r, hr⟩ := inRange_int (hb e he).1
  obtain ⟨c, hc⟩ := inRange_int (hb e he).2
  obtain ⟨v, hv, _⟩ := isNonZeroInt_int (hv e he)
  exact ⟨r, c, v, by rw [← hr, ← hc, ← hv]⟩

end SparseMatrix

/-! ## The store: a call writes only the instance it allocates -/

namespace Store

theorem read_append_of_lt (s : Store) (m : SparseMatrix) (i : Nat) (h : i < s.length) :
    read (s ++ [m]) i = read s i := by
  simp [read, List.getD_eq_getElem?_getD, List.getElem?_append_left h]

theorem read_append_length (s : Store) (m : SparseMatrix) : read (s ++ [m]) s.length = m := by
  simp [read, List.getD_eq_getElem?_getD]

theorem write_append_length (s : Store) (m m' : SparseMatrix) :
    write (s ++ [m]) s.length m' = s ++ [m'] := by
  simp [write, List.set_append]

theorem foldl_append_single {β : Type} (s : Store) (l : List β) (g : Store → β → Store)
    (g' : SparseMatrix → β → SparseMatrix)
    (h : ∀ res x, g (s ++ [res]) x = s ++ [g' res x]) (res : SparseMatrix) :
    l.foldl g (s ++ [res]) = s ++ [l.foldl g' res] := by
  induction l generalizing res with
  | nil => rfl
  | cons x l ih => rw [List.foldl_cons, h, ih, List.foldl_cons]

theorem setElement_append (s : Store) (res : SparseMatrix) (row col value : JSVal) :
    setElement (s ++ [res]) s.length row col value = s ++ [res.setElement row col value] := by
  rw [setElement, read_append_length, write_append_length]

/-- On a store, `operate` appends the matrix that `SparseMatrix.operate` computes from
the two operands and changes nothing else. -/
theorem operate_eq (s : Store) (a b : Nat) (ha : a < s.length) (hb : b < s.length)
    (op : Int → Int → Int) :
    s.operate a b op = (s ++ [SparseMatrix.operate (s.read a) (s.read b) op], s.length) := by
  unfold operate alloc SparseMatrix.operate
  simp only [read_append_of_lt s _ a ha]
  congr 1
  apply foldl_append_single
  intro res row
  rw [read_append_of_lt s _ a ha]
  apply foldl_append_single
  intro res2 col
  rw [getElement, getElement, read_append_of_lt s _ a ha, read_append_of_lt s _ b hb,
    setElement_append]

/-- On a store, a `multiply` that does not throw appends the matrix that
`SparseMatrix.multiply` computes; one that throws leaves the store as it was. -/
theorem multiply_eq (s : Store) (a b : Nat) (ha : a < s.length) (hb : b < s.length) :
    s.multiply a b =
      match SparseMatrix.multiply (s.read a) (s.read b) with
      | Except.ok R => (s ++ [R], Except.ok s.length)
      | Except.error e => (s, Except.error e) := by
  unfold multiply alloc SparseMatrix.multiply
  by_cases h : JSVal.strictNe (s.read a).numCols (s.read b).numRows = true
  · simp [h]
  · simp only [h, Bool.false_eq_true, if_false, read_append_of_lt s _ a ha]
    congr 1
    apply foldl_append_single
    intro res row
    rw [read_append_of_lt s _ b hb]
    apply foldl_append_single
    intro res2 col
    rw [setElement_append]
    congr 3
    unfold dotRow SparseMatrix.dotRow
    rw [read_append_of_lt s _ a ha]
    simp only [getElement, read_append_of_lt s _ a ha, read_append_of_lt s _ b hb]

end Store

/-! ## Further properties of the nested loop and of `multiply` -/

namespace SparseMatrix

theorem fillWith_of_zero (f : JSVal → JSVal → Int) (hf : ∀ r c, f r c = 0)
    (rows cols : List JSVal) (res : SparseMatrix) : fillWith f rows cols res = res := by
  have hset : ∀ (m : SparseMatrix) (r c : JSVal), m.setElement r c (JSVal.int (f r c)) = m := by
    intro m r c
    simp [setElement, hf]
  have hrow : ∀ (row : JSVal) (cs : List JSVal) (m : SparseMatrix),
      cs.foldl (fun result col => result.setElement row col (JSVal.int (f row col))) m = m := by
    intro row cs
    induction cs with
    | nil => exact fun m => rfl
    | cons c cs ih => exact fun m => by rw [List.foldl_cons, hset, ih]
  unfold fillWith
  induction rows generalizing res with
  | nil => rfl
  | cons row rows ih => rw [List.foldl_cons, hrow, ih]

/-- A key of the row map is a row that holds a stored entry, in every state the class
reaches. -/
theorem mem_keys_iff_row_entry (m : SparseMatrix) (h : IsObjectState m) (r : JSVal) :
    r ∈ JSObj.keys m.matrix ↔ ∃ k v, (r, k, v) ∈ m.entries := by
  constructor
  · intro hr
    obtain ⟨p, hp, hpr⟩ := List.mem_map.1 hr
    obtain ⟨r0, row⟩ := p
    simp only at hpr
    subst hpr
    have hne := (h.2 _ hp).1
    cases hrow : row with
    | nil => exact absurd hrow hne
    | cons e rest =>
      refine ⟨e.1, e.2, (mem_entries m r0 e.1 e.2).2 ⟨row, hp, ?_⟩⟩
      rw [hrow]
      exact List.mem_cons_self _ _
  · rintro ⟨k, v, hkv⟩
    obtain ⟨row, hrow, _⟩ := (mem_entries m r k v).1 hkv
    exact List.mem_map.2 ⟨(r, row), hrow, rfl⟩

/-- A candidate column outside the dimensions of an in-bounds `B` gives a zero sum. -/
theorem dotRow_eq_zero_of_not_inRange (A B : SparseMatrix) (hB : InBounds B) (r c : JSVal)
    (hc : JSVal.inRange c B.numCols = false) : dotRow A B r c = 0 := by
  by_contra hne
  obtain ⟨k, _, hk⟩ := term_of_dotRow_ne_zero A B r c hne
  obtain ⟨v, hv⟩ := entry_of_getElement_ne_zero B k c hk
  have h2 := (hB _ hv).2
  simp only at h2
  rw [hc] at h2
  exact absurd h2 (by decide)

/-- The loop of `multiply` on in-bounds operands stores only coordinates inside
`A.numRows x B.numCols`. -/
theorem inBounds_fillWith_dotRow (A B : SparseMatrix) (hA : InBounds A) (hB : InBounds B) :
    InBounds (fillWith (dotRow A B) (JSObj.keys A.matrix) (JSObj.keys B.matrix)
      (new A.numRows B.numCols)) := by
  intro x hx
  rw [numRows_fillWith, numCols_fillWith]
  rcases mem_entries_fillWith _ _ _ _ x hx with h1 | ⟨_, _, _, h4⟩
  · simp [entries, new] at h1
  · obtain ⟨k, hkA, hkB⟩ := term_of_dotRow_ne_zero A B x.1 x.2.1 h4
    obtain ⟨va, hva⟩ := entry_of_getElement_ne_zero A x.1 k hkA
    obtain ⟨vb, hvb⟩ := entry_of_getElement_ne_zero B k x.2.1 hkB
    exact ⟨(hA _ hva).1, (hB _ hvb).2⟩

/-- The loop of `operate` stores only coordinates inside `A.numRows x A.numCols`. -/
theorem inBounds_operate (A B : SparseMatrix) (op : Int → Int → Int) :
    InBounds (operate A B op) := by
  intro x hx
  rw [operate_eq_fillWith] at hx ⊢
  rw [numRows_fillWith, numCols_fillWith]
  rcases mem_entries_fillWith _ _ _ _ x hx with h1 | ⟨h1, h2, _, _⟩
  · simp [entries, new] at h1
  · exact ⟨(inRange_iff_mem_loopRange _ _).2 h1, (inRange_iff_mem_loopRange _ _).2 h2⟩

end SparseMatrix

namespace JSString

theorem mem_dropWhile_of_false (p : Char → Bool) (l : Str) (c : Char) (hc : c ∈ l)
    (hp : p c = false) : c ∈ l.dropWhile p := by
  induction l with
  | nil => exact absurd hc (List.not_mem_nil _)
  | cons x l ih =>
    by_cases hx : p x = true
    · rw [List.dropWhile_cons_of_pos hx]
      rcases List.mem_cons.1 hc with h | h
      · rw [h, hx] at hp
        exact absurd hp (by decide)
      · exact ih h
    · rw [List.dropWhile_cons_of_neg hx]
      exact hc

/-- Trimming gives the empty string exactly for the strings of white space. -/
theorem trim_eq_nil_iff (s : Str) : trim s = [] ↔ ∀ c ∈ s, isWhiteSpace c = true := by
  constructor
  · intro h c hc
    by_contra hws
    have hws' : isWhiteSpace c = false := by simpa using hws
    have h1 := mem_dropWhile_of_false isWhiteSpace s c hc hws'
    have h2 := mem_dropWhile_of_false isWhiteSpace _ c (List.mem_reverse.2 h1) hws'
    unfold trim at h
    rw [List.reverse_eq_nil_iff] at h
    rw [h] at h2
    exact absurd h2 (List.not_mem_nil _)
  · intro h
    unfold trim
    rw [List.dropWhile_eq_nil_iff.2 h]
    rfl

end JSString

/-! ## The stored value at a coordinate, and the order of the entries -/

namespace JSObj

variable {α : Type}

theorem ordered_cons (k : JSVal) (v : α) (o : JSObj α) :
    Ordered ((k, v) :: o) ↔ (∀ a ∈ keys o, JSVal.keyBefore k a = true) ∧ Ordered o := by
  simp [Ordered, keys]

theorem ne_of_keyBefore {a b : JSVal} (h : JSVal.keyBefore a b = true) : a ≠ b := by
  intro e
  simp [JSVal.keyBefore, e] at h

/-- In the enumeration of an object a property is read back under its key. -/
theorem get_of_mem {k : JSVal} {v : α} {o : JSObj α} (ho : Ordered o) (h : (k, v) ∈ o) :
    get k o = some v := by
  induction o with
  | nil => exact absurd h (List.not_mem_nil _)
  | cons p rest ih =>
    obtain ⟨k0, v0⟩ := p
    obtain ⟨hk0, hrest⟩ := (ordered_cons k0 v0 rest).1 ho
    rcases List.mem_cons.1 h with h1 | h1
    · injection h1 with h2 h3
      subst h2 h3
      simp [get]
    · have hkm : k ∈ keys rest := List.mem_map.2 ⟨(k, v), h1, rfl⟩
      have hne : ¬ k0 = k := ne_of_keyBefore (hk0 k hkm)
      simp [get, hne, ih hrest h1]

end JSObj

namespace SparseMatrix

theorem getElement_eq_orZero_stored (m : SparseMatrix) (r c : JSVal) :
    m.getElement r c = JSVal.orZero (m.stored r c) := by
  unfold getElement stored
  cases JSObj.get r m.matrix <;> rfl

theorem stored_new (R C r c : JSVal) : (new R C).stored r c = none := rfl

theorem mem_entries_of_stored (m : SparseMatrix) (r c v : JSVal) (h : m.stored r c = some v) :
    (r, c, v) ∈ m.entries := by
  unfold stored at h
  cases hg : JSObj.get r m.matrix with
  | none => simp [hg] at h
  | some row =>
    rw [hg] at h
    exact (mem_entries m r c v).2 ⟨row, JSObj.mem_of_get hg, JSObj.mem_of_get h⟩

/-- In a state the class reaches, the stored entries are the graph of `stored`. -/
theorem stored_of_mem_entries (m : SparseMatrix) (hs : IsObjectState m) (r c v : JSVal)
    (h : (r, c, v) ∈ m.entries) : m.stored r c = some v := by
  obtain ⟨row, hrow, hin⟩ := (mem_entries m r c v).1 h
  unfold stored
  rw [JSObj.get_of_mem hs.1 hrow]
  exact JSObj.get_of_mem (hs.2 _ hrow).2 hin

theorem stored_setElement (m : SparseMatrix) (r c v r' c' : JSVal) :
    (m.setElement r c v).stored r' c' =
      if r' = r ∧ c' = c ∧ v ≠ JSVal.int 0 then some v else m.stored r' c' := by
  unfold setElement
  by_cases hv : v = JSVal.int 0
  · simp [hv]
  · rw [if_pos hv]
    simp only [stored, JSObj.get_set]
    by_cases hr : r' = r
    · subst hr
      by_cases hc : c' = c
      · simp [hc, hv, JSObj.get_set]
      · have hc' : ¬ c = c' := fun e => hc e.symm
        cases hg : JSObj.get r' m.matrix <;> simp [hc, hc', JSObj.get, JSObj.get_set]
    · simp [hr]

theorem stored_fillRow (f : JSVal → JSVal → Int) (row : JSVal) (cols : List JSVal)
    (res : SparseMatrix) (r c : JSVal) :
    (cols.foldl (fun result col => result.setElement row col (JSVal.int (f row col))) res).stored r c
      = if r = row ∧ c ∈ cols ∧ f r c ≠ 0 then some (JSVal.int (f r c)) else res.stored r c := by
  induction cols generalizing res with
  | nil => simp
  | cons col cols ih =>
    rw [List.foldl_cons, ih, stored_setElement]
    by_cases hr : r = row
    · subst hr
      by_cases hc : c = col
      · subst hc
        by_cases hf : f r c = 0
        · simp [hf]
        · simp [hf]
      · by_cases hm : c ∈ cols <;> simp [hc, hm]
    · simp [hr]

/-- The stored value after the nested loop: a visited coordinate with a non-zero `f`
stores `f`, every other coordinate stores what `result` stored. -/
theorem stored_fillWith (f : JSVal → JSVal → Int) (rows cols : List JSVal)
    (res : SparseMatrix) (r c : JSVal) :
    (fillWith f rows cols res).stored r c
      = if r ∈ rows ∧ c ∈ cols ∧ f r c ≠ 0 then some (JSVal.int (f r c)) else res.stored r c := by
  unfold fillWith
  induction rows generalizing res with
  | nil => simp
  | cons row rows ih =>
    rw [List.foldl_cons, ih, stored_fillRow]
    by_cases hr : r = row
    · subst hr
      by_cases hm : r ∈ rows <;> by_cases hc : c ∈ cols <;> by_cases hf : f r c = 0 <;>
        simp [hm, hc, hf]
    · by_cases hm : r ∈ rows <;> simp [hr, hm]

theorem isObjectState_fillWith (f : JSVal → JSVal → Int) (rows cols : List JSVal)
    (res : SparseMatrix) (h : IsObjectState res) : IsObjectState (fillWith f rows cols res) := by
  have hrow : ∀ (row : JSVal) (cs : List JSVal) (m : SparseMatrix), IsObjectState m →
      IsObjectState
        (cs.foldl (fun result col => result.setElement row col (JSVal.int (f row col))) m) := by
    intro row cs
    induction cs with
    | nil => exact fun m hm => hm
    | cons c cs ih => exact fun m hm => ih _ (isObjectState_setElement m _ _ _ hm)
  unfold fillWith
  induction rows generalizing res with
  | nil => exact h
  | cons row rows ih => exact ih _ (hrow row cols res h)

/-- In a state the class reaches, the entries come in enumeration order: rows in the
order of the row keys, and inside a row the columns in the order of the column keys. -/
theorem pairwise_entryBefore (M : JSObj (JSObj JSVal)) (R C : JSVal)
    (hs : IsObjectState { matrix := M, numRows := R, numCols := C }) :
    List.Pairwise entryBefore (entries { matrix := M, numRows := R, numCols := C }) := by
  induction M with
  | nil => simp [entries]
  | cons p M ih =>
    obtain ⟨r, row⟩ := p
    obtain ⟨hord, hrows⟩ := hs
    obtain ⟨hr, hordM⟩ := (JSObj.ordered_cons r row M).1 hord
    have hrow := (hrows (r, row) (List.mem_cons_self _ _)).2
    have ih' := ih ⟨hordM, fun x hx => hrows x (List.mem_cons_of_mem _ hx)⟩
    have hsplit : entries { matrix := (r, row) :: M, numRows := R, numCols := C }
        = (row.map fun e => (r, e.1, e.2)) ++ entries { matrix := M, numRows := R, numCols := C } := by
      simp [entries]
    rw [hsplit, List.pairwise_append]
    refine ⟨?_, ih', ?_⟩
    · rw [List.pairwise_map]
      have hrow' : List.Pairwise (fun a b : JSVal × JSVal => JSVal.keyBefore a.1 b.1 = true) row := by
        have := hrow
        unfold JSObj.Ordered JSObj.keys at this
        rwa [List.pairwise_map] at this
      exact hrow'.imp (fun hab => Or.inr ⟨rfl, hab⟩)
    · intro a ha b hb
      obtain ⟨e, _, rfl⟩ := List.mem_map.1 ha
      obtain ⟨r', c', v'⟩ := b
      obtain ⟨row', hrow', _⟩ := (mem_entries _ r' c' v').1 hb
      exact Or.inl (hr r' (List.mem_map.2 ⟨(r', row'), hrow', rfl⟩))

theorem coords_ne_of_entryBefore {a b : JSVal × JSVal × JSVal} (h : entryBefore a b) :
    (a.1, a.2.1) ≠ (b.1, b.2.1) := by
  intro e
  injection e with e1 e2
  rcases h with h | ⟨_, h⟩
  · exact JSObj.ne_of_keyBefore h e1
  · exact JSObj.ne_of_keyBefore h e2

/-- In a state the class reaches, no coordinate is stored twice. -/
theorem nodup_coords (m : SparseMatrix) (hs : IsObjectState m) :
    (m.entries.map fun e => (e.1, e.2.1)).Nodup := by
  obtain ⟨M, R, C⟩ := m
  unfold List.Nodup
  rw [List.pairwise_map]
  exact (pairwise_entryBefore M R C hs).imp (fun h => coords_ne_of_entryBefore h)

theorem nodup_entries (m : SparseMatrix) (hs : IsObjectState m) : m.entries.Nodup :=
  List.Nodup.of_map _ (nodup_coords m hs)

/-- Two reached states that store the same value at every coordinate have the same
entries, up to their order. -/
theorem entries_perm_of_stored_eq (m m' : SparseMatrix) (hs : IsObjectState m)
    (hs' : IsObjectState m') (h : ∀ r c, m.stored r c = m'.stored r c) :
    m.entries.Perm m'.entries := by
  rw [List.perm_ext_iff_of_nodup (nodup_entries m hs) (nodup_entries m' hs')]
  rintro ⟨r, c, v⟩
  constructor
  · intro hm
    exact mem_entries_of_stored m' r c v (by rw [← h]; exact stored_of_mem_entries m hs r c v hm)
  · intro hm
    exact mem_entries_of_stored m r c v (by rw [h]; exact stored_of_mem_entries m' hs' r c v hm)

/-- Between array indices, `keyBefore` is the order of the numbers. -/
theorem lt_of_keyBefore_index (a b : Int) (h : JSVal.keyBefore (JSVal.int a) (JSVal.int b) = true)
    (hb : JSVal.isArrayIndex (JSVal.int b) = true) : a < b := by
  simp only [JSVal.keyBefore, JSVal.isArrayIndex, JSVal.indexLt, Bool.and_eq_true,
    Bool.or_eq_true, Bool.not_eq_true', decide_eq_true_eq, decide_eq_false_iff_not,
    Bool.and_eq_false_iff] at h hb
  omega

end SparseMatrix

namespace SparseMatrix

/-- Only the value `0` is written `0`. -/
theorem ofVal_ne_zero_text (v : JSVal) (h : v ≠ JSVal.int 0) : JSString.ofVal v ≠ ['0'] := by
  cases v with
  | int i =>
    rw [JSString.ofVal_int]
    by_cases hi : i < 0
    · rw [if_pos hi]
      intro e
      injection e with e1 _
      exact absurd e1 (by decide)
    · rw [if_neg hi]
      intro e
      have h1 := JSString.decimalLiteral_ofMagnitude false i.natAbs
      rw [e] at h1
      have h2 : JSString.decimalLiteral false ['0'] = JSVal.int 0 := by decide
      rw [h2] at h1
      simp only [Bool.false_eq_true, if_false] at h1
      injection h1 with h1
      apply h
      congr 1
      omega
  | nan => decide
  | undef => decide

/-- The text `saveToFile` builds: the header lines, then the line of every stored
entry, in the order of `entries`, each with its line feed. -/
theorem content_eq_lines (m : SparseMatrix) :
    content m =
      "rows=".toList ++ JSString.ofVal m.numRows ++ [Char.ofNat 10] ++
      "cols=".toList ++ JSString.ofVal m.numCols ++ [Char.ofNat 10] ++
      (m.entries.flatMap fun e => lineOf e ++ [Char.ofNat 10]) := by
  unfold content
  rw [flatMap_entryLine]
  rfl

end SparseMatrix

/-! ## Text: entry lines with white space around the tokens -/

namespace JSString

theorem not_separator_of_isWhiteSpace (c : Char) (h : isWhiteSpace c = true) :
    c ≠ '(' ∧ c ≠ ')' ∧ c ≠ ',' := by
  refine ⟨?_, ?_, ?_⟩ <;>
  · intro e
    rw [e] at h
    exact absurd h (by decide)

theorem isWhiteSpace_of_isBlank (s : Str) (h : isBlank s = true) :
    ∀ c ∈ s, isWhiteSpace c = true ∧ c ≠ Char.ofNat 10 := by
  intro c hc
  have := List.all_eq_true.1 h c hc
  simpa using this

/-- Trimming a string with white space on both sides of a core that has none. -/
theorem trim_padded (pre l post : Str) (hpre : ∀ c ∈ pre, isWhiteSpace c = true)
    (hpost : ∀ c ∈ post, isWhiteSpace c = true) (hl : ∀ c ∈ l, isWhiteSpace c = false)
    (hne : l ≠ []) : trim (pre ++ (l ++ post)) = l := by
  unfold trim
  rw [dropWhile_append_of_all _ _ _ hpre]
  have h1 : (l ++ post).dropWhile isWhiteSpace = l ++ post := by
    cases l with
    | nil => exact absurd rfl hne
    | cons c r =>
      rw [List.cons_append, List.dropWhile_cons_of_neg]
      simp [hl c (List.mem_cons_self _ _)]
  rw [h1, List.reverse_append,
    dropWhile_append_of_all _ _ _ (fun c hc => hpost c (List.mem_reverse.1 hc)),
    dropWhile_of_all_false _ _ (fun c hc => hl c (List.mem_reverse.1 hc)), List.reverse_reverse]

theorem toNumber_congr (s s' : Str) (h : trim s = trim s') : toNumber s = toNumber s' := by
  unfold toNumber
  rw [h]

/-- The function `Number` reads the decimal string of an integer back, white space
around it or not. -/
theorem toNumber_padded (i : Int) (pre post : Str) (hpre : ∀ c ∈ pre, isWhiteSpace c = true)
    (hpost : ∀ c ∈ post, isWhiteSpace c = true) :
    toNumber (pre ++ (ofVal (JSVal.int i) ++ post)) = JSVal.int i := by
  have h1 := trim_padded pre _ post hpre hpost (isWhiteSpace_of_mem_ofVal_int i)
    (ofVal_int_chars i).1
  have h2 := trim_append_of_no_whiteSpace [] _ (by simp) (isWhiteSpace_of_mem_ofVal_int i)
  rw [toNumber_congr _ _ (h1.trans h2.symm)]
  exact toNumber_ofVal_int i [] (by simp)

theorem rdropWhile_append_of_all (p : Char → Bool) (l w : Str) (h : ∀ c ∈ w, p c = true) :
    List.rdropWhile p (l ++ w) = List.rdropWhile p l := by
  unfold List.rdropWhile
  rw [List.reverse_append, dropWhile_append_of_all _ _ _ (fun c hc => h c (List.mem_reverse.1 hc))]

/-- Trimming removes the white space after a text that starts and ends with a
character that is not white space. -/
theorem trim_append_whiteSpace (c0 x : Char) (t y w : Str) (hxy : c0 :: t = y ++ [x])
    (hc0 : isWhiteSpace c0 = false) (hx : isWhiteSpace x = false)
    (hw : ∀ c ∈ w, isWhiteSpace c = true) : trim ((c0 :: t) ++ w) = c0 :: t := by
  unfold trim
  rw [List.cons_append, List.dropWhile_cons_of_neg (by simp [hc0]), ← List.cons_append]
  show List.rdropWhile isWhiteSpace ((c0 :: t) ++ w) = c0 :: t
  rw [rdropWhile_append_of_all _ _ _ hw, hxy, List.rdropWhile_concat_neg _ _ _ (by simp [hx])]

/-- Splitting a text made of lines at the line feeds gives the lines back. -/
theorem split_joined (sep : Char) (l : Str) (ls : List Str) (hl : sep ∉ l)
    (hls : ∀ x ∈ ls, sep ∉ x) :
    split sep (l ++ ls.flatMap fun x => sep :: x) = l :: ls := by
  induction ls generalizing l with
  | nil => simp [split_of_not_mem _ _ hl]
  | cons x ls ih =>
    rw [List.flatMap_cons, List.cons_append, split_append_sep _ _ _ hl,
      ih _ (hls x (List.mem_cons_self _ _)) (fun y hy => hls y (List.mem_cons_of_mem _ hy))]

end JSString

namespace SparseMatrix

theorem paddedLine_plain (e : Int × Int × Int) :
    paddedLine Padding.plain e = lineOf (JSVal.int e.1, JSVal.int e.2.1, JSVal.int e.2.2) := by
  simp [paddedLine, lineOf, Padding.plain]

theorem blank_pieces (p : Padding) (hp : p.Blank) (s : Str) (hs : s ∈ p.pieces) :
    ∀ c ∈ s, JSString.isWhiteSpace c = true ∧ c ≠ Char.ofNat 10 :=
  JSString.isWhiteSpace_of_isBlank s (hp s hs)

/-- The method `parseEntry` reads an entry line with integer tokens back, whatever white
space surrounds the line and the tokens. -/
theorem parseEntry_paddedLine (p : Padding) (hp : p.Blank) (e : Int × Int × Int) :
    parseEntry (paddedLine p e) = (JSVal.int e.1, JSVal.int e.2.1, JSVal.int e.2.2) := by
  have hws : ∀ s ∈ p.pieces, ∀ c ∈ s, JSString.isWhiteSpace c = true := fun s hs c hc =>
    (blank_pieces p hp s hs c hc).1
  have hfw : ∀ s ∈ p.pieces, s.filter (fun ch => ch ≠ '(' ∧ ch ≠ ')') = s := by
    intro s hs
    rw [List.filter_eq_self]
    intro ch hch
    have h := JSString.not_separator_of_isWhiteSpace ch (hws s hs ch hch)
    simp [h.1, h.2.1]
  have hfil : ∀ i : Int, (JSString.ofVal (JSVal.int i)).filter (fun ch => ch ≠ '(' ∧ ch ≠ ')')
      = JSString.ofVal (JSVal.int i) := by
    intro i
    rw [List.filter_eq_self]
    intro ch hch
    have h := (JSString.ofVal_int_chars i).2 ch hch
    have h1 : ch ≠ '(' := by
      intro e
      rw [e] at h
      revert h
      decide
    have h2 : ch ≠ ')' := by
      intro e
      rw [e] at h
      revert h
      decide
    simp [h1, h2]
  have hcomma : ∀ (pre post : Str) (i : Int), (∀ ch ∈ pre, JSString.isWhiteSpace ch = true) →
      (∀ ch ∈ post, JSString.isWhiteSpace ch = true) →
      ',' ∉ pre ++ (JSString.ofVal (JSVal.int i) ++ post) := by
    intro pre post i hpre hpost hc
    rcases List.mem_append.1 hc with hc | hc
    · exact (JSString.not_separator_of_isWhiteSpace _ (hpre _ hc)).2.2 rfl
    · rcases List.mem_append.1 hc with hc | hc
      · have h := (JSString.ofVal_int_chars i).2 _ hc
        revert h
        decide
      · exact (JSString.not_separator_of_isWhiteSpace _ (hpost _ hc)).2.2 rfl
  have m0 : p.beforeLine ∈ p.pieces := by simp [Padding.pieces]
  have m1 : p.beforeRow ∈ p.pieces := by simp [Padding.pieces]
  have m2 : p.afterRow ∈ p.pieces := by simp [Padding.pieces]
  have m3 : p.beforeCol ∈ p.pieces := by simp [Padding.pieces]
  have m4 : p.afterCol ∈ p.pieces := by simp [Padding.pieces]
  have m5 : p.beforeValue ∈ p.pieces := by simp [Padding.pieces]
  have m6 : p.afterValue ∈ p.pieces := by simp [Padding.pieces]
  have m7 : p.afterLine ∈ p.pieces := by simp [Padding.pieces]
  have hshape : (paddedLine p e).filter (fun ch => ch ≠ '(' ∧ ch ≠ ')')
      = ((p.beforeLine ++ p.beforeRow) ++ (JSString.ofVal (JSVal.int e.1) ++ p.afterRow)) ++ ',' ::
          ((p.beforeCol ++ (JSString.ofVal (JSVal.int e.2.1) ++ p.afterCol)) ++ ',' ::
            (p.beforeValue ++ (JSString.ofVal (JSVal.int e.2.2) ++ (p.afterValue ++ p.afterLine)))) := by
    simp only [paddedLine, List.filter_append, List.filter_cons, hfil, hfw _ m0, hfw _ m1,
      hfw _ m2, hfw _ m3, hfw _ m4, hfw _ m5, hfw _ m6, hfw _ m7]
    simp
  have hpre01 : ∀ ch ∈ p.beforeLine ++ p.beforeRow, JSString.isWhiteSpace ch = true := by
    intro ch hch
    rcases List.mem_append.1 hch with h | h
    · exact hws _ m0 ch h
    · exact hws _ m1 ch h
  have hpost67 : ∀ ch ∈ p.afterValue ++ p.afterLine, JSString.isWhiteSpace ch = true := by
    intro ch hch
    rcases List.mem_append.1 hch with h | h
    · exact hws _ m6 ch h
    · exact hws _ m7 ch h
  unfold parseEntry
  rw [hshape, JSString.split_append_sep _ _ _ (hcomma _ _ e.1 hpre01 (hws _ m2)),
    JSString.split_append_sep _ _ _ (hcomma _ _ e.2.1 (hws _ m3) (hws _ m4)),
    JSString.split_of_not_mem _ _ (hcomma _ _ e.2.2 (hws _ m5) hpost67)]
  simp only [List.map_cons, List.map_nil, List.getD_cons_zero, List.getD_cons_succ]
  rw [JSString.toNumber_padded e.1 _ _ hpre01 (hws _ m2),
    JSString.toNumber_padded e.2.1 _ _ (hws _ m3) (hws _ m4),
    JSString.toNumber_padded e.2.2 _ _ (hws _ m5) hpost67]

/-- A padded entry line has no line feed. -/
theorem lineFeed_not_mem_paddedLine (p : Padding) (hp : p.Blank) (e : Int × Int × Int) :
    Char.ofNat 10 ∉ paddedLine p e := by
  have hnl : ∀ s ∈ p.pieces, Char.ofNat 10 ∉ s := fun s hs hc =>
    (blank_pieces p hp s hs _ hc).2 rfl
  have hd : ∀ i : Int, Char.ofNat 10 ∉ JSString.ofVal (JSVal.int i) := by
    intro i hc
    have h := (JSString.ofVal_int_chars i).2 _ hc
    revert h
    decide
  have hq : (Char.ofNat 10 = '(') = False := by decide
  have hq2 : (Char.ofNat 10 = ')') = False := by decide
  have hq3 : (Char.ofNat 10 = ',') = False := by decide
  simp only [paddedLine, List.mem_append, List.mem_cons, hq, hq2, hq3, false_or, hd, or_false]
  intro h
  have hm : ∀ s, s ∈ p.pieces → Char.ofNat 10 ∈ s → False := fun s hs hc => hnl s hs hc
  rcases h with h | h | h | h | h | h | h | h
  · exact hm _ (by simp [Padding.pieces]) h
  · exact hm _ (by simp [Padding.pieces]) h
  · exact hm _ (by simp [Padding.pieces]) h
  · exact hm _ (by simp [Padding.pieces]) h
  · exact hm _ (by simp [Padding.pieces]) h
  · exact hm _ (by simp [Padding.pieces]) h
  · exact hm _ (by simp [Padding.pieces]) h
  · exact hm _ (by simp [Padding.pieces]) h

end SparseMatrix

/-! ## Text: loading a text of header lines and padded entry lines -/

namespace SparseMatrix

theorem fileText_append_line (R C : Int) (lines : List Str) (l : Str) :
    fileText R C (lines ++ [l]) = fileText R C lines ++ Char.ofNat 10 :: l := by
  simp [fileText, List.flatMap_append]

theorem paddedLine_split (p : Padding) (e : Int × Int × Int) :
    ∃ body : Str, paddedLine { p with afterLine := [] } e = body ++ [')'] ∧
      paddedLine p e = (body ++ [')']) ++ p.afterLine :=
  ⟨p.beforeLine ++ '(' :: (p.beforeRow ++ (JSString.ofVal (JSVal.int e.1) ++ (p.afterRow ++
    ',' :: (p.beforeCol ++ (JSString.ofVal (JSVal.int e.2.1) ++ (p.afterCol ++
      ',' :: (p.beforeValue ++ (JSString.ofVal (JSVal.int e.2.2) ++ p.afterValue)))))))),
    by simp [paddedLine], by simp [paddedLine]⟩

theorem blank_without_afterLine (p : Padding) (hp : p.Blank) :
    Padding.Blank { p with afterLine := [] } := by
  intro s hs
  simp only [Padding.pieces, List.mem_cons, List.mem_singleton, List.not_mem_nil, or_false] at hs
  rcases hs with h | h | h | h | h | h | h | h
  · exact hp s (by simp [Padding.pieces, h])
  · exact hp s (by simp [Padding.pieces, h])
  · exact hp s (by simp [Padding.pieces, h])
  · exact hp s (by simp [Padding.pieces, h])
  · exact hp s (by simp [Padding.pieces, h])
  · exact hp s (by simp [Padding.pieces, h])
  · exact hp s (by simp [Padding.pieces, h])
  · rw [h]
    rfl

/-- Trimming a text of header lines and padded entry lines, followed by white space:
what is left is such a text, with the same entries, that ends with its last line. -/
theorem trim_fileText (R C : Int) (ls : List (Padding × (Int × Int × Int))) (tail : Str)
    (hb : ∀ x ∈ ls, x.1.Blank) (ht : ∀ c ∈ tail, JSString.isWhiteSpace c = true) :
    ∃ ls2 : List (Padding × (Int × Int × Int)),
      (∀ x ∈ ls2, x.1.Blank) ∧ ls2.map Prod.snd = ls.map Prod.snd ∧
      JSString.trim (fileText R C (ls.map fun x => paddedLine x.1 x.2) ++ tail)
        = fileText R C (ls2.map fun x => paddedLine x.1 x.2) := by
  have hstart : ∀ lines : List Str, ∃ t, fileText R C lines = 'r' :: t := fun lines => ⟨_, rfl⟩
  rcases List.eq_nil_or_concat ls with h0 | ⟨ls0, pe, hls⟩
  · subst h0
    refine ⟨[], hb, rfl, ?_⟩
    obtain ⟨q, x, hq, hx⟩ := exists_concat_of_no_whiteSpace _ (JSString.ofInt_chars C).1
      (JSString.isWhiteSpace_of_mem_ofInt C)
    obtain ⟨t, ht0⟩ := hstart []
    have hend : 'r' :: t = (("rows=".toList ++ JSString.ofInt R) ++ Char.ofNat 10 ::
        ("cols=".toList ++ q)) ++ [x] := by
      rw [← ht0]
      simp [fileText, hq]
    simp only [List.map_nil]
    rw [ht0]
    exact JSString.trim_append_whiteSpace 'r' x t _ tail hend (by decide) hx ht
  · rw [List.concat_eq_append] at hls
    subst hls
    obtain ⟨p, e⟩ := pe
    have hp : p.Blank := hb (p, e) (by simp)
    obtain ⟨body, hbody, hfull⟩ := paddedLine_split p e
    refine ⟨ls0 ++ [(({ p with afterLine := [] } : Padding), e)], ?_, by simp, ?_⟩
    · intro x hx
      rcases List.mem_append.1 hx with h | h
      · exact hb x (by simp [h])
      · rw [List.mem_singleton.1 h]
        exact blank_without_afterLine p hp
    · have hw : ∀ c ∈ p.afterLine ++ tail, JSString.isWhiteSpace c = true := by
        intro c hc
        rcases List.mem_append.1 hc with h | h
        · exact (blank_pieces p hp _ (by simp [Padding.pieces]) c h).1
        · exact ht c h
      have htext : fileText R C ((ls0 ++ [(p, e)]).map fun x => paddedLine x.1 x.2) ++ tail
          = fileText R C ((ls0 ++ [(({ p with afterLine := [] } : Padding), e)]).map fun x => paddedLine x.1 x.2)
            ++ (p.afterLine ++ tail) := by
        simp only [List.map_append, List.map_cons, List.map_nil, fileText_append_line, hbody, hfull]
        simp
      obtain ⟨t, ht0⟩ := hstart
        ((ls0 ++ [(({ p with afterLine := [] } : Padding), e)]).map fun x => paddedLine x.1 x.2)
      have hend : 'r' :: t = (fileText R C (ls0.map fun x => paddedLine x.1 x.2) ++
          Char.ofNat 10 :: body) ++ [')'] := by
        rw [← ht0]
        simp only [List.map_append, List.map_cons, List.map_nil, fileText_append_line, hbody]
        simp
      rw [htext, ht0]
      exact JSString.trim_append_whiteSpace 'r' ')' t _ _ hend (by decide) (by decide) hw

theorem lineFeed_not_mem_header (name : Str) (i : Int) (hname : Char.ofNat 10 ∉ name) :
    Char.ofNat 10 ∉ name ++ JSString.ofInt i := by
  intro hc
  rcases List.mem_append.1 hc with hc | hc
  · exact hname hc
  · have h1 := (JSString.ofInt_chars i).2 _ hc
    revert h1
    decide

/-- Loading a text of header lines `rows=R`, `cols=C` and entry lines with integer
tokens, white space around the lines and the tokens and after the text or not, succeeds
and gives the matrix that the constructor and one `setElement` call per line, in the
order of the lines, build. -/
theorem ofFile_fileText (R C : Int) (ls : List (Padding × (Int × Int × Int))) (tail : Str)
    (hb : ∀ x ∈ ls, x.1.Blank) (ht : ∀ c ∈ tail, JSString.isWhiteSpace c = true) :
    ofFile (fileText R C (ls.map fun x => paddedLine x.1 x.2) ++ tail)
      = Except.ok (build R C (ls.map Prod.snd)) := by
  obtain ⟨ls2, hb2, hsnd, htrim⟩ := trim_fileText R C ls tail hb ht
  have hp0 : parseHeader ("rows=".toList ++ JSString.ofInt R) = JSVal.int R :=
    parseHeader_ofInt "rows".toList (by decide) R
  have hp1 : parseHeader ("cols=".toList ++ JSString.ofInt C) = JSVal.int C :=
    parseHeader_ofInt "cols".toList (by decide) C
  have hlines : ∀ l ∈ ls2.map (fun x => paddedLine x.1 x.2), Char.ofNat 10 ∉ l := by
    intro l hl
    obtain ⟨x, hx, rfl⟩ := List.mem_map.1 hl
    exact lineFeed_not_mem_paddedLine x.1 (hb2 x hx) x.2
  have hparse : ∀ (a : SparseMatrix), ∀ x ∈ ls2,
      a.setElement (parseEntry (paddedLine x.1 x.2)).1 (parseEntry (paddedLine x.1 x.2)).2.1
        (parseEntry (paddedLine x.1 x.2)).2.2
      = a.setElement (JSVal.int x.2.1) (JSVal.int x.2.2.1) (JSVal.int x.2.2.2) := by
    intro a x hx
    rw [parseEntry_paddedLine x.1 (hb2 x hx)]
  unfold ofFile loadMatrix
  rw [htrim]
  unfold fileText
  rw [JSString.split_append_sep _ _ _ (lineFeed_not_mem_header "rows=".toList R (by decide)),
    JSString.split_joined _ _ _ (lineFeed_not_mem_header "cols=".toList C (by decide)) hlines]
  simp only [hp0, hp1]
  congr 1
  rw [List.foldl_map, List.foldl_ext _ _ _ hparse, ← hsnd]
  unfold build
  rw [List.foldl_map]
  rfl

theorem isSome_stored_setElement (m : SparseMatrix) (r c v r' c' : JSVal)
    (h : (m.stored r' c').isSome = true) : ((m.setElement r c v).stored r' c').isSome = true := by
  rw [stored_setElement]
  split
  · rfl
  · exact h

/-- A coordinate written with a non-zero value by one of the `setElement` calls of
`build` is stored in the result, inside the dimensions or not. -/
theorem isSome_stored_build (R C : Int) (es : List (Int × Int × Int)) (e : Int × Int × Int)
    (he : e ∈ es) (hv : e.2.2 ≠ 0) :
    ((build R C es).stored (JSVal.int e.1) (JSVal.int e.2.1)).isSome = true := by
  unfold build
  generalize new (JSVal.int R) (JSVal.int C) = m0
  have hkeep : ∀ (l : List (Int × Int × Int)) (m : SparseMatrix),
      (m.stored (JSVal.int e.1) (JSVal.int e.2.1)).isSome = true →
      ((l.foldl (fun m x => m.setElement (JSVal.int x.1) (JSVal.int x.2.1) (JSVal.int x.2.2))
        m).stored (JSVal.int e.1) (JSVal.int e.2.1)).isSome = true := by
    intro l
    induction l with
    | nil => exact fun m hm => hm
    | cons x l ih => exact fun m hm => ih _ (isSome_stored_setElement m _ _ _ _ _ hm)
  induction es generalizing m0 with
  | nil => exact absurd he (List.not_mem_nil _)
  | cons x es ih =>
    rw [List.foldl_cons]
    rcases List.mem_cons.1 he with h | h
    · subst h
      apply hkeep
      rw [stored_setElement]
      have hne : JSVal.int e.2.2 ≠ JSVal.int 0 := by
        intro h0
        injection h0 with h0
        exact hv h0
      simp [hne]
    · exact ih h _

/-- The method `loadMatrix` throws exactly when the trimmed content has fewer than
two lines. -/
theorem loadMatrix_error_iff (m : SparseMatrix) (text : Str) :
    (∃ e, loadMatrix m text = Except.error e) ↔
      (JSString.split (Char.ofNat 10) (JSString.trim text)).length < 2 := by
  unfold loadMatrix
  cases hsp : JSString.split (Char.ofNat 10) (JSString.trim text) with
  | nil => simp
  | cons a rest =>
    cases rest with
    | nil => simp
    | cons b rest2 => simp

end SparseMatrix

namespace SparseMatrix

theorem foldl_add_eq_sum {β : Type} (g : β → Int) (l : List β) (a : Int) :
    l.foldl (fun acc k => acc + g k) a = a + (l.map g).sum := by
  induction l generalizing a with
  | nil => simp
  | cons k l ih =>
    rw [List.foldl_cons, ih, List.map_cons, List.sum_cons, add_assoc]

/-- The `reduce` of `multiply` is the sum, over the column keys `k` stored in row `row`
of `A`, of `A.getElement(row, k) * B.getElement(k, col)`. -/
theorem dotRow_eq_sum (A B : SparseMatrix) (row col : JSVal) :
    dotRow A B row col
      = ((JSObj.keys ((JSObj.get row A.matrix).getD [])).map
          fun k => A.getElement row k * B.getElement k col).sum := by
  unfold dotRow
  rw [foldl_add_eq_sum, zero_add]

end SparseMatrix

/-! ## The claims -/

namespace SparseMatrix

/-- Claim C1, at the input where the code departs from it.  `A` is 1 x 2 with the
entry `(0, 0, 1)` and `B` is 2 x 2 with the entry `(0, 1, 1)`; both keep their
coordinates inside their dimensions and `A.numCols = B.numRows`.  Row `0` has a stored
entry in `A`, column `1` has a stored entry in `B`, and the product has the entry `1`
at `(0, 1)` (both as the sum over the stored columns of the row and as the sum over
`k < 2`).  `multiply` walks the row keys of `B` in place of its columns, visits only
`(0, 0)`, and returns the empty 1 x 2 matrix, which reads `0` at `(0, 1)`. -/
theorem C1_multiply_misses_column :
    InBounds (build 1 2 [(0, 0, 1)]) ∧ InBounds (build 2 2 [(0, 1, 1)]) ∧
    (JSVal.int 0, JSVal.int 0, JSVal.int 1) ∈ (build 1 2 [(0, 0, 1)]).entries ∧
    (JSVal.int 0, JSVal.int 1, JSVal.int 1) ∈ (build 2 2 [(0, 1, 1)]).entries ∧
    multiply (build 1 2 [(0, 0, 1)]) (build 2 2 [(0, 1, 1)])
      = Except.ok (new (JSVal.int 1) (JSVal.int 2)) ∧
    (new (JSVal.int 1) (JSVal.int 2)).getElement (JSVal.int 0) (JSVal.int 1) = 0 ∧
    dotRow (build 1 2 [(0, 0, 1)]) (build 2 2 [(0, 1, 1)]) (JSVal.int 0) (JSVal.int 1) = 1 ∧
    denseDot (build 1 2 [(0, 0, 1)]) (build 2 2 [(0, 1, 1)]) 0 1 = 1 := by
  decide

/-- Claim C2: the result of `add` and of `subtract` has the dimensions of `A`, and
at every `(row, col)` with `0 <= row < numRows` and `0 <= col < numCols` its
`getElement` is the sum, respectively the difference, of the operands' `getElement`.
(It holds for all operands, of equal dimensions or not.) -/
theorem C2_operate_elementwise (A B : SparseMatrix) (row col : Int)
    (hr0 : 0 ≤ row) (hr : JSVal.lt (JSVal.int row) A.numRows = true)
    (hc0 : 0 ≤ col) (hc : JSVal.lt (JSVal.int col) A.numCols = true) :
    (A.add B).numRows = A.numRows ∧ (A.add B).numCols = A.numCols ∧
    (A.add B).getElement (JSVal.int row) (JSVal.int col)
      = A.getElement (JSVal.int row) (JSVal.int col) + B.getElement (JSVal.int row) (JSVal.int col) ∧
    (A.subtract B).numRows = A.numRows ∧ (A.subtract B).numCols = A.numCols ∧
    (A.subtract B).getElement (JSVal.int row) (JSVal.int col)
      = A.getElement (JSVal.int row) (JSVal.int col) - B.getElement (JSVal.int row) (JSVal.int col) := by
  have hmr := (mem_loopRange A.numRows row).2 ⟨hr0, hr⟩
  have hmc := (mem_loopRange A.numCols col).2 ⟨hc0, hc⟩
  have key : ∀ op : Int → Int → Int,
      (operate A B op).numRows = A.numRows ∧ (operate A B op).numCols = A.numCols ∧
      (operate A B op).getElement (JSVal.int row) (JSVal.int col)
        = op (A.getElement (JSVal.int row) (JSVal.int col))
            (B.getElement (JSVal.int row) (JSVal.int col)) := by
    intro op
    rw [operate_eq_fillWith]
    refine ⟨by rw [numRows_fillWith]; rfl, by rw [numCols_fillWith]; rfl, ?_⟩
    rw [getElement_fillWith, getElement_new]
    by_cases hz : op (A.getElement (JSVal.int row) (JSVal.int col))
        (B.getElement (JSVal.int row) (JSVal.int col)) = 0
    · simp [hz]
    · simp [hmr, hmc, hz]
  obtain ⟨a1, a2, a3⟩ := key (fun a b => a + b)
  obtain ⟨s1, s2, s3⟩ := key (fun a b => a - b)
  exact ⟨a1, a2, a3, s1, s2, s3⟩

/-- The scenario of the specification for `add`: with `A` holding
`(0,0,1),(0,1,2),(1,0,3),(1,1,4)` and `B` holding `(0,0,1),(1,1,1)`, the sum holds
`(0,0,2),(0,1,2),(1,0,3),(1,1,5)`; at `(1, 1)` the sum reads `5` and the difference `3`. -/
theorem C2_operate_elementwise_witness :
    (0 : Int) ≤ 1 ∧
    JSVal.lt (JSVal.int 1) (build 2 2 [(0, 0, 1), (0, 1, 2), (1, 0, 3), (1, 1, 4)]).numRows = true ∧
    (build 2 2 [(0, 0, 1), (0, 1, 2), (1, 0, 3), (1, 1, 4)]).add (build 2 2 [(0, 0, 1), (1, 1, 1)])
      = build 2 2 [(0, 0, 2), (0, 1, 2), (1, 0, 3), (1, 1, 5)] ∧
    ((build 2 2 [(0, 0, 1), (0, 1, 2), (1, 0, 3), (1, 1, 4)]).add
        (build 2 2 [(0, 0, 1), (1, 1, 1)])).getElement (JSVal.int 1) (JSVal.int 1) = 4 + 1 ∧
    ((build 2 2 [(0, 0, 1), (0, 1, 2), (1, 0, 3), (1, 1, 4)]).subtract
        (build 2 2 [(0, 0, 1), (1, 1, 1)])).getElement (JSVal.int 1) (JSVal.int 1) = 4 - 1 :=
  have h := C2_operate_elementwise (build 2 2 [(0, 0, 1), (0, 1, 2), (1, 0, 3), (1, 1, 4)])
    (build 2 2 [(0, 0, 1), (1, 1, 1)]) 1 1 (by decide) (by decide) (by decide) (by decide)
  ⟨by decide, by decide, by decide, h.2.2.1, h.2.2.2.2.2⟩

/-- Claim C3: `multiply` throws exactly when `this.numCols !== otherMatrix.numRows`
(for integer dimensions: exactly when the two integers differ), and when it does not
throw it returns a matrix of dimensions `A.numRows x B.numCols`. -/
theorem C3_multiply_throws_iff (A B : SparseMatrix) :
    ((∃ e, multiply A B = Except.error e) ↔ JSVal.strictNe A.numCols B.numRows = true) ∧
    (∀ n k : Int, A.numCols = JSVal.int n ∧ B.numRows = JSVal.int k →
      ((∃ e, multiply A B = Except.error e) ↔ n ≠ k)) ∧
    ((∃ e, multiply A B = Except.error e) ∨
      ∃ R, multiply A B = Except.ok R ∧ R.numRows = A.numRows ∧ R.numCols = B.numCols) := by
  have h1 : (∃ e, multiply A B = Except.error e) ↔ JSVal.strictNe A.numCols B.numRows = true := by
    by_cases h : JSVal.strictNe A.numCols B.numRows = true
    · simp [multiply, h]
    · simp [multiply, h]
  refine ⟨h1, ?_, ?_⟩
  · rintro n k ⟨hn, hk⟩
    rw [h1, hn, hk]
    simp [JSVal.strictNe]
  · by_cases h : JSVal.strictNe A.numCols B.numRows = true
    · exact Or.inl (h1.2 h)
    · have h' : JSVal.strictNe A.numCols B.numRows = false := by simpa using h
      refine Or.inr ⟨_, multiply_eq_fillWith A B h', ?_, ?_⟩
      · rw [numRows_fillWith]; rfl
      · rw [numCols_fillWith]; rfl

/-- A 1 x 2 matrix and a 3 x 1 matrix: the inner dimensions `2` and `3` differ and
`multiply` throws. -/
theorem C3_multiply_throws_iff_witness :
    (build 1 2 [(0, 0, 1)]).numCols = JSVal.int 2 ∧ (build 3 1 [(0, 0, 1)]).numRows = JSVal.int 3 ∧
    ((∃ e, multiply (build 1 2 [(0, 0, 1)]) (build 3 1 [(0, 0, 1)]) = Except.error e) ↔
      (2 : Int) ≠ 3) :=
  ⟨rfl, rfl,
    (C3_multiply_throws_iff (build 1 2 [(0, 0, 1)]) (build 3 1 [(0, 0, 1)])).2.1 2 3 ⟨rfl, rfl⟩⟩

/-- Claim C4, at an input where the code departs from it.  `A` is 1 x 1 and `B` is
2 x 2, so both dimensions differ; `add` and `subtract` check nothing and return a
1 x 1 matrix computed from the corner of `B` (whose entry `(1, 1, 5)` is dropped),
where `multiply` on unequal inner dimensions throws. -/
theorem C4_operate_has_no_dimension_check :
    (build 1 1 [(0, 0, 1)]).numRows ≠ (build 2 2 [(1, 1, 5)]).numRows ∧
    (build 1 1 [(0, 0, 1)]).numCols ≠ (build 2 2 [(1, 1, 5)]).numCols ∧
    (build 1 1 [(0, 0, 1)]).add (build 2 2 [(1, 1, 5)]) = build 1 1 [(0, 0, 1)] ∧
    (build 1 1 [(0, 0, 1)]).subtract (build 2 2 [(1, 1, 5)]) = build 1 1 [(0, 0, 1)] := by
  decide

/-- Claim C5 fails as stated: the matrix stores `5` at `(0, 0)`; `setElement(0, 0, 0)`
removes nothing, so `getElement(0, 0)` is still `5` and the rendered text still has the
line `(0, 0, 5)`. -/
theorem C5_setElement_zero_keeps_entry :
    ((build 1 1 [(0, 0, 5)]).setElement (JSVal.int 0) (JSVal.int 0) (JSVal.int 0)).getElement
      (JSVal.int 0) (JSVal.int 0) = 5 ∧
    (JSVal.int 0, JSVal.int 0, JSVal.int 5) ∈
      ((build 1 1 [(0, 0, 5)]).setElement (JSVal.int 0) (JSVal.int 0) (JSVal.int 0)).entries ∧
    content ((build 1 1 [(0, 0, 5)]).setElement (JSVal.int 0) (JSVal.int 0) (JSVal.int 0))
      = "rows=1\ncols=1\n(0, 0, 5)\n".toList := by
  decide

/-- Claim C5 as amended: `setElement(r, c, 0)` writes nothing and removes nothing: every
matrix is left exactly as it was, with the same stored entries, the same value read at
every coordinate and the same rendered text.  So it inserts no entry, and at a
coordinate with no stored entry `getElement(r, c)` is `0` afterwards and no entry for
`(r, c)` is there to be rendered. -/
theorem C5_setElement_zero_writes_nothing (m : SparseMatrix) (r c : JSVal) :
    m.setElement r c (JSVal.int 0) = m ∧
    (m.setElement r c (JSVal.int 0)).entries = m.entries ∧
    (∀ r' c' : JSVal, (m.setElement r c (JSVal.int 0)).getElement r' c' = m.getElement r' c') ∧
    content (m.setElement r c (JSVal.int 0)) = content m ∧
    ((∀ v, (r, c, v) ∉ m.entries) →
      (m.setElement r c (JSVal.int 0)).getElement r c = 0 ∧
      ∀ v, (r, c, v) ∉ (m.setElement r c (JSVal.int 0)).entries) := by
  have h0 : m.setElement r c (JSVal.int 0) = m := by simp [setElement]
  rw [h0]
  refine ⟨rfl, rfl, fun _ _ => rfl, rfl, fun h => ⟨?_, h⟩⟩
  by_contra hne
  obtain ⟨v, hv⟩ := entry_of_getElement_ne_zero m r c hne
  exact h v hv

/-- Writing `0` at `(1, 1)` of a 2 x 2 matrix that stores only `(0, 0, 5)`, and at
`(0, 0)`, where the `5` stays. -/
theorem C5_setElement_zero_writes_nothing_witness :
    (∀ v, (JSVal.int 1, JSVal.int 1, v) ∉ (build 2 2 [(0, 0, 5)]).entries) ∧
    (build 2 2 [(0, 0, 5)]).setElement (JSVal.int 1) (JSVal.int 1) (JSVal.int 0)
      = build 2 2 [(0, 0, 5)] ∧
    ((build 2 2 [(0, 0, 5)]).setElement (JSVal.int 1) (JSVal.int 1) (JSVal.int 0)).getElement
      (JSVal.int 1) (JSVal.int 1) = 0 ∧
    (build 2 2 [(0, 0, 5)]).setElement (JSVal.int 0) (JSVal.int 0) (JSVal.int 0)
      = build 2 2 [(0, 0, 5)] :=
  have hno : ∀ v, (JSVal.int 1, JSVal.int 1, v) ∉ (build 2 2 [(0, 0, 5)]).entries := by
    intro v hv
    have h1 : (build 2 2 [(0, 0, 5)]).entries = [(JSVal.int 0, JSVal.int 0, JSVal.int 5)] := by
      decide
    rw [h1] at hv
    simp at hv
  have h := C5_setElement_zero_writes_nothing (build 2 2 [(0, 0, 5)]) (JSVal.int 1) (JSVal.int 1)
  ⟨hno, h.1, (h.2.2.2.2 hno).1,
    (C5_setElement_zero_writes_nothing (build 2 2 [(0, 0, 5)]) (JSVal.int 0) (JSVal.int 0)).1⟩

/-- Claim C6 fails as stated: `NaN` and `undefined` are values `v` with `v !== 0`, so
`setElement(0, 0, v)` stores them, and `getElement(0, 0)` then returns `0`, not `v`.
The method `loadMatrix` makes such a call for the line `(0, 0, x)`. -/
theorem C6_stored_nan_reads_zero :
    JSVal.strictNe JSVal.nan (JSVal.int 0) = true ∧
    JSVal.strictNe JSVal.undef (JSVal.int 0) = true ∧
    ((new (JSVal.int 1) (JSVal.int 1)).setElement (JSVal.int 0) (JSVal.int 0) JSVal.nan).stored
      (JSVal.int 0) (JSVal.int 0) = some JSVal.nan ∧
    ((new (JSVal.int 1) (JSVal.int 1)).setElement (JSVal.int 0) (JSVal.int 0)
      JSVal.nan).getElement (JSVal.int 0) (JSVal.int 0) = 0 ∧
    ((new (JSVal.int 1) (JSVal.int 1)).setElement (JSVal.int 0) (JSVal.int 0) JSVal.undef).stored
      (JSVal.int 0) (JSVal.int 0) = some JSVal.undef ∧
    ((new (JSVal.int 1) (JSVal.int 1)).setElement (JSVal.int 0) (JSVal.int 0)
      JSVal.undef).getElement (JSVal.int 0) (JSVal.int 0) = 0 ∧
    ofFile "rows=1\ncols=1\n(0, 0, x)\n".toList
      = Except.ok ((new (JSVal.int 1) (JSVal.int 1)).setElement (JSVal.int 0) (JSVal.int 0)
          JSVal.nan) := by
  decide

/-- Claim C6 as amended: after `setElement(r, c, v)` with a value `v !== 0` the value is
stored at `(r, c)`; `getElement(r, c)` is `v` when `v` is a number other than `NaN`, and
`0` when `v` is `NaN` or `undefined`; `getElement` at every other coordinate is what it
was, and the dimensions are unchanged; a newly constructed matrix reads `0`
everywhere. -/
theorem C6_setElement_then_getElement (m : SparseMatrix) (r c v : JSVal)
    (hv : JSVal.strictNe v (JSVal.int 0) = true) :
    (m.setElement r c v).stored r c = some v ∧
    (∀ i : Int, v = JSVal.int i → (m.setElement r c v).getElement r c = i) ∧
    (v = JSVal.nan ∨ v = JSVal.undef → (m.setElement r c v).getElement r c = 0) ∧
    (∀ r' c' : JSVal, (r', c') ≠ (r, c) →
      (m.setElement r c v).getElement r' c' = m.getElement r' c') ∧
    (m.setElement r c v).numRows = m.numRows ∧
    (m.setElement r c v).numCols = m.numCols ∧
    (∀ R C r' c' : JSVal, (new R C).getElement r' c' = 0) := by
  have hne : v ≠ JSVal.int 0 := by
    intro h0
    rw [h0] at hv
    revert hv
    decide
  have hget : (m.setElement r c v).getElement r c = JSVal.orZero (some v) := by
    rw [getElement_setElement]
    simp [hne]
  refine ⟨?_, ?_, ?_, ?_, numRows_setElement _ _ _ _, numCols_setElement _ _ _ _,
    getElement_new⟩
  · rw [stored_setElement]
    simp [hne]
  · intro i hi
    rw [hget, hi]
    rfl
  · intro h
    rw [hget]
    rcases h with h | h <;> rw [h] <;> rfl
  · intro r' c' hrc
    rw [getElement_setElement]
    have : ¬ (r' = r ∧ c' = c) := fun h => hrc (by rw [h.1, h.2])
    simp only [ite_eq_right_iff]
    intro h
    exact absurd ⟨h.1, h.2.1⟩ this

/-- Overwriting `(0, 0)` of a matrix that holds `(0, 0, 1)` and `(1, 1, 4)` with `7`:
`(0, 0)` reads `7` and `(1, 1)` still reads `4`. -/
theorem C6_setElement_then_getElement_witness :
    JSVal.strictNe (JSVal.int 7) (JSVal.int 0) = true ∧
    ((build 2 2 [(0, 0, 1), (1, 1, 4)]).setElement (JSVal.int 0) (JSVal.int 0)
      (JSVal.int 7)).getElement (JSVal.int 0) (JSVal.int 0) = 7 ∧
    ((build 2 2 [(0, 0, 1), (1, 1, 4)]).setElement (JSVal.int 0) (JSVal.int 0)
      (JSVal.int 7)).getElement (JSVal.int 1) (JSVal.int 1)
      = (build 2 2 [(0, 0, 1), (1, 1, 4)]).getElement (JSVal.int 1) (JSVal.int 1) :=
  have h := C6_setElement_then_getElement (build 2 2 [(0, 0, 1), (1, 1, 4)]) (JSVal.int 0)
    (JSVal.int 0) (JSVal.int 7) (by decide)
  ⟨by decide, h.2.1 7 rfl, h.2.2.2.1 (JSVal.int 1) (JSVal.int 1) (by decide)⟩

/-- Claim C7: the storage invariant (no stored entry has the value `0`) holds for the
matrix the constructor makes, is preserved by `setElement` for every coordinate and
value, and holds for the result of `add`, `subtract` and `multiply` on all operands. -/
theorem C7_no_stored_zero (m A B : SparseMatrix) (r c v : JSVal) (hm : NoZero m) :
    (∀ R C : JSVal, NoZero (new R C)) ∧
    NoZero (m.setElement r c v) ∧
    NoZero (A.add B) ∧ NoZero (A.subtract B) ∧
    (∀ R, multiply A B = Except.ok R → NoZero R) := by
  have hfill : ∀ (f : JSVal → JSVal → Int) (rows cols : List JSVal) (R C : JSVal),
      NoZero (fillWith f rows cols (new R C)) := by
    intro f rows cols R C x hx
    rcases mem_entries_fillWith f rows cols _ x hx with h | ⟨_, _, h3, h4⟩
    · simp [entries, new] at h
    · rw [h3]
      intro h0
      injection h0 with h0
      exact h4 h0
  refine ⟨?_, ?_, ?_, ?_, ?_⟩
  · intro R C x hx
    simp [entries, new] at hx
  · intro x hx
    rcases mem_entries_setElement m r c v x hx with ⟨h1, h2⟩ | h
    · rw [h1]
      exact h2
    · exact hm x h
  · unfold add
    rw [operate_eq_fillWith]
    exact hfill _ _ _ _ _
  · unfold subtract
    rw [operate_eq_fillWith]
    exact hfill _ _ _ _ _
  · intro R hR
    by_cases h : JSVal.strictNe A.numCols B.numRows = true
    · simp [multiply, h] at hR
    · have h' : JSVal.strictNe A.numCols B.numRows = false := by simpa using h
      rw [multiply_eq_fillWith A B h'] at hR
      injection hR with hR
      rw [← hR]
      exact hfill _ _ _ _ _

/-- A zero write, a zero sum, a zero difference and a zero dot product.  With
`A = (0,0,1),(0,1,1)` and `B = (0,0,-1),(0,1,1),(1,0,1)`, both 2 x 2: `A + B` is zero at
`(0, 0)`, `A - B` is zero at `(0, 1)`, and the dot product of row `0` of `A` with column
`0` of `B` is zero; none of the results stores a zero. -/
theorem C7_no_stored_zero_witness :
    NoZero (build 1 1 [(0, 0, 1)]) ∧
    NoZero ((build 1 1 [(0, 0, 1)]).setElement (JSVal.int 0) (JSVal.int 0) (JSVal.int 0)) ∧
    NoZero ((build 2 2 [(0, 0, 1), (0, 1, 1)]).add (build 2 2 [(0, 0, -1), (0, 1, 1), (1, 0, 1)])) ∧
    NoZero ((build 2 2 [(0, 0, 1), (0, 1, 1)]).subtract
      (build 2 2 [(0, 0, -1), (0, 1, 1), (1, 0, 1)])) ∧
    multiply (build 2 2 [(0, 0, 1), (0, 1, 1)]) (build 2 2 [(0, 0, -1), (0, 1, 1), (1, 0, 1)])
      = Except.ok (build 2 2 [(0, 1, 1)]) ∧
    NoZero (build 2 2 [(0, 1, 1)]) :=
  have h := C7_no_stored_zero (build 1 1 [(0, 0, 1)]) (build 2 2 [(0, 0, 1), (0, 1, 1)])
    (build 2 2 [(0, 0, -1), (0, 1, 1), (1, 0, 1)]) (JSVal.int 0) (JSVal.int 0) (JSVal.int 0)
    (by decide)
  ⟨by decide, h.2.1, h.2.2.1, h.2.2.2.1, by decide, h.2.2.2.2 _ (by decide)⟩

/-- Claim C8 fails as stated: `setElement` checks no bound, so the constructor with
dimensions 1 x 1 followed by `setElement(5, 5, 1)` stores the coordinate `(5, 5)`,
which lies outside the declared dimensions. -/
theorem C8_setElement_stores_out_of_range :
    ¬ InBounds ((new (JSVal.int 1) (JSVal.int 1)).setElement (JSVal.int 5) (JSVal.int 5)
      (JSVal.int 1)) := by
  decide

/-- Claim C8 as amended: a matrix produced by the constructor, by `setElement` calls
whose coordinates lie inside the declared dimensions, and by `add`, `subtract` and
`multiply` on matrices so produced, has every stored coordinate inside its
dimensions. -/
theorem C8_in_bounds_of_produced (m : SparseMatrix) (h : Produced m) : InBounds m := by
  induction h with
  | new R C =>
    intro x hx
    simp [entries, new] at hx
  | setElement m r c v _ hr hc ih =>
    intro x hx
    rw [numRows_setElement, numCols_setElement]
    rcases mem_entries_setElement m r c v x hx with ⟨h1, _⟩ | h1
    · rw [h1]
      exact ⟨hr, hc⟩
    · exact ih x h1
  | add A B _ _ _ _ =>
    intro x hx
    unfold add at hx ⊢
    rw [operate_eq_fillWith] at hx ⊢
    rw [numRows_fillWith, numCols_fillWith]
    rcases mem_entries_fillWith _ _ _ _ x hx with h1 | ⟨h1, h2, _, _⟩
    · simp [entries, new] at h1
    · exact ⟨(inRange_iff_mem_loopRange _ _).2 h1, (inRange_iff_mem_loopRange _ _).2 h2⟩
  | subtract A B _ _ _ _ =>
    intro x hx
    unfold subtract at hx ⊢
    rw [operate_eq_fillWith] at hx ⊢
    rw [numRows_fillWith, numCols_fillWith]
    rcases mem_entries_fillWith _ _ _ _ x hx with h1 | ⟨h1, h2, _, _⟩
    · simp [entries, new] at h1
    · exact ⟨(inRange_iff_mem_loopRange _ _).2 h1, (inRange_iff_mem_loopRange _ _).2 h2⟩
  | multiply A B R _ _ hR ihA ihB =>
    intro x hx
    by_cases h : JSVal.strictNe A.numCols B.numRows = true
    · simp [SparseMatrix.multiply, h] at hR
    · have h' : JSVal.strictNe A.numCols B.numRows = false := by simpa using h
      rw [multiply_eq_fillWith A B h'] at hR
      injection hR with hR
      subst hR
      rw [numRows_fillWith, numCols_fillWith]
      rcases mem_entries_fillWith _ _ _ _ x hx with h1 | ⟨_, _, _, h4⟩
      · simp [entries, new] at h1
      · obtain ⟨k, hA, hB⟩ := term_of_dotRow_ne_zero A B x.1 x.2.1 h4
        obtain ⟨va, hva⟩ := entry_of_getElement_ne_zero A x.1 k hA
        obtain ⟨vb, hvb⟩ := entry_of_getElement_ne_zero B k x.2.1 hB
        exact ⟨(ihA _ hva).1, (ihB _ hvb).2⟩

/-- A 1 x 2 matrix built by the constructor and the in-range call `setElement(0, 1, 3)`
is produced by the public API, and its entry lies inside 1 x 2. -/
theorem C8_in_bounds_of_produced_witness :
    Produced ((new (JSVal.int 1) (JSVal.int 2)).setElement (JSVal.int 0) (JSVal.int 1)
      (JSVal.int 3)) ∧
    InBounds ((new (JSVal.int 1) (JSVal.int 2)).setElement (JSVal.int 0) (JSVal.int 1)
      (JSVal.int 3)) :=
  have hp : Produced ((new (JSVal.int 1) (JSVal.int 2)).setElement (JSVal.int 0) (JSVal.int 1)
      (JSVal.int 3)) :=
    Produced.setElement _ _ _ _ (Produced.new _ _) (by decide) (by decide)
  ⟨hp, C8_in_bounds_of_produced _ hp⟩

/-- Claim C9: a call of `add`, `subtract` or `multiply` on two instances of the store
(`b` may be `a`) leaves every instance that existed before the call, the operands
among them, exactly as it was (dimensions and stored entries), whether the call
returns or throws; a call that returns appends the new result instance, which is the
only one written, and a `multiply` that throws leaves the store unchanged. -/
theorem C9_operands_unchanged (s : Store) (a b : Nat) (ha : a < s.length) (hb : b < s.length) :
    (∀ ref, ref < s.length →
      (s.add a b).1.read ref = s.read ref ∧ (s.subtract a b).1.read ref = s.read ref ∧
      (s.multiply a b).1.read ref = s.read ref) ∧
    s.add a b = (s ++ [(s.read a).add (s.read b)], s.length) ∧
    s.subtract a b = (s ++ [(s.read a).subtract (s.read b)], s.length) ∧
    ((∃ e, multiply (s.read a) (s.read b) = Except.error e ∧
        s.multiply a b = (s, Except.error e)) ∨
      ∃ R, multiply (s.read a) (s.read b) = Except.ok R ∧
        s.multiply a b = (s ++ [R], Except.ok s.length)) := by
  have hadd : s.add a b = (s ++ [(s.read a).add (s.read b)], s.length) :=
    Store.operate_eq s a b ha hb _
  have hsub : s.subtract a b = (s ++ [(s.read a).subtract (s.read b)], s.length) :=
    Store.operate_eq s a b ha hb _
  have hmul := Store.multiply_eq s a b ha hb
  refine ⟨?_, hadd, hsub, ?_⟩
  · intro ref href
    refine ⟨?_, ?_, ?_⟩
    · rw [hadd]
      exact Store.read_append_of_lt s _ ref href
    · rw [hsub]
      exact Store.read_append_of_lt s _ ref href
    · rw [hmul]
      cases multiply (s.read a) (s.read b) with
      | error e => rfl
      | ok R => exact Store.read_append_of_lt s _ ref href
  · cases hm : multiply (s.read a) (s.read b) with
    | error e =>
      rw [hm] at hmul
      exact Or.inl ⟨e, rfl, hmul⟩
    | ok R =>
      rw [hm] at hmul
      exact Or.inr ⟨R, rfl, hmul⟩

/-- A store with one instance used as both operands (`B` is `A` itself): after
`A.add(A)`, after `A.subtract(A)` and after `A.multiply(A)` the instance is what it was. -/
theorem C9_operands_unchanged_witness :
    (0 : Nat) < [build 2 2 [(0, 0, 1), (0, 1, 2), (1, 1, 4)]].length ∧
    (Store.add [build 2 2 [(0, 0, 1), (0, 1, 2), (1, 1, 4)]] 0 0).1.read 0
      = build 2 2 [(0, 0, 1), (0, 1, 2), (1, 1, 4)] ∧
    (Store.subtract [build 2 2 [(0, 0, 1), (0, 1, 2), (1, 1, 4)]] 0 0).1.read 0
      = build 2 2 [(0, 0, 1), (0, 1, 2), (1, 1, 4)] ∧
    (Store.multiply [build 2 2 [(0, 0, 1), (0, 1, 2), (1, 1, 4)]] 0 0).1.read 0
      = build 2 2 [(0, 0, 1), (0, 1, 2), (1, 1, 4)] :=
  have h := (C9_operands_unchanged [build 2 2 [(0, 0, 1), (0, 1, 2), (1, 1, 4)]] 0 0
    (by decide) (by decide)).1 0 (by decide)
  ⟨by decide, h.1, h.2.1, h.2.2⟩

/-- Claim C10 fails as stated: the empty matrix with `numRows = 10^21` and `numCols = 1`
is well formed (it stores no entry), `saveToFile` writes its first header line as
`rows=1e+21`, and `parseInt` reads `1` from it, so the loaded matrix has `numRows = 1`.
The same happens to the 10^21 x 1 matrix that stores `5` at `(0, 0)`. -/
theorem C10_large_dimension_not_read_back :
    IsObjectState (new (JSVal.int 1000000000000000000000) (JSVal.int 1)) ∧
    InBounds (new (JSVal.int 1000000000000000000000) (JSVal.int 1)) ∧
    (∀ e ∈ (new (JSVal.int 1000000000000000000000) (JSVal.int 1)).entries,
      e.2.2.isNonZeroInt = true) ∧
    content (new (JSVal.int 1000000000000000000000) (JSVal.int 1))
      = "rows=1e+21\ncols=1\n".toList ∧
    ofFile (content (new (JSVal.int 1000000000000000000000) (JSVal.int 1)))
      = Except.ok (new (JSVal.int 1) (JSVal.int 1)) ∧
    ofFile (content (new (JSVal.int 1000000000000000000000) (JSVal.int 1)))
      ≠ Except.ok (new (JSVal.int 1000000000000000000000) (JSVal.int 1)) ∧
    InBounds (build 1000000000000000000000 1 [(0, 0, 5)]) ∧
    content (build 1000000000000000000000 1 [(0, 0, 5)])
      = "rows=1e+21\ncols=1\n(0, 0, 5)\n".toList ∧
    ofFile (content (build 1000000000000000000000 1 [(0, 0, 5)]))
      = Except.ok (build 1 1 [(0, 0, 5)]) := by
  decide

/-- Claim C10 as amended: for every well-formed matrix `m` whose dimensions are integers
below `10^21` in absolute value (stored coordinates inside the dimensions, non-zero
integer values; the empty matrix included), loading the text that `saveToFile` builds
for `m` succeeds and yields `m` itself: the same `numRows`, the same `numCols` and the
same stored entries. -/
theorem C10_load_of_save (m : SparseMatrix) (h : WellFormed m) :
    ofFile (content m) = Except.ok m := by
  have hints := entry_ints m h
  obtain ⟨⟨hord, hrows⟩, hRi, hCi, _, hv⟩ := h
  obtain ⟨R, hR, hRtext⟩ := isPlainInt_int hRi
  obtain ⟨C, hC, hCtext⟩ := isPlainInt_int hCi
  clear hRi hCi
  rw [hR] at hRtext
  rw [hC] at hCtext
  have hnl : ∀ e ∈ m.entries, Char.ofNat 10 ∉ lineOf e := by
    intro e he hc
    obtain ⟨r, c, v, rfl⟩ := hints e he
    have h1 := toNat_of_mem_lineOf r c v _ hc
    revert h1
    decide
  have hhead : ∀ (name : Str) (i : Int), Char.ofNat 10 ∉ name →
      Char.ofNat 10 ∉ name ++ JSString.ofInt i := by
    intro name i hname hc
    rcases List.mem_append.1 hc with hc | hc
    · exact hname hc
    · have h1 := (JSString.ofInt_chars i).2 _ hc
      revert h1
      decide
  have hp0 : parseHeader ("rows=".toList ++ JSString.ofInt R) = JSVal.int R :=
    parseHeader_ofInt "rows".toList (by decide) R
  have hp1 : parseHeader ("cols=".toList ++ JSString.ofInt C) = JSVal.int C :=
    parseHeader_ofInt "cols".toList (by decide) C
  have hparse : ∀ (a : SparseMatrix), ∀ e ∈ m.entries,
      a.setElement (parseEntry (lineOf e)).1 (parseEntry (lineOf e)).2.1
        (parseEntry (lineOf e)).2.2 = store a e := by
    intro a e he
    obtain ⟨r, c, v, rfl⟩ := hints e he
    rw [parseEntry_lineOf]
    rfl
  have hrows' : ∀ row ∈ m.matrix,
      row.2 ≠ [] ∧ JSObj.Ordered row.2 ∧ ∀ e ∈ row.2, e.2 ≠ JSVal.int 0 := by
    intro row hrow
    refine ⟨(hrows row hrow).1, (hrows row hrow).2, ?_⟩
    intro e he
    have hmem : (row.1, e.1, e.2) ∈ m.entries := (mem_entries m row.1 e.1 e.2).2 ⟨row.2, hrow, he⟩
    exact (isNonZeroInt_int (hv _ hmem)).choose_spec.2
  unfold ofFile loadMatrix
  rw [content_eq, hR, hC, trim_content, hRtext, hCtext,
    JSString.split_append_sep _ _ _ (hhead "rows=".toList R (by decide)),
    split_lines _ _ (hhead "cols=".toList C (by decide)) hnl]
  simp only [hp0, hp1]
  congr 1
  rw [List.foldl_map, List.foldl_ext _ store _ hparse]
  obtain ⟨M, nR, nC⟩ := m
  simp only at hR hC
  subst hR hC
  exact foldl_store_entries M _ _ hord hrows'

/-- A 2 x 3 matrix with a negative value, saved and loaded, the empty 0 x 0 matrix,
whose text is the two header lines, and a 1 x 1 matrix that stores `10^21`, written
`1e+21`. -/
theorem C10_load_of_save_witness :
    WellFormed (build 2 3 [(1, 2, -4), (0, 0, 1), (1, 0, 3)]) ∧
    ofFile (content (build 2 3 [(1, 2, -4), (0, 0, 1), (1, 0, 3)]))
      = Except.ok (build 2 3 [(1, 2, -4), (0, 0, 1), (1, 0, 3)]) ∧
    ofFile (content (new (JSVal.int 0) (JSVal.int 0))) = Except.ok (new (JSVal.int 0) (JSVal.int 0)) ∧
    content (build 1 1 [(0, 0, 1000000000000000000000)]) = "rows=1\ncols=1\n(0, 0, 1e+21)\n".toList ∧
    ofFile (content (build 1 1 [(0, 0, 1000000000000000000000)]))
      = Except.ok (build 1 1 [(0, 0, 1000000000000000000000)]) :=
  ⟨by decide, C10_load_of_save _ (by decide), C10_load_of_save _ (by decide), by decide,
    C10_load_of_save _ (by decide)⟩

/-- Claim C12: for every matrix `m`, `m.subtract(m)` is the zero matrix of the
dimensions of `m`: it has `numRows` and `numCols` of `m`, stores no entry, and reads
`0` at every coordinate. -/
theorem C12_subtract_self (m : SparseMatrix) :
    m.subtract m = new m.numRows m.numCols ∧
    (m.subtract m).numRows = m.numRows ∧ (m.subtract m).numCols = m.numCols ∧
    (m.subtract m).entries = [] ∧
    (∀ r c : JSVal, (m.subtract m).getElement r c = 0) := by
  have h : m.subtract m = new m.numRows m.numCols := by
    unfold subtract
    rw [operate_eq_fillWith]
    exact fillWith_of_zero _ (fun r c => sub_self _) _ _ _
  rw [h]
  exact ⟨rfl, rfl, rfl, rfl, getElement_new _ _⟩

/-- Claim C13: with `A` holding `(0,0,1),(0,1,2),(1,0,3),(1,1,4)` and `B` holding
`(0,0,1),(1,1,1)`, both 2 x 2, `A.multiply(B)` returns a 2 x 2 matrix whose stored
entries are `(0,0,1),(0,1,2),(1,0,3),(1,1,4)`: it equals `A`. -/
theorem C13_multiply_scenario :
    multiply (build 2 2 [(0, 0, 1), (0, 1, 2), (1, 0, 3), (1, 1, 4)])
        (build 2 2 [(0, 0, 1), (1, 1, 1)])
      = Except.ok (build 2 2 [(0, 0, 1), (0, 1, 2), (1, 0, 3), (1, 1, 4)]) ∧
    (build 2 2 [(0, 0, 1), (0, 1, 2), (1, 0, 3), (1, 1, 4)]).numRows = JSVal.int 2 ∧
    (build 2 2 [(0, 0, 1), (0, 1, 2), (1, 0, 3), (1, 1, 4)]).numCols = JSVal.int 2 ∧
    (build 2 2 [(0, 0, 1), (0, 1, 2), (1, 0, 3), (1, 1, 4)]).entries
      = [(JSVal.int 0, JSVal.int 0, JSVal.int 1), (JSVal.int 0, JSVal.int 1, JSVal.int 2),
         (JSVal.int 1, JSVal.int 0, JSVal.int 3), (JSVal.int 1, JSVal.int 1, JSVal.int 4)] := by
  decide

/-- Claim C17: when `multiply` does not throw, its result stores an entry only at a
coordinate `(r, c)` where `r` is a row of `A` that holds a stored entry and `c` is a key
of the row map of `B`; at every `(r, c)` with `r` a row key of `A` and `c` a row key of
`B` it reads the sum `dotRow` over the columns stored in row `r` of `A`, and at every
other coordinate it reads `0`, whatever `B` stores in column `c`.  (In every state the
class reaches the row keys are the rows that hold a stored entry.) -/
theorem C17_multiply_walks_row_keys (A B : SparseMatrix)
    (h : JSVal.strictNe A.numCols B.numRows = false) :
    ∃ R, multiply A B = Except.ok R ∧
      (∀ e ∈ R.entries, (∃ k v, (e.1, k, v) ∈ A.entries) ∧ e.2.1 ∈ JSObj.keys B.matrix) ∧
      (∀ r c, r ∈ JSObj.keys A.matrix → c ∈ JSObj.keys B.matrix →
        R.getElement r c = dotRow A B r c ∧
        R.getElement r c = ((JSObj.keys ((JSObj.get r A.matrix).getD [])).map
          fun k => A.getElement r k * B.getElement k c).sum) ∧
      (∀ r c, ¬ (r ∈ JSObj.keys A.matrix ∧ c ∈ JSObj.keys B.matrix) → R.getElement r c = 0) ∧
      (IsObjectState A → ∀ r, r ∈ JSObj.keys A.matrix ↔ ∃ k v, (r, k, v) ∈ A.entries) ∧
      (IsObjectState B → ∀ c, c ∈ JSObj.keys B.matrix ↔ ∃ k v, (c, k, v) ∈ B.entries) := by
  refine ⟨_, multiply_eq_fillWith A B h, ?_, ?_, ?_, mem_keys_iff_row_entry A,
    mem_keys_iff_row_entry B⟩
  · intro e he
    rcases mem_entries_fillWith _ _ _ _ e he with h1 | ⟨_, h2, _, h4⟩
    · simp [entries, new] at h1
    · obtain ⟨k, hk, _⟩ := term_of_dotRow_ne_zero A B e.1 e.2.1 h4
      obtain ⟨v, hv⟩ := entry_of_getElement_ne_zero A e.1 k hk
      exact ⟨⟨k, v, hv⟩, h2⟩
  · intro r c hr hc
    have hd : (fillWith (dotRow A B) (JSObj.keys A.matrix) (JSObj.keys B.matrix)
        (new A.numRows B.numCols)).getElement r c = dotRow A B r c := by
      rw [getElement_fillWith, getElement_new]
      by_cases hz : dotRow A B r c = 0
      · simp [hz]
      · simp [hr, hc, hz]
    exact ⟨hd, hd.trans (dotRow_eq_sum A B r c)⟩
  · intro r c hn
    rw [getElement_fillWith, getElement_new]
    have : ¬ (r ∈ JSObj.keys A.matrix ∧ c ∈ JSObj.keys B.matrix ∧ dotRow A B r c ≠ 0) :=
      fun h3 => hn ⟨h3.1, h3.2.1⟩
    simp [this]

/-- The matrices of the counterexample to the product: `A` is 1 x 2 with `(0, 0, 1)`,
`B` is 2 x 2 with `(0, 1, 1)`.  Column `1` of `B` holds a stored entry but `1` is not a
row key of `B`, and the result reads `0` at `(0, 1)`; at `(0, 0)`, a row key of each, it
reads the sum, which is `0`. -/
theorem C17_multiply_walks_row_keys_witness :
    JSVal.strictNe (build 1 2 [(0, 0, 1)]).numCols (build 2 2 [(0, 1, 1)]).numRows = false ∧
    (JSVal.int 0, JSVal.int 1, JSVal.int 1) ∈ (build 2 2 [(0, 1, 1)]).entries ∧
    JSVal.int 1 ∉ JSObj.keys (build 2 2 [(0, 1, 1)]).matrix ∧
    ∃ R, multiply (build 1 2 [(0, 0, 1)]) (build 2 2 [(0, 1, 1)]) = Except.ok R ∧
      R.getElement (JSVal.int 0) (JSVal.int 1) = 0 ∧
      R.getElement (JSVal.int 0) (JSVal.int 0)
        = dotRow (build 1 2 [(0, 0, 1)]) (build 2 2 [(0, 1, 1)]) (JSVal.int 0) (JSVal.int 0) :=
  have h := C17_multiply_walks_row_keys (build 1 2 [(0, 0, 1)]) (build 2 2 [(0, 1, 1)])
    (by decide)
  ⟨by decide, by decide, by decide,
    h.choose, h.choose_spec.1,
    h.choose_spec.2.2.2.1 (JSVal.int 0) (JSVal.int 1) (by decide),
    (h.choose_spec.2.2.1 (JSVal.int 0) (JSVal.int 0) (by decide) (by decide)).1⟩

/-- Claim C18: for operands that keep their coordinates inside their dimensions and
for which `multiply` does not throw, every stored coordinate of the product lies inside
`A.numRows x B.numCols`; a candidate column drawn from the row keys of `B` that lies
outside `B.numCols` gives a zero sum and is not stored.  Every stored coordinate of
`add` and of `subtract` lies inside `A.numRows x A.numCols`, for all operands. -/
theorem C18_results_in_bounds (A B : SparseMatrix) (hA : InBounds A) (hB : InBounds B)
    (h : JSVal.strictNe A.numCols B.numRows = false) :
    (∃ R, multiply A B = Except.ok R ∧ R.numRows = A.numRows ∧ R.numCols = B.numCols ∧
      InBounds R ∧
      ∀ r c, JSVal.inRange c B.numCols = false →
        dotRow A B r c = 0 ∧ ∀ v, (r, c, v) ∉ R.entries) ∧
    (∀ X Y : SparseMatrix, InBounds (X.add Y) ∧ (X.add Y).numRows = X.numRows ∧
      (X.add Y).numCols = X.numCols) ∧
    (∀ X Y : SparseMatrix, InBounds (X.subtract Y) ∧ (X.subtract Y).numRows = X.numRows ∧
      (X.subtract Y).numCols = X.numCols) := by
  have hdims : ∀ (X Y : SparseMatrix) (op : Int → Int → Int),
      (operate X Y op).numRows = X.numRows ∧ (operate X Y op).numCols = X.numCols := by
    intro X Y op
    rw [operate_eq_fillWith, numRows_fillWith, numCols_fillWith]
    exact ⟨rfl, rfl⟩
  refine ⟨⟨_, multiply_eq_fillWith A B h, ?_, ?_, inBounds_fillWith_dotRow A B hA hB, ?_⟩,
    fun X Y => ⟨inBounds_operate X Y _, hdims X Y _⟩,
    fun X Y => ⟨inBounds_operate X Y _, hdims X Y _⟩⟩
  · rw [numRows_fillWith]; rfl
  · rw [numCols_fillWith]; rfl
  · intro r c hc
    refine ⟨dotRow_eq_zero_of_not_inRange A B hB r c hc, ?_⟩
    intro v hv
    have hin := (inBounds_fillWith_dotRow A B hA hB _ hv).2
    rw [numCols_fillWith] at hin
    simp only [new] at hin
    rw [hc] at hin
    exact absurd hin (by decide)

/-- A 1 x 3 matrix times a 3 x 1 matrix: the row keys `0, 1, 2` of `B` are the candidate
columns, `1` and `2` lie outside `B.numCols = 1`, and the product stores `(0, 0)` only. -/
theorem C18_results_in_bounds_witness :
    InBounds (build 1 3 [(0, 0, 1), (0, 1, 2), (0, 2, 3)]) ∧
    InBounds (build 3 1 [(0, 0, 1), (1, 0, 1), (2, 0, 1)]) ∧
    JSObj.keys (build 3 1 [(0, 0, 1), (1, 0, 1), (2, 0, 1)]).matrix
      = [JSVal.int 0, JSVal.int 1, JSVal.int 2] ∧
    multiply (build 1 3 [(0, 0, 1), (0, 1, 2), (0, 2, 3)])
        (build 3 1 [(0, 0, 1), (1, 0, 1), (2, 0, 1)]) = Except.ok (build 1 1 [(0, 0, 6)]) ∧
    ∃ R, multiply (build 1 3 [(0, 0, 1), (0, 1, 2), (0, 2, 3)])
        (build 3 1 [(0, 0, 1), (1, 0, 1), (2, 0, 1)]) = Except.ok R ∧ InBounds R :=
  have h := (C18_results_in_bounds (build 1 3 [(0, 0, 1), (0, 1, 2), (0, 2, 3)])
    (build 3 1 [(0, 0, 1), (1, 0, 1), (2, 0, 1)]) (by decide) (by decide) (by decide)).1
  ⟨by decide, by decide, by decide, by decide, h.choose, h.choose_spec.1, h.choose_spec.2.2.2.1⟩

/-- Claim C20: `saveToFile` throws `File path cannot be empty.` when the path is
missing, empty or made of white space only, and renders nothing then; for a path with a
character that is not white space the check passes and the rendered text is handed over.
The method has no write to the instance: it is a function of `m` that returns the
error or the text. -/
theorem C20_saveToFile_path_check (m : SparseMatrix) (p : Str) :
    saveToFile m none = Except.error "File path cannot be empty." ∧
    saveToFile m (some []) = Except.error "File path cannot be empty." ∧
    ((∀ c ∈ p, JSString.isWhiteSpace c = true) →
      saveToFile m (some p) = Except.error "File path cannot be empty.") ∧
    ((∃ c ∈ p, JSString.isWhiteSpace c = false) →
      saveToFile m (some p) = Except.ok (content m)) := by
  refine ⟨rfl, ?_, ?_, ?_⟩
  · simp [saveToFile]
  · intro hws
    simp [saveToFile, (JSString.trim_eq_nil_iff p).2 hws]
  · rintro ⟨c, hc, hcw⟩
    have h1 : ¬ JSString.trim p = [] := by
      intro h0
      have := (JSString.trim_eq_nil_iff p).1 h0 c hc
      rw [hcw] at this
      exact absurd this (by decide)
    have h2 : ¬ p = [] := by
      intro h0
      rw [h0] at hc
      exact absurd hc (List.not_mem_nil _)
    simp [saveToFile, h1, h2]

/-- A path of a space and a tab is refused; the path ` out.txt ` passes the check. -/
theorem C20_saveToFile_path_check_witness :
    (∀ c ∈ " \t".toList, JSString.isWhiteSpace c = true) ∧
    saveToFile (build 1 1 [(0, 0, 5)]) (some " \t".toList)
      = Except.error "File path cannot be empty." ∧
    (∃ c ∈ " out.txt ".toList, JSString.isWhiteSpace c = false) ∧
    saveToFile (build 1 1 [(0, 0, 5)]) (some " out.txt ".toList)
      = Except.ok "rows=1\ncols=1\n(0, 0, 5)\n".toList :=
  have hw : ∀ c ∈ " \t".toList, JSString.isWhiteSpace c = true := by decide
  have hn : ∃ c ∈ " out.txt ".toList, JSString.isWhiteSpace c = false := ⟨'o', by decide, by decide⟩
  ⟨hw, (C20_saveToFile_path_check (build 1 1 [(0, 0, 5)]) " \t".toList).2.2.1 hw, hn,
    (C20_saveToFile_path_check (build 1 1 [(0, 0, 5)]) " out.txt ".toList).2.2.2 hn⟩

/-- Claim C11 fails as stated: loading the text `rows=2`, `cols=2`, `(0,0)` gives a
matrix that stores `undefined` at `(0, 0)`, inside its dimensions; `add` reads that
entry as `0` and does not copy it, so adding the 2 x 2 zero matrix gives a matrix with
no entry. -/
theorem C11_add_drops_stored_undefined :
    ofFile "rows=2\ncols=2\n(0,0)".toList
      = Except.ok { matrix := [(JSVal.int 0, [(JSVal.int 0, JSVal.undef)])],
                    numRows := JSVal.int 2, numCols := JSVal.int 2 } ∧
    IsObjectState { matrix := [(JSVal.int 0, [(JSVal.int 0, JSVal.undef)])],
                    numRows := JSVal.int 2, numCols := JSVal.int 2 } ∧
    InBounds { matrix := [(JSVal.int 0, [(JSVal.int 0, JSVal.undef)])],
               numRows := JSVal.int 2, numCols := JSVal.int 2 } ∧
    entries { matrix := [(JSVal.int 0, [(JSVal.int 0, JSVal.undef)])],
              numRows := JSVal.int 2, numCols := JSVal.int 2 }
      = [(JSVal.int 0, JSVal.int 0, JSVal.undef)] ∧
    add { matrix := [(JSVal.int 0, [(JSVal.int 0, JSVal.undef)])],
          numRows := JSVal.int 2, numCols := JSVal.int 2 } (new (JSVal.int 2) (JSVal.int 2))
      = new (JSVal.int 2) (JSVal.int 2) ∧
    (add { matrix := [(JSVal.int 0, [(JSVal.int 0, JSVal.undef)])],
           numRows := JSVal.int 2, numCols := JSVal.int 2 }
      (new (JSVal.int 2) (JSVal.int 2))).entries = [] := by
  decide

/-- Claim C11 as amended: for every matrix `m` whose stored coordinates lie inside its
dimensions and whose stored values are non-zero integers (not `NaN` or `undefined`),
adding the zero matrix of the same dimensions gives `m` back: the same `numRows` and
`numCols`, the same value stored at every coordinate, and so the same stored entries. -/
theorem C11_add_zero_matrix (m : SparseMatrix) (hs : IsObjectState m) (hb : InBounds m)
    (hv : ∀ e ∈ m.entries, e.2.2.isNonZeroInt = true) :
    (m.add (new m.numRows m.numCols)).numRows = m.numRows ∧
    (m.add (new m.numRows m.numCols)).numCols = m.numCols ∧
    (∀ r c, (m.add (new m.numRows m.numCols)).stored r c = m.stored r c) ∧
    (m.add (new m.numRows m.numCols)).entries.Perm m.entries := by
  have hst : ∀ r c, (m.add (new m.numRows m.numCols)).stored r c = m.stored r c := by
    intro r c
    unfold add
    rw [operate_eq_fillWith, stored_fillWith, stored_new, getElement_new, add_zero,
      getElement_eq_orZero_stored]
    cases hsr : m.stored r c with
    | none => simp [JSVal.orZero]
    | some v =>
      have hmem := mem_entries_of_stored m r c v hsr
      obtain ⟨i, hi, hne⟩ := isNonZeroInt_int (hv _ hmem)
      have hi0 : i ≠ 0 := by
        intro h0
        apply hne
        rw [hi, h0]
      have hr := (inRange_iff_mem_loopRange _ _).1 (hb _ hmem).1
      have hc := (inRange_iff_mem_loopRange _ _).1 (hb _ hmem).2
      simp only at hi hr hc
      subst hi
      simp [JSVal.orZero, hr, hc, hi0]
  have hso : IsObjectState (m.add (new m.numRows m.numCols)) := by
    unfold add
    rw [operate_eq_fillWith]
    exact isObjectState_fillWith _ _ _ _ (isObjectState_new _ _)
  refine ⟨?_, ?_, hst, entries_perm_of_stored_eq _ _ hso hs hst⟩
  · unfold add
    rw [operate_eq_fillWith, numRows_fillWith]
    rfl
  · unfold add
    rw [operate_eq_fillWith, numCols_fillWith]
    rfl

/-- A 2 x 3 matrix with three entries, one negative: adding the 2 x 3 zero matrix
returns it. -/
theorem C11_add_zero_matrix_witness :
    IsObjectState (build 2 3 [(1, 2, -4), (0, 0, 1), (1, 0, 3)]) ∧
    InBounds (build 2 3 [(1, 2, -4), (0, 0, 1), (1, 0, 3)]) ∧
    (build 2 3 [(1, 2, -4), (0, 0, 1), (1, 0, 3)]).add (new (JSVal.int 2) (JSVal.int 3))
      = build 2 3 [(1, 2, -4), (0, 0, 1), (1, 0, 3)] ∧
    ((build 2 3 [(1, 2, -4), (0, 0, 1), (1, 0, 3)]).add
      (new (build 2 3 [(1, 2, -4), (0, 0, 1), (1, 0, 3)]).numRows
        (build 2 3 [(1, 2, -4), (0, 0, 1), (1, 0, 3)]).numCols)).entries.Perm
      (build 2 3 [(1, 2, -4), (0, 0, 1), (1, 0, 3)]).entries :=
  ⟨by decide, by decide, by decide,
    (C11_add_zero_matrix (build 2 3 [(1, 2, -4), (0, 0, 1), (1, 0, 3)]) (by decide) (by decide)
      (by decide)).2.2.2⟩

/-- Claim C16 fails as stated: the order is not ascending for every non-negative integer
coordinate.  Rows `4294967296` and `4294967295` (not array indices) of a matrix with
`5000000000` rows, written in this order, are enumerated and rendered in this order. -/
theorem C16_large_keys_keep_insertion_order :
    InBounds (build 5000000000 1 [(4294967296, 0, 1), (4294967295, 0, 1)]) ∧
    (build 5000000000 1 [(4294967296, 0, 1), (4294967295, 0, 1)]).entries
      = [(JSVal.int 4294967296, JSVal.int 0, JSVal.int 1),
         (JSVal.int 4294967295, JSVal.int 0, JSVal.int 1)] ∧
    content (build 5000000000 1 [(4294967296, 0, 1), (4294967295, 0, 1)])
      = "rows=5000000000\ncols=1\n(4294967296, 0, 1)\n(4294967295, 0, 1)\n".toList := by
  decide

/-- Claim C16 as amended: for every matrix in a state the class reaches (no stored
zero), the text `saveToFile` builds is the two header lines followed by one line
`(row, col, value)` per stored entry and nothing else; no coordinate appears twice; the
lines come in the enumeration order of the keys, which for coordinates that are array
indices (`0 .. 2^32 - 2`) is ascending row, then ascending column; no line has the
value `0`. -/
theorem C16_render_shape (m : SparseMatrix) (hs : IsObjectState m) (hz : NoZero m) :
    content m =
      "rows=".toList ++ JSString.ofVal m.numRows ++ [Char.ofNat 10] ++
      "cols=".toList ++ JSString.ofVal m.numCols ++ [Char.ofNat 10] ++
      (m.entries.flatMap fun e => lineOf e ++ [Char.ofNat 10]) ∧
    (m.entries.map fun e => (e.1, e.2.1)).Nodup ∧
    List.Pairwise
      (fun a b => ∀ r1 c1 r2 c2 : Int,
        a.1 = JSVal.int r1 → a.2.1 = JSVal.int c1 → b.1 = JSVal.int r2 → b.2.1 = JSVal.int c2 →
        JSVal.isArrayIndex b.1 = true → JSVal.isArrayIndex b.2.1 = true →
        r1 < r2 ∨ (r1 = r2 ∧ c1 < c2))
      m.entries ∧
    (∀ e ∈ m.entries, JSString.ofVal e.2.2 ≠ ['0']) := by
  refine ⟨content_eq_lines m, nodup_coords m hs, ?_, fun e he => ofVal_ne_zero_text _ (hz e he)⟩
  obtain ⟨M, R, C⟩ := m
  refine (pairwise_entryBefore M R C hs).imp ?_
  intro a b hab r1 c1 r2 c2 ha1 ha2 hb1 hb2 hi1 hi2
  rcases hab with h | ⟨h1, h2⟩
  · rw [ha1, hb1] at h
    rw [hb1] at hi1
    exact Or.inl (lt_of_keyBefore_index r1 r2 h hi1)
  · rw [ha2, hb2] at h2
    rw [hb2] at hi2
    rw [ha1, hb1] at h1
    injection h1 with h1
    exact Or.inr ⟨h1, lt_of_keyBefore_index c1 c2 h2 hi2⟩

/-- Three entries written out of order into a 3 x 3 matrix are rendered by ascending
row, then ascending column. -/
theorem C16_render_shape_witness :
    IsObjectState (build 3 3 [(2, 1, 5), (0, 2, -1), (0, 0, 7)]) ∧
    NoZero (build 3 3 [(2, 1, 5), (0, 2, -1), (0, 0, 7)]) ∧
    content (build 3 3 [(2, 1, 5), (0, 2, -1), (0, 0, 7)])
      = "rows=3\ncols=3\n(0, 0, 7)\n(0, 2, -1)\n(2, 1, 5)\n".toList ∧
    ((build 3 3 [(2, 1, 5), (0, 2, -1), (0, 0, 7)]).entries.map fun e => (e.1, e.2.1)).Nodup :=
  ⟨by decide, by decide, by decide,
    (C16_render_shape (build 3 3 [(2, 1, 5), (0, 2, -1), (0, 0, 7)]) (by decide) (by decide)).2.1⟩

/-- Claim C14 fails as stated: nothing in `loadMatrix` or `parseEntry` checks a header
value or an entry line.  The header `rows=abc` is loaded with `numRows = NaN`, and the
entry line `(0,0)` is loaded with `undefined` stored at `(0, 0)`; both loads return a
matrix. -/
theorem C14_malformed_text_is_loaded :
    ofFile "rows=abc\ncols=2\n(0, 0, 1)".toList
      = Except.ok { matrix := [(JSVal.int 0, [(JSVal.int 0, JSVal.int 1)])],
                    numRows := JSVal.nan, numCols := JSVal.int 2 } ∧
    ofFile "rows=2\ncols=2\n(0,0)".toList
      = Except.ok { matrix := [(JSVal.int 0, [(JSVal.int 0, JSVal.undef)])],
                    numRows := JSVal.int 2, numCols := JSVal.int 2 } := by
  decide

/-- Claim C14 as amended: parsing fails with an error, and produces no matrix, exactly
when the trimmed text has fewer than two lines (the second header line is missing);
with two lines or more it returns a matrix, whatever the header values and the entry
lines are. -/
theorem C14_load_fails_iff_header_missing (m : SparseMatrix) (text : Str) :
    ((∃ e, loadMatrix m text = Except.error e) ↔
      (JSString.split (Char.ofNat 10) (JSString.trim text)).length < 2) ∧
    ((∃ R, loadMatrix m text = Except.ok R) ↔
      2 ≤ (JSString.split (Char.ofNat 10) (JSString.trim text)).length) := by
  refine ⟨loadMatrix_error_iff m text, ?_⟩
  have h := loadMatrix_error_iff m text
  cases hl : loadMatrix m text with
  | error e =>
    rw [hl] at h
    have h2 := h.1 ⟨e, rfl⟩
    constructor
    · rintro ⟨R, hR⟩
      exact absurd hR (by simp)
    · intro h3
      omega
  | ok R =>
    rw [hl] at h
    constructor
    · intro _
      by_contra hlt
      obtain ⟨e, he⟩ := h.2 (by omega)
      exact absurd he (by simp)
    · intro _
      exact ⟨R, rfl⟩

/-- Claim C15 fails as stated: with the header `rows=1`, `cols=1`, the entry lines
`(5, 5, 1)` and `(-1, 0, 2)` are stored, outside the dimensions, and parsing returns the
matrix. -/
theorem C15_out_of_range_line_is_stored :
    ofFile "rows=1\ncols=1\n(5, 5, 1)\n(-1, 0, 2)\n".toList
      = Except.ok (build 1 1 [(5, 5, 1), (-1, 0, 2)]) ∧
    (build 1 1 [(5, 5, 1), (-1, 0, 2)]).getElement (JSVal.int 5) (JSVal.int 5) = 1 ∧
    (build 1 1 [(5, 5, 1), (-1, 0, 2)]).getElement (JSVal.int (-1)) (JSVal.int 0) = 2 ∧
    ¬ InBounds (build 1 1 [(5, 5, 1), (-1, 0, 2)]) := by
  decide

/-- Claim C15 as amended: parsing compares no coordinate with the header.  For every
text with a valid header `rows=R`, `cols=C` and entry lines `(row, col, value)` with
integer tokens, parsing succeeds and returns the matrix that one `setElement` call per
line builds; every line with a non-zero value has its coordinate stored, whether
`row < 0`, `col < 0`, `row >= R`, `col >= C` or not. -/
theorem C15_parse_stores_every_line (R C : Int) (es : List (Int × Int × Int)) (tail : Str)
    (ht : ∀ c ∈ tail, JSString.isWhiteSpace c = true) :
    ofFile (fileText R C (es.map fun e => lineOf (JSVal.int e.1, JSVal.int e.2.1, JSVal.int e.2.2))
        ++ tail) = Except.ok (build R C es) ∧
    (∀ e ∈ es, e.2.2 ≠ 0 →
      ((build R C es).stored (JSVal.int e.1) (JSVal.int e.2.1)).isSome = true) := by
  refine ⟨?_, fun e he hv => isSome_stored_build R C es e he hv⟩
  have h := ofFile_fileText R C (es.map fun e => (Padding.plain, e)) tail
    (by
      intro x hx
      obtain ⟨e, _, rfl⟩ := List.mem_map.1 hx
      show Padding.plain.Blank
      decide)
    ht
  simp only [List.map_map] at h
  have h1 : ((fun x : Padding × (Int × Int × Int) => paddedLine x.1 x.2) ∘
      fun e => (Padding.plain, e))
      = fun e => lineOf (JSVal.int e.1, JSVal.int e.2.1, JSVal.int e.2.2) := by
    funext e
    exact paddedLine_plain e
  have h2 : (Prod.snd ∘ fun e : Int × Int × Int => (Padding.plain, e)) = id := rfl
  rw [h1, h2, List.map_id] at h
  exact h

/-- A text with the header 2 x 2 and the lines `(0, 0, 7)` and `(3, -1, 4)`, ended by
a line feed: it is loaded, and the coordinate `(3, -1)` is stored. -/
theorem C15_parse_stores_every_line_witness :
    (∀ c ∈ "\n".toList, JSString.isWhiteSpace c = true) ∧
    fileText 2 2 ([(0, 0, 7), (3, -1, 4)].map
        fun e => lineOf (JSVal.int e.1, JSVal.int e.2.1, JSVal.int e.2.2)) ++ "\n".toList
      = "rows=2\ncols=2\n(0, 0, 7)\n(3, -1, 4)\n".toList ∧
    ofFile (fileText 2 2 ([(0, 0, 7), (3, -1, 4)].map
        fun e => lineOf (JSVal.int e.1, JSVal.int e.2.1, JSVal.int e.2.2)) ++ "\n".toList)
      = Except.ok (build 2 2 [(0, 0, 7), (3, -1, 4)]) ∧
    ((build 2 2 [(0, 0, 7), (3, -1, 4)]).stored (JSVal.int 3) (JSVal.int (-1))).isSome = true :=
  have hw : ∀ c ∈ "\n".toList, JSString.isWhiteSpace c = true := by decide
  have h := C15_parse_stores_every_line 2 2 [(0, 0, 7), (3, -1, 4)] "\n".toList hw
  ⟨hw, by decide, h.1, h.2 (3, -1, 4) (by decide) (by decide)⟩

/-- Claim C19 fails as stated: a blank line between two entry lines is not skipped.
It is parsed as an entry line, `Number` of the empty string is `0` and the two missing
tokens are `undefined`, so `setElement(0, undefined, undefined)` stores one more entry
in row `0`. -/
theorem C19_blank_line_is_stored :
    ofFile "rows=2\ncols=2\n(0, 0, 1)\n(1, 1, 2)\n".toList
      = Except.ok { matrix := [(JSVal.int 0, [(JSVal.int 0, JSVal.int 1)]),
                               (JSVal.int 1, [(JSVal.int 1, JSVal.int 2)])],
                    numRows := JSVal.int 2, numCols := JSVal.int 2 } ∧
    ofFile "rows=2\ncols=2\n(0, 0, 1)\n\n(1, 1, 2)\n".toList
      = Except.ok { matrix := [(JSVal.int 0, [(JSVal.int 0, JSVal.int 1),
                                              (JSVal.undef, JSVal.undef)]),
                               (JSVal.int 1, [(JSVal.int 1, JSVal.int 2)])],
                    numRows := JSVal.int 2, numCols := JSVal.int 2 } ∧
    ofFile "rows=2\ncols=2\n(0, 0, 1)\n\n(1, 1, 2)\n".toList
      ≠ ofFile "rows=2\ncols=2\n(0, 0, 1)\n(1, 1, 2)\n".toList := by
  decide

/-- Claim C19 as amended: white space around the entry lines and around their tokens,
and blank lines after the last entry line, are ignored.  For a text `t` with a valid
header and entry lines with integer tokens, and a text `t'` with the same header and
the same entries, other white space (without line feeds) around the lines and the
tokens, and any white space after the last line, parsing `t'` succeeds and yields what
parsing `t` yields. -/
theorem C19_surrounding_whiteSpace_ignored (R C : Int)
    (ls ls' : List (Padding × (Int × Int × Int))) (tail : Str)
    (hb : ∀ x ∈ ls, x.1.Blank) (hb' : ∀ x ∈ ls', x.1.Blank)
    (hsame : ls'.map Prod.snd = ls.map Prod.snd)
    (ht : ∀ c ∈ tail, JSString.isWhiteSpace c = true) :
    ofFile (fileText R C (ls'.map fun x => paddedLine x.1 x.2) ++ tail)
      = ofFile (fileText R C (ls.map fun x => paddedLine x.1 x.2)) ∧
    ofFile (fileText R C (ls.map fun x => paddedLine x.1 x.2))
      = Except.ok (build R C (ls.map Prod.snd)) := by
  have h1 := ofFile_fileText R C ls' tail hb' ht
  have h2 := ofFile_fileText R C ls [] hb (by simp)
  rw [List.append_nil] at h2
  rw [h1, h2, hsame]
  exact ⟨rfl, rfl⟩

/-- The text `t` is what `saveToFile` writes for the entries `(0, 0, 1)` and `(1, 1, 2)`
of a 2 x 2 matrix; `t'` has spaces, a tab and a carriage return around the first line
and its tokens, and blank lines after the last line. -/
theorem C19_surrounding_whiteSpace_ignored_witness :
    fileText 2 2 ([(Padding.plain, ((0 : Int), (0 : Int), (1 : Int))),
        (Padding.plain, (1, 1, 2))].map fun x => paddedLine x.1 x.2)
      = "rows=2\ncols=2\n(0, 0, 1)\n(1, 1, 2)".toList ∧
    fileText 2 2 ([((⟨" ".toList, " ".toList, "\t".toList, [], " ".toList, "  ".toList, " ".toList,
          " \r".toList⟩ : Padding), ((0 : Int), (0 : Int), (1 : Int))),
        (Padding.plain, (1, 1, 2))].map fun x => paddedLine x.1 x.2) ++ "\n\n  \n".toList
      = "rows=2\ncols=2\n ( 0\t,0 ,  1 ) \r\n(1, 1, 2)\n\n  \n".toList ∧
    ofFile (fileText 2 2 ([((⟨" ".toList, " ".toList, "\t".toList, [], " ".toList, "  ".toList, " ".toList,
          " \r".toList⟩ : Padding), ((0 : Int), (0 : Int), (1 : Int))),
        (Padding.plain, (1, 1, 2))].map fun x => paddedLine x.1 x.2) ++ "\n\n  \n".toList)
      = Except.ok (build 2 2 [(0, 0, 1), (1, 1, 2)]) :=
  have h := C19_surrounding_whiteSpace_ignored 2 2
    [(Padding.plain, ((0 : Int), (0 : Int), (1 : Int))), (Padding.plain, (1, 1, 2))]
    [((⟨" ".toList, " ".toList, "\t".toList, [], " ".toList, "  ".toList, " ".toList,
          " \r".toList⟩ : Padding), ((0 : Int), (0 : Int), (1 : Int))), (Padding.plain, (1, 1, 2))]
    "\n\n  \n".toList (by decide) (by decide) (by decide) (by decide)
  ⟨by decide, by decide, h.1.trans h.2⟩

end SparseMatrix
